import Mathlib

/-!
# Verification of the jinn-db storage engine (`src/lib/Database.js`)

This development gives a shallow embedding of the jinn-db embedded document
store and settles the frozen claims about it.  Every definition is translated
from the JavaScript source (`src/lib/Database.js`, the current version of the
file); comments point to the functions being embedded.

Modelling conventions, chosen once and used throughout:

* JavaScript records are modelled at the JSON level by `Jinn.Item`: a record
  carries its `_id` (a string) and a list of named fields whose values are
  scalars or arrays of scalars.  Nested objects/arrays are not needed by any
  claim and are left out of the value universe.
* The block file is modelled at the record level: `fileData` maps a block
  index to `some r` when the block's bytes parse back to the record `r`, and
  to `none` when the block was never written or its payload was cut off by a
  rewrite at a smaller block size (in which case `JSON.parse` in the source
  throws and the surrounding promise rejects).  The byte length of the file is
  tracked separately in `fileLen`, since several claims are about it.
* Fallible paths (a rejected promise, a thrown `TypeError`) are modelled with
  `Option`: `none` means the operation fails instead of completing.
* Asynchronous mutation helpers (`Promise.map`, `Promise.mapSeries`) are
  modelled as sequential left-to-right loops; every concurrent map in the
  source either runs with `concurrency: 1` or touches pairwise-disjoint
  blocks, so the sequential model is the natural deterministic semantics.
* JavaScript objects used as sets of numeric keys (`blockHoles`,
  `cacheHoles`) are modelled as sorted duplicate-free lists of naturals;
  `Object.keys` on integer-like keys enumerates them in ascending order,
  which is exactly the sorted list.
* `smaz` compression only changes the encoded byte length of a record via an
  external dictionary; the model computes `JSON.stringify(...).length`
  (`Item.encLen`) and covers databases opened with `compressed: false`, for
  which that length is exact.
* The loops of the source are embedded with structural recursion; where the
  source iterates on a mutable cursor, the model recurses on an explicit
  counter that is large enough for the loop's own termination argument
  (noted at each definition).

All definitions are executable, so concrete runs of the engine reduce by
`decide`/`rfl`.
-/

namespace Jinn

/-! ## JSON values and records -/

/-- Scalar JSON value (string, number, boolean, null).  Numbers are modelled
as integers; no claim depends on non-integer arithmetic. -/
inductive Prim where
  | pnull
  | pbool (b : Bool)
  | pint (n : Int)
  | pstr (s : String)
deriving DecidableEq, Repr

/-- Field value: a scalar or an array of scalars.  (`deep-equal` on these is
structural equality.) -/
inductive Val where
  | prim (p : Prim)
  | varr (l : List Prim)
deriving DecidableEq, Repr

/-- A database record: its `_id` string plus the remaining named fields. -/
structure Item where
  id : String
  fields : List (String × Val)
deriving DecidableEq, Repr

/-- Field access `item[k]`, with `_id` resolving to the record's id.
`none` models JavaScript `undefined`. -/
def Item.get (it : Item) (k : String) : Option Val :=
  if k = "_id" then some (Val.prim (Prim.pstr it.id)) else it.fields.lookup k

/-- Length of the decimal rendering of an integer, as `JSON.stringify`
produces it. -/
def intRenderLen (n : Int) : Nat := (toString n).length

/-- Length of the JSON rendering of a scalar (strings assumed to need no
escaping, which holds for every record in this development). -/
def Prim.renderLen : Prim → Nat
  | .pnull => 4
  | .pbool true => 4
  | .pbool false => 5
  | .pint n => intRenderLen n
  | .pstr s => s.length + 2

/-- Length of the JSON rendering of a field value. -/
def Val.renderLen : Val → Nat
  | .prim p => p.renderLen
  | .varr [] => 2
  | .varr (p :: l) => 2 + p.renderLen + (l.map (fun q => q.renderLen + 1)).sum

/-- `JSON.stringify(item).length`: the encoded (uncompressed) byte length of
a record, with `_id` serialized first.  This is the `itemLength` computed in
`Database.prototype.insert` for an uncompressed database. -/
def Item.encLen (it : Item) : Nat :=
  2 + (6 + (it.id.length + 2)) +
    (it.fields.map (fun kv => 1 + (kv.1.length + 2) + 1 + kv.2.renderLen)).sum

/-! ## Queries and `Database.prototype.matches`

A query is the object handed to `matches` (source lines 435-471): a list of
entries keyed by field name or by one of the logical operators
`$or`/`$and`/`$not`.  The embedding separates the two kinds of keys into
constructors.  The logical operators carry one level of field queries, which
is as deep as any claim (or test of the repository) nests them.  Of the leaf
operator table (source lines 68-96) the embedding carries `$exists`, `$ne`,
`$in` and `$nin`; the order comparisons and `$regex` are not referenced by
any claim and are omitted from the operator table, exactly as an unrecognized
key is skipped by the source's loop. -/

/-- The value attached to a field key in a query: a literal (deep-equality
match) or an operator object such as `{$exists: true}`. -/
inductive QVal where
  | lit (v : Val)
  | ops (l : List (String × Val))
deriving DecidableEq, Repr

/-- A one-level query: field keys only. -/
abbrev FieldQuery := List (String × QVal)

/-- One entry of a query object. -/
inductive QEntry where
  | field (k : String) (qv : QVal)
  | qor (alts : List FieldQuery)
  | qand (alts : List FieldQuery)
  | qnot (q : FieldQuery)
deriving DecidableEq, Repr

abbrev Query := List QEntry

/-- Leaf operator table (`Database.prototype.operators`).  Returns `none`
for an unrecognized key (the source's lookup yields `undefined` and the key
is skipped), and `some result` for a recognized one.
`itemValue = none` models the field being `undefined`. -/
def evalLeafOp (opKey : String) (itemValue : Option Val) (testValue : Val) : Option Bool :=
  if opKey = "$exists" then
    -- source: `(itemValue === undefined) === testValue`
    match testValue with
    | .prim (.pbool b) => some ((itemValue.isNone) == b)
    | _ => some false
  else if opKey = "$ne" then
    -- source: `!deepEqual(itemValue, testValue)`
    some (!(itemValue == some testValue))
  else if opKey = "$in" then
    -- source: `testValues.indexOf(itemValue) >= 0`
    match testValue, itemValue with
    | .varr l, some (.prim p) => some (l.contains p)
    | .varr _, _ => some false
    | _, _ => some false
  else if opKey = "$nin" then
    match testValue, itemValue with
    | .varr l, some (.prim p) => some (!l.contains p)
    | .varr _, _ => some true
    | _, _ => some true
  else
    none

/-- The body of the per-key loop of `matches` for an operator object: walk
the object's keys, apply each recognized operator, and remember in
`operation` whether any operator was recognized (source lines 451-463).
Returns `(all recognized operators passed, operation)`. -/
def applyLeafOps (itemValue : Option Val) : List (String × Val) → Bool × Bool
  | [] => (true, false)
  | (k, v) :: rest =>
    match evalLeafOp k itemValue v with
    | some r =>
      if r then
        let (ok, _) := applyLeafOps itemValue rest
        (ok, true)
      else
        (false, true)
    | none =>
      applyLeafOps itemValue rest

/-- Matching of a single field entry (`matches`, one iteration of the key
loop, for a non-logical key).  The `operation` flag decides whether the
deep-equality fallback runs; with the model's value universe a fallback
comparison of an operator *object* against a field value is always false,
as `deep-equal` of an object and a scalar/array is in the source. -/
def matchesField (item : Item) (k : String) (qv : QVal) : Bool :=
  match qv with
  | .lit v =>
    -- fallback `deepEqual(queryValue, itemValue)`; false when the field is undefined
    item.get k == some v
  | .ops l =>
    let (ok, operation) := applyLeafOps (item.get k) l
    if !ok then false
    else if operation then true
    else false

/-- `matches` restricted to a one-level field query. -/
def matchesFields (item : Item) (fq : FieldQuery) : Bool :=
  fq.all fun kv => matchesField item kv.1 kv.2

/-- `Database.prototype.matches` (source lines 435-471). -/
def matchesQuery (item : Item) (q : Query) : Bool :=
  q.all fun e =>
    match e with
    | .field k qv => matchesField item k qv
    | .qor alts => alts.any fun fq => matchesFields item fq
    | .qand alts => alts.all fun fq => matchesFields item fq
    | .qnot fq => !(matchesFields item fq)

/-! ## Update directives (`Database.prototype.updateOperators`)

The embedding carries `$set`, `$unset`, `$inc`, `$push`, `$addToSet` and the
plain-assignment fallback for an unrecognized top-level key; `$min`, `$max`,
`$pop` and `$pull` are not referenced by any claim and are omitted. -/

/-- Argument of `$push`/`$addToSet` for one key: a plain value, or an
object with `$each` (and optionally `$sort` / `$slice`). -/
inductive PushArg where
  | single (v : Val)
  | eachArg (each : List Prim) (sortFlag : Bool) (slice : Option Int)
deriving DecidableEq, Repr

/-- One top-level key of an update directive. -/
inductive UpdOp where
  | set (kvs : List (String × Val))
  | unset (ks : List String)
  | inc (kvs : List (String × Int))
  | push (kvs : List (String × PushArg))
  | addToSet (kvs : List (String × PushArg))
  | assign (k : String) (v : Val)
deriving DecidableEq, Repr

abbrev Update := List UpdOp

/-- JavaScript's default `Array.prototype.sort` comparator: convert both
elements to strings and compare code units. -/
def jsDefaultStr : Prim → String
  | .pnull => "null"
  | .pbool true => "true"
  | .pbool false => "false"
  | .pint n => toString n
  | .pstr s => s

/-- `items.sort()` with the default comparator. -/
def jsDefaultSort (l : List Prim) : List Prim :=
  l.mergeSort fun a b => decide (jsDefaultStr a ≤ jsDefaultStr b)

/-- Set a record field (`item[key] = value`), with `_id` writing through to
the id when the value is a string. -/
def Item.setField (it : Item) (k : String) (v : Val) : Option Item :=
  if k = "_id" then
    match v with
    | .prim (.pstr s) => some { it with id := s }
    | _ => none  -- a non-string `_id` is outside the modelled record universe
  else if (it.fields.lookup k).isSome then
    some { it with fields := it.fields.map fun kv => if kv.1 = k then (k, v) else kv }
  else
    some { it with fields := it.fields ++ [(k, v)] }

/-- Delete a record field (`delete item[key]`). -/
def Item.unsetField (it : Item) (k : String) : Item :=
  if k = "_id" then { it with id := "" }
  else { it with fields := it.fields.filter fun kv => kv.1 ≠ k }

/-- `updateOperators.$push` for one key (source lines 156-179).  The
`forceUnique` flag is the third parameter of the source function: `$push`
calls it with `forceUnique` undefined, `$addToSet` with `true`.  Note that
with `$each` present, an element is pushed only under
`forceUnique && !arrayContains(items, element)` — the plain `$push` path
therefore appends nothing. -/
def pushKey (forceUnique : Bool) (items : List Prim) (arg : PushArg) : Option (List Prim) :=
  match arg with
  | .single (.prim p) => some (items ++ [p])
  | .single (.varr _) => none  -- pushing an array nests arrays, outside the model
  | .eachArg each sortFlag slice =>
    let l1 := each.foldl (fun acc v =>
      if forceUnique && !acc.contains v then acc ++ [v] else acc) items
    let l2 := if sortFlag then jsDefaultSort l1 else l1
    let l3 := match slice with
      | some n => l2.drop n.toNat  -- `items.splice(0, n)`; a negative count removes nothing
      | none => l2
    some l3

/-- `$push` / `$addToSet` over all keys of their argument object. -/
def pushOp (forceUnique : Bool) (it : Item) : List (String × PushArg) → Option Item
  | [] => some it
  | (k, arg) :: rest =>
    match it.get k with
    | some (.varr l) =>
      match pushKey forceUnique l arg with
      | some l' =>
        match it.setField k (.varr l') with
        | some it' => pushOp forceUnique it' rest
        | none => none
      | none => none
    | _ => none  -- `items.push` on a non-array throws

/-- Apply one top-level key of an update directive (the loop body of
`Database.prototype.update`, source lines 820-829). -/
def applyUpdOp (it : Item) : UpdOp → Option Item
  | .set kvs => kvs.foldlM (fun acc kv => acc.setField kv.1 kv.2) it
  | .unset ks => some (ks.foldl (fun acc k => acc.unsetField k) it)
  | .inc kvs => kvs.foldlM (fun acc kv =>
      match acc.get kv.1 with
      | some (.prim (.pint m)) => acc.setField kv.1 (.prim (.pint (m + kv.2)))
      | _ => none) it  -- `undefined + n` is NaN; arithmetic on non-numbers is unmodelled
  | .push kvs => pushOp false it kvs
  | .addToSet kvs => pushOp true it kvs
  | .assign k v => it.setField k v

/-- Apply a whole update directive to a record. -/
def applyUpdate (it : Item) (upd : Update) : Option Item :=
  upd.foldlM applyUpdOp it

/-! ## JavaScript 32-bit arithmetic and the header codec

`writeHeader`/`readHeader` (source lines 266-311) split `blockSize` and
`blocks` into two 32-bit halves with JavaScript's `>>`, `<<` and `&`, all of
which coerce their operands through `ToInt32`.  The helpers below are those
coercions. -/

/-- JavaScript `ToInt32`: reduce modulo 2^32 into `[-2^31, 2^31)`. -/
def jsToInt32 (x : Int) : Int :=
  let m := x % (2 ^ 32 : Int)  -- Lean's `%` on `Int` already yields `[0, 2^32)`
  if m < 2 ^ 31 then m else m - 2 ^ 32

/-- The unsigned 32-bit pattern of a JavaScript number's `ToInt32`. -/
def jsPat32 (x : Int) : Nat := (jsToInt32 x % (2 ^ 32 : Int)).toNat

/-- JavaScript `x >> k` (sign-propagating right shift of the 32-bit value). -/
def jsShr (x : Int) (k : Nat) : Int := (jsToInt32 x) / (2 ^ (k % 32) : Int)

/-- JavaScript `x << k`. -/
def jsShl (x : Int) (k : Nat) : Int := jsToInt32 (jsToInt32 x * 2 ^ (k % 32))

/-- JavaScript `x & y`. -/
def jsAnd (x y : Int) : Int := jsToInt32 (Nat.land (jsPat32 x) (jsPat32 y))

/-- `buffer.writeUInt32LE(v, off)`: the four bytes, or `none` when Node's
range assertion rejects the value. -/
def writeUInt32LEBytes (v : Int) : Option (List Nat) :=
  if 0 ≤ v ∧ v < 2 ^ 32 then
    let n := v.toNat
    some [n % 256, n / 256 % 256, n / 256 / 256 % 256, n / 256 / 256 / 256 % 256]
  else none

/-- `buffer.readUInt32LE(off)` from four bytes. -/
def readUInt32LEBytes (b : List Nat) (off : Nat) : Nat :=
  (b.getD off 0) + 256 * (b.getD (off + 1) 0) + 65536 * (b.getD (off + 2) 0) +
    16777216 * (b.getD (off + 3) 0)

/-- `writeHeader` (source lines 297-311): the 22 bytes written at offset 0 —
magic `jinn`, version 1, flags, and the two 32-bit halves of `blockSize` and
`blocks`, the upper halves computed with `>> 16 >> 16`, the lower with
`& 0xFFFFFFFF`. -/
def writeHeaderBytes (compressed : Bool) (blockSize blocks : Nat) : Option (List Nat) := do
  let bsUpper ← writeUInt32LEBytes (jsShr (jsShr blockSize 16) 16)
  let bsLower ← writeUInt32LEBytes (jsAnd blockSize 4294967295)
  let nbUpper ← writeUInt32LEBytes (jsShr (jsShr blocks 16) 16)
  let nbLower ← writeUInt32LEBytes (jsAnd blocks 4294967295)
  some ([106, 105, 110, 110, 1, if compressed then 1 else 0] ++
    bsUpper ++ bsLower ++ nbUpper ++ nbLower)

/-- `readHeader` (source lines 266-295): check magic and version, then
reassemble `blockSize` and `blocks` as `upper << 16 << 16 + lower`.
Returns `(compressed, blockSize, blocks)`. -/
def readHeaderBytes (b : List Nat) : Option (Bool × Int × Int) :=
  if b.take 4 = [106, 105, 110, 110] then
    if b.getD 4 0 = 1 then
      let flags := b.getD 5 0
      let compressed := flags = 1
      let blockSize := jsShl (jsShl (readUInt32LEBytes b 6) 16) 16 + (readUInt32LEBytes b 10 : Int)
      let blocks := jsShl (jsShl (readUInt32LEBytes b 14) 16) 16 + (readUInt32LEBytes b 18 : Int)
      some (compressed, blockSize, blocks)
    else none  -- `Invalid version`
  else none  -- `Invalid magic`

/-! ## The database state

The in-memory state of `Database` (constructor, source lines 30-57) plus the
model of the backing file. -/

/-- `{block, cached, cacheIndex}` — the per-record location record kept in
`db.items` (see `Database.prototype.load`, source lines 343-354). -/
structure ItemData where
  block : Nat
  cached : Bool
  cacheIndex : Int
deriving DecidableEq, Repr

/-- The database state.  `items` is the JavaScript object `db.items`
(insertion-ordered association list with unique keys); `fileData`/`fileLen`
model the backing file as described in the header of this file. -/
structure Database where
  items : List (String × ItemData)
  cache : List Item
  cacheHoles : List Nat
  maxCacheSize : Nat
  blocks : Nat
  blockSize : Nat
  blockHoles : List Nat
  compressed : Bool
  fileData : List (Option Item)
  fileLen : Nat
deriving DecidableEq, Repr

/-- `Database.HEADER_LENGTH` (22 bytes). -/
def headerLength : Nat := 22

/-- `Database.MAX_CACHE_SIZE_DEFAULT` (128 MiB). -/
def maxCacheSizeDefault : Nat := 134217728

/-- A freshly loaded empty database: `load` on a missing/empty file fails
`readHeader` and falls into the `catch` that writes a fresh header (source
lines 313-361), leaving `blocks = 0`, `blockSize = 0` and a 22-byte file. -/
def Database.empty (compressed : Bool) : Database where
  items := []
  cache := []
  cacheHoles := []
  maxCacheSize := maxCacheSizeDefault
  blocks := 0
  blockSize := 0
  blockHoles := []
  compressed := compressed
  fileData := []
  fileLen := headerLength

/-- Insert into a sorted duplicate-free list of naturals: the model of
setting `obj[n] = true` on a JavaScript object used as a set (`Object.keys`
lists integer-like keys in ascending order). -/
def holeInsert (l : List Nat) (n : Nat) : List Nat :=
  match l with
  | [] => [n]
  | x :: rest =>
    if n < x then n :: x :: rest
    else if n = x then x :: rest
    else x :: holeInsert rest n

/-- Replace the binding of `id` if present, else append — the JavaScript
assignment `obj[id] = v`. -/
def assocSet (l : List (String × ItemData)) (id : String) (d : ItemData) :
    List (String × ItemData) :=
  if (l.lookup id).isSome then
    l.map fun p => if p.1 = id then (id, d) else p
  else
    l ++ [(id, d)]

/-- `cache[ci]` where `ci` is the JavaScript number stored in `cacheIndex`
(negative indices read `undefined`). -/
def cacheGet (db : Database) (ci : Int) : Option Item :=
  if ci < 0 then none else db.cache.get? ci.toNat

/-- Write `v` at index `i`, extending the list with `none` as a byte file is
extended by a write past its end. -/
def listSetPad (l : List (Option Item)) (i : Nat) (v : Option Item) : List (Option Item) :=
  if i < l.length then l.set i v
  else l ++ List.replicate (i - l.length) none ++ [v]

/-! ## Block file primitives (source lines 211-264) -/

/-- `readFromBlock`: read a block and parse it (`none` = the read or
`JSON.parse` fails and the promise rejects). -/
def readFromBlock (db : Database) (block : Nat) : Option Item :=
  match db.fileData.get? block with
  | some (some r) => some r
  | _ => none

/-- `writeToBlock` with an explicit block size (the optional `blockSize`
parameter of the source; callers pass `db.blockSize` by default).  The
record's bytes survive on disk iff they fit in the block; a longer record is
silently cut off by `compressedBuffer.copy(buffer)` / `buffer.write`, after
which the block no longer parses. -/
def writeToBlock (db : Database) (block : Nat) (item : Item) (bs : Nat) : Database :=
  { db with
    fileData := listSetPad db.fileData block (if item.encLen ≤ bs then some item else none)
    fileLen := max db.fileLen (headerLength + (block + 1) * bs) }

/-- `fsFTruncate(db.fd, n)`: the file's byte length becomes exactly `n`;
block slots beyond the new length are gone. -/
def truncateFile (db : Database) (newLen : Nat) (keepBlocks : Nat) : Database :=
  { db with fileLen := newLen, fileData := db.fileData.take keepBlocks }

/-! ## Scan engine (source lines 375-433) -/

/-- The loop body of `iterateOutOfCore`, recursing on the number of blocks
still to visit.  `handler` is the visitor; it threads a state of type `σ`
(the source's handlers close over mutable state) and returns the
continue/stop boolean; a `none` from the handler or a failing block read
rejects the whole iteration.  The second component of the result is
`!cancelled`. -/
def oocAux (db : Database) (handler : σ → Item → Option (σ × Bool)) :
    Nat → Nat → σ → Option (σ × Bool)
  | 0, _, st => some (st, true)
  | rem + 1, index, st =>
    match readFromBlock db index with
    | none => none
    | some item =>
      match handler st item with
      | none => none
      | some (st', cont) =>
        if cont then oocAux db handler rem (index + 1) st'
        else some (st', false)

/-- `Database.prototype.iterateOutOfCore` (source lines 375-412): read the
blocks `[startBlock, db.blocks)` in index order, feeding each decoded record
to the handler; a handler `stop` halts the scan.  (`Promise.map` is modelled
sequentially; reads the source would still have in flight after a stop
discard their results.)  Note that `blockHoles` is not consulted. -/
def iterateOutOfCore (db : Database) (startBlock : Nat)
    (handler : σ → Item → Option (σ × Bool)) (st : σ) : Option (σ × Bool) :=
  oocAux db handler (db.blocks - startBlock) startBlock st

/-- The in-cache loop of `Database.prototype.iterate` (source lines
418-428), walking the entries of `db.items` in insertion order and invoking
the handler on `cache[item.cacheIndex]` for the cached ones.  The boolean
result is the `stopped` flag.  A cached entry whose `cacheIndex` does not
point into the cache would make the source hand `undefined` to the handler;
the model treats that as a failure. -/
def iterateCached (db : Database) (handler : σ → Item → Option (σ × Bool)) :
    σ → List (String × ItemData) → Option (σ × Bool)
  | st, [] => some (st, false)
  | st, (_, d) :: rest =>
    if d.cached then
      match cacheGet db d.cacheIndex with
      | none => none
      | some item =>
        match handler st item with
        | none => none
        | some (st', cont) =>
          if cont then iterateCached db handler st' rest
          else some (st', true)
    else iterateCached db handler st rest

/-- `Database.prototype.iterate` (source lines 414-433): the cached pass,
then — whenever `blocks > cache.length`, and regardless of whether the
cached pass stopped — the out-of-core pass from block `cache.length`.
The boolean result is `completed`. -/
def iterate (db : Database) (handler : σ → Item → Option (σ × Bool)) (st : σ) :
    Option (σ × Bool) :=
  match iterateCached db handler st db.items with
  | none => none
  | some (st1, stopped) =>
    if db.cache.length < db.blocks then
      iterateOutOfCore db db.cache.length handler st1
    else
      some (st1, !stopped)

/-! ## find (source lines 473-530) -/

/-- Options accepted by `find` (and forwarded by `remove`/`update`). -/
structure FindOptions where
  limit : Option Nat := none
  sort : Option (Item → Item → Int) := none
  projections : Option (List (String × Bool)) := none

/-- `ToPropertyKey` for the scalar the fast path of `find` uses as an index
into `db.items`. -/
def jsPropKey : Val → Option String
  | .prim p => some (jsDefaultStr p)
  | .varr _ => none  -- an array key never names a record id

/-- The `query._id` read by the fast path of `find`: the literal value bound
to `_id`, if the query binds one. -/
def queryIdVal (q : Query) : Option Val :=
  q.findSome? fun e =>
    match e with
    | .field k (.lit v) => if k = "_id" then some v else none
    | _ => none

/-- `results.sort(options.sort)` (only reached by the bounded-top-k branch
of `addToResults`). -/
def jsSortItems (cmp : Item → Item → Int) (l : List Item) : List Item :=
  l.mergeSort fun a b => decide (cmp a b ≤ 0)

/-- Does the query ask for one record by a plain string id?  This is the
`query._id !== undefined && typeof query._id === 'string' &&
query._id.indexOf('$') < 0` test of `addToResults`. -/
def queryIdIsPlainString (q : Query) : Bool :=
  match queryIdVal q with
  | some (.prim (.pstr s)) => !(s.toList.contains '$')
  | _ => false

/-- Projection application inside `addToResults` (source lines 476-486):
drop every key that is not explicitly included, keeping `_id` unless it is
explicitly excluded. -/
def applyProjections (item : Item) (proj : List (String × Bool)) : Item :=
  let keep : String → Bool := fun k =>
    match proj.lookup k with
    | some true => true
    | some false => false
    | none => k = "_id"
  { id := if keep "_id" then item.id else ""
    fields := item.fields.filter fun kv => keep kv.1 }

/-- `addToResults` (source lines 473-502): clone, project, push, and decide
whether the scan continues. -/
def addToResults (item : Item) (q : Query) (results : List Item)
    (options : FindOptions) : List Item × Bool :=
  let item := match options.projections with
    | some proj => applyProjections item proj
    | none => item
  let results := results ++ [item]
  if queryIdIsPlainString q then
    (results, false)
  else
    match options.limit with
    | some limit =>
      if results.length = limit ∧ options.sort.isNone then (results, false)
      else if results.length > limit then
        let sorted := match options.sort with
          | some cmp => jsSortItems cmp results
          | none => results  -- `sort(undefined)` sorts by string; unreachable here
        (sorted.dropLast, true)
      else (results, true)
    | none => (results, true)

/-- `Database.prototype.find` (source lines 504-530): the by-id fast path
when the query's `_id` key resolves to a known id, else the full scan
filtered through `matches`/`addToResults`. -/
def find (db : Database) (q : Query) (options : FindOptions) : Option (List Item) :=
  let general : Option (List Item) :=
    (iterate db (fun results item =>
        if matchesQuery item q then some (addToResults item q results options)
        else some (results, true)) []).map Prod.fst
  match (queryIdVal q).bind jsPropKey with
  | some idKey =>
    match db.items.lookup idKey with
    | some d =>
      (if d.cached then cacheGet db d.cacheIndex else readFromBlock db d.block).map
        fun r => [r]
    | none => general
  | none => general

/-! ## resize (source lines 532-601) -/

/-- Loop computing `nextPowerOfTwo` (the source computes it with
floating-point logarithms; for the inputs arising here both agree on the
least power of two that is `≥ num`).  The counter is the number of doublings
still allowed; `num` doublings always suffice. -/
def nextPow2Aux (num : Nat) : Nat → Nat → Nat
  | 0, acc => acc
  | fuel + 1, acc => if num ≤ acc then acc else nextPow2Aux num fuel (2 * acc)

/-- `nextPowerOfTwo` (source lines 532-534). -/
def nextPow2 (num : Nat) : Nat :=
  if num = 0 then 0 else nextPow2Aux num num 1

/-- The on-disk pass of `resize` for one block index: read
`min(db.blockSize, buffer.length)` bytes of the block at the old layout and
write them back at the new layout.  At the record level the block keeps its
record iff the record's bytes were among those read. -/
def resizeMoveBlockData (old new : Nat) : Option Item → Option Item
  | some r => if r.encLen ≤ min old new then some r else none
  | none => none

/-- The in-memory pass of `resize`: rewrite every cached record at its block
under the new block size (`Promise.map(cache, ...)`, source lines 582-585).
Fails if a cached record's id is missing from the index (`itemData.block`
would throw). -/
def resizeCachePass (bs : Nat) : Database → List Item → Option Database
  | db, [] => some db
  | db, item :: rest =>
    match db.items.lookup item.id with
    | none => none
    | some d => resizeCachePass bs (writeToBlock db d.block item bs) rest

/-- The cache-shrinking loop at the end of `resize` (source lines 590-595):
pop the cache while it exceeds `maxCacheSize`, marking each popped record
uncached.  Recursion on the cache length, which each pop decreases. -/
def resizePopLoop : Nat → Database → Option Database
  | 0, db => some db
  | fuel + 1, db =>
    if db.maxCacheSize < db.blockSize * db.cache.length then
      match db.cache.getLast? with
      | none => none  -- `cache.pop()` on an empty cache; unreachable since `bs * 0 = 0`
      | some item =>
        match db.items.lookup item.id with
        | none => none  -- `db.items[item._id]` undefined
        | some d =>
          resizePopLoop fuel
            { db with
              cache := db.cache.dropLast
              items := assocSet db.items item.id { d with cached := false, cacheIndex := -1 } }
    else some db

/-- `Database.prototype.resize` (source lines 536-601).  When
`blocks > cache.length` the on-disk tail `[cache.length, blocks)` is moved
to the new layout (tail-first when growing, head-first when shrinking — at
the record level both orders leave each block's payload at its own index,
truncated to the bytes that were moved) and, when shrinking, the file is
truncated; when every record is cached the disk pass — including the
truncation — is skipped.  Then every cached record is rewritten at the new
block size, `blockSize` is updated, and the cache is popped down to
`maxCacheSize`. -/
def resize (db0 : Database) (bs : Nat) : Option Database :=
  if bs = db0.blockSize then some db0 else
  let old := db0.blockSize
  let db1 :=
    if db0.cache.length < db0.blocks then
      let moved := { db0 with
        fileData := (List.range db0.fileData.length).zipWith
          (fun i c => if db0.cache.length ≤ i ∧ i < db0.blocks then
              resizeMoveBlockData old bs c else c)
          db0.fileData
        fileLen := max db0.fileLen (headerLength + db0.blocks * bs) }
      if bs ≤ old then
        truncateFile moved (headerLength + db0.blocks * bs) db0.blocks
      else moved
    else db0
  match resizeCachePass bs db1 db1.cache with
  | none => none
  | some db2 => resizePopLoop (db2.cache.length + 1) { db2 with blockSize := bs }

/-! ## insert (source lines 603-662) -/

/-- `Database.prototype.insert` for a single record.  `freshId` stands for
the `uuid.v1()` the source draws when the record has no (truthy) `_id`.
An array argument is inserted element by element with `concurrency: 1`,
i.e. by folding this function; the claims quantify over single records. -/
def insert (db0 : Database) (freshId : String) (item0 : Item) : Option Database :=
  let blocksCaptured := db0.blocks  -- `var blocks = this.blocks;` at entry
  let item := if item0.id ≠ "" then item0 else { item0 with id := freshId }
  let existing := if item0.id ≠ "" then db0.items.lookup item0.id else none
  let (d, dbA) :=
    match existing with
    | some d => (d, db0)
    | none => ({ block := db0.blocks, cached := false, cacheIndex := -1 : ItemData },
               { db0 with blocks := db0.blocks + 1 })
  let block := d.block  -- `var block = itemData.block;`
  let dbB := { dbA with items := assocSet dbA.items item.id d }
  let itemLength := item.encLen
  let resized : Option Database :=
    if dbB.blockSize < itemLength then
      if 1 < dbB.blocks then resize dbB (nextPow2 itemLength)
      else some { dbB with blockSize := nextPow2 itemLength }
    else some dbB
  match resized with
  | none => none
  | some db1 =>
    -- the shared `itemData` object may have been mutated by resize's pop loop
    match db1.items.lookup item.id with
    | none => none
    | some d' =>
      let db2 :=
        if d'.cached then
          { db1 with cache := db1.cache.set d'.cacheIndex.toNat item }
        else if blocksCaptured ≤ db1.cache.length ∧
            db1.blockSize * (db1.cache.length + 1) ≤ db1.maxCacheSize then
          { db1 with
            items := assocSet db1.items item.id
              { d' with cached := true, cacheIndex := (db1.cache.length : Int) }
            cache := db1.cache ++ [item] }
        else db1
      some (writeToBlock db2 block item db2.blockSize)

/-! ## Hole compaction (source lines 664-767) -/

/-- The inner `while (holes[i]) i--` of `getLastNBlocks` /
`getLastNCacheIndices`: skip downwards past hole indices.  A negative cursor
reads `undefined` and stops.  The counter dominates the number of
decrements. -/
def skipHoles (holes : List Nat) : Nat → Int → Int
  | 0, i => i
  | fuel + 1, i =>
    if 0 ≤ i ∧ holes.contains i.toNat then skipHoles holes fuel (i - 1) else i

/-- The outer loop of `getLastNBlocks` / `getLastNCacheIndices`.  Note the
source pushes the cursor *after* the inner skip without rechecking `i >= 0`,
so a final `-1` can be pushed.  The counter dominates the number of outer
iterations (the cursor decreases every round). -/
def getLastNAux (holes : List Nat) (n : Nat) : Nat → Int → List Int → List Int
  | 0, _, acc => acc
  | fuel + 1, i, acc =>
    if acc.length < n ∧ 0 ≤ i then
      let j := skipHoles holes (i.toNat + 1) i
      getLastNAux holes n fuel (j - 1) (acc ++ [j])
    else acc

/-- `getLastNBlocks` (source lines 678-689): the up-to-`n` highest-index
blocks that are not block holes, in descending order. -/
def getLastNBlocks (db : Database) (n : Nat) : List Int :=
  getLastNAux db.blockHoles n (n + 1) ((db.blocks : Int) - 1) []

/-- `getLastNCacheIndices` (source lines 691-703): the up-to-`n`
highest-index cache slots that are not cache holes, in descending order. -/
def getLastNCacheIndices (db : Database) (n : Nat) : List Int :=
  getLastNAux db.cacheHoles n (n + 1) ((db.cache.length : Int) - 1) []

/-- `moveBlock` (source lines 664-676): read and parse the block at
`fromBlock`, point its record's index entry at `toBlock`, and write the raw
buffer there.  Returns the moved record alongside the new state. -/
def moveBlock (db : Database) (fromBlock : Int) (toBlock : Nat) :
    Option (Database × Item) :=
  if fromBlock < 0 then none  -- a negative read offset rejects
  else
    match readFromBlock db fromBlock.toNat with
    | none => none
    | some item =>
      match db.items.lookup item.id with
      | none => none  -- `itemData.block = toBlock` on undefined throws
      | some d =>
        some ({ db with
          items := assocSet db.items item.id { d with block := toBlock }
          fileData := listSetPad db.fileData toBlock (some item)
          fileLen := max db.fileLen (headerLength + (toBlock + 1) * db.blockSize) }, item)

/-- Phase 1 of `fillHoles` (source lines 711-725): walk the block holes in
ascending order, paired positionally with `getLastNBlocks`; when the source
block is truthy and above the hole, move it down, and if the moved record is
not cached and a cache hole remains, shift the smallest cache hole and place
the record there.  The updated state and the unconsumed cache holes are
returned. -/
def fillHolesPhase1 : Database → List Nat → List Int → List Nat →
    Option (Database × List Nat)
  | db, [], _, ch => some (db, ch)
  | db, _ :: hs, [], ch => fillHolesPhase1 db hs [] ch  -- `fromBlocks[index]` undefined
  | db, h :: hs, f :: fs, ch =>
    if f ≠ 0 ∧ (h : Int) < f then
      match moveBlock db f h with
      | none => none
      | some (db1, item) =>
        match db1.items.lookup item.id with
        | none => none
        | some d =>
          if ¬d.cached ∧ ch ≠ [] then
            match ch with
            | hole :: chRest =>
              fillHolesPhase1
                { db1 with
                  items := assocSet db1.items item.id
                    { d with cached := true, cacheIndex := (hole : Int) }
                  cache := db1.cache.set hole item }
                hs fs chRest
            | [] => none  -- contradicts `ch ≠ []`
          else
            fillHolesPhase1 db1 hs fs ch
    else fillHolesPhase1 db hs fs ch

/-- The cache-repair loop of `fillHoles` (source lines 736-748): for each
remaining cache hole below the new cache size, shift the next of the
`getLastNCacheIndices` slots and move its record into the hole.  The loop
also stops as soon as `indices` is exhausted. -/
def repairLoop (ncs : Nat) : Database → List Nat → List Int → Option Database
  | db, [], _ => some db
  | db, _ :: _, [] => some db
  | db, c :: cs, idx :: rest =>
    if c < ncs then
      if idx < 0 then none  -- `cache[-1]` is undefined
      else
        match db.cache.get? idx.toNat with
        | none => none  -- `undefined._id` throws
        | some item =>
          match db.items.lookup item.id with
          | none => none
          | some d =>
            repairLoop ncs
              { db with
                items := assocSet db.items item.id { d with cacheIndex := (c : Int) }
                cache := db.cache.set c item }
              cs rest
    else repairLoop ncs db cs (idx :: rest)

/-- `fillHoles` (source lines 705-756): move tail blocks into the block
holes, truncate, then repair the cache and pop it to the new size.  Note the
source consults the *original* `db.cacheHoles` object in
`getLastNCacheIndices` (the holes consumed in phase 1 are still marked), and
the final pop loop does not update the popped records' index entries. -/
def fillHoles (db0 : Database) : Option (Database) :=
  let blocks0 := db0.blocks
  let bh := db0.blockHoles
  let ch0 := db0.cacheHoles
  let fromBlocks := getLastNBlocks db0 bh.length
  match fillHolesPhase1 db0 bh fromBlocks ch0 with
  | none => none
  | some (db1, chRem) =>
    let blocks' := blocks0 - bh.length
    let db2 := truncateFile
      { db1 with blockHoles := [], blocks := blocks' }
      (headerLength + blocks' * db1.blockSize) blocks'
    let ncs := min db2.blocks (db2.cache.length - chRem.length)
    let repaired :=
      if 0 < chRem.length then
        repairLoop ncs db2 chRem (getLastNCacheIndices db2 chRem.length)
      else some db2
    match repaired with
    | none => none
    | some db3 =>
      -- `while (db.cache.length > newCacheSize) db.cache.pop();` then clear holes
      some { db3 with cache := db3.cache.take ncs, cacheHoles := [] }

/-! ## remove and update (source lines 758-836) -/

/-- `removeItem` (source lines 758-767): mark the record's cache slot and
block as holes and delete it from the index. -/
def removeItem (db : Database) (id : String) : Option Database :=
  match db.items.lookup id with
  | none => none  -- `itemData.cached` on undefined throws
  | some d =>
    let db := if d.cached then
        { db with cacheHoles := holeInsert db.cacheHoles d.cacheIndex.toNat }
      else db
    some { db with
      blockHoles := holeInsert db.blockHoles d.block
      items := db.items.filter fun p => p.1 ≠ id }

/-- `Number.MAX_VALUE`, the default `limit` of `remove`:
`(2^53 - 1) * 2^971`. -/
def jsMaxValue : Nat := (2 ^ 53 - 1) * 2 ^ 971

/-- Options accepted by `remove`. -/
structure RemoveOptions where
  limit : Option Nat := none
  sort : Option (Item → Item → Int) := none

/-- `Database.prototype.remove` (source lines 769-807).  Unsorted path:
scan with a handler that removes matches (stopping once `limit` is
reached); sorted path: `find` with the defaulted options, then remove every
result.  `fillHoles` runs iff something was removed.  Returns
`numRemoved`. -/
def remove (db0 : Database) (q : Query) (opts : RemoveOptions) :
    Option (Nat × Database) :=
  let limit := opts.limit.getD jsMaxValue
  let marked : Option (Database × Nat) :=
    match opts.sort with
    | none =>
      (iterate db0 (fun (st : Database × Nat) item =>
        if matchesQuery item q then
          match removeItem st.1 item.id with
          | none => none
          | some db1 =>
            let n := st.2 + 1
            some ((db1, n), decide (n < limit))
        else some (st, true)) (db0, 0)).map Prod.fst
    | some cmp =>
      match find db0 q { limit := some limit, sort := some cmp } with
      | none => none
      | some results =>
        (results.foldlM (fun (st : Database × Nat) r =>
          (removeItem st.1 r.id).map fun db1 => (db1, st.2 + 1)) (db0, 0))
  match marked with
  | none => none
  | some (db1, n) =>
    if 0 < n then (fillHoles db1).map fun db2 => (n, db2)
    else some (n, db1)

/-- `Database.prototype.update` (source lines 809-836): find the matching
records, apply the directive to each copy, and re-insert it.
`freshIds` supplies one `uuid.v1()` per re-insert (used only when an update
removed the `_id`). -/
def update (db0 : Database) (q : Query) (upd : Update) (opts : FindOptions)
    (freshIds : List String) : Option (Nat × Database) :=
  match find db0 q opts with
  | none => none
  | some results =>
    let step : Database × List String → Item → Option (Database × List String) :=
      fun (db, fresh) item =>
        match applyUpdate item upd with
        | none => none
        | some item' =>
          match insert db (fresh.headD "") item' with
          | none => none
          | some db' => some (db', fresh.tail)
    (results.foldlM step (db0, freshIds)).map fun st => (results.length, st.1)

/-! ## Invariants

`CacheInv` is invariant 3 of the specification, the property claimed to hold
in every reachable state.  `StateInv` is the inductive strengthening actually
preserved by the operations: it pins the cache to be the *aligned* prefix of
the block sequence (`cacheIndex = block`), records the structural facts about
the index, and asserts that a parseable block belongs to its record
(`diskIdOKB`).  `DiskLive` additionally asserts that the blocks of uncached
records parse — true until a `resize` below a record's encoded length
corrupts its block, and required for a scan to resolve. -/

/-- A parseable block holds the record of its owner. -/
def diskIdOKB (s : Database) (p : String × ItemData) : Bool :=
  match s.fileData.get? p.2.block with
  | some (some r) => r.id == p.1
  | _ => true

/-- The block of an uncached record parses back to that record. -/
def diskLiveOKB (s : Database) (p : String × ItemData) : Bool :=
  match s.fileData.get? p.2.block with
  | some (some r) => r.id == p.1
  | _ => false

/-- Invariant 3 of the specification: every cached id's `cacheIndex` is a
real cache slot holding a record with that id, and the cached records are
exactly those in blocks `0 .. cache.length - 1`. -/
def CacheInv (s : Database) : Prop :=
  ∀ p ∈ s.items,
    (p.2.cached = true →
      0 ≤ p.2.cacheIndex ∧ p.2.cacheIndex.toNat < s.cache.length ∧
      (s.cache.get? p.2.cacheIndex.toNat).map Item.id = some p.1) ∧
    (p.2.cached = true ↔ p.2.block < s.cache.length)

/-- Per-record part of the inductive invariant. -/
def entryOK (s : Database) (p : String × ItemData) : Prop :=
  p.2.block < s.blocks ∧
  (p.2.cached = true ↔ p.2.block < s.cache.length) ∧
  (p.2.cached = true →
    p.2.cacheIndex = (p.2.block : Int) ∧
    (s.cache.get? p.2.block).map Item.id = some p.1) ∧
  diskIdOKB s p = true

/-- The inductive invariant of the engine state. -/
def StateInv (s : Database) : Prop :=
  (s.items.map Prod.fst).Nodup ∧
  (s.items.map fun p => p.2.block).Nodup ∧
  s.items.length = s.blocks ∧
  s.cache.length ≤ s.blocks ∧
  s.blockHoles = [] ∧
  s.cacheHoles = [] ∧
  s.fileData.length ≤ s.blocks ∧
  ∀ p ∈ s.items, entryOK s p

/-- Every uncached record is readable from its block. -/
def DiskLive (s : Database) : Prop :=
  ∀ p ∈ s.items, p.2.cached = false → diskLiveOKB s p = true

/-- The hypotheses under which a reachable database scans without failing:
the inductive invariant plus readability of the out-of-core records. -/
def Inv (s : Database) : Prop := StateInv s ∧ DiskLive s

instance (s : Database) (p : String × ItemData) : Decidable (entryOK s p) := by
  unfold entryOK; infer_instance

instance (s : Database) : Decidable (CacheInv s) := by
  unfold CacheInv; infer_instance

instance (s : Database) : Decidable (StateInv s) := by
  unfold StateInv; infer_instance

instance (s : Database) : Decidable (DiskLive s) := by
  unfold DiskLive; infer_instance

instance (s : Database) : Decidable (Inv s) := by
  unfold Inv; infer_instance

/-! ## Reachable states

States produced from a freshly loaded empty (uncompressed) database by
completed public operations.  `tune` is the documented runtime mutation of
the `maxCacheSize` field.  A `freshId` stands for a `uuid.v1()` draw; a v1
uuid never collides with an id already in the index, which is the
`freshId ∉ ids` hypothesis on the steps that may consume one. -/

/-- The ids an update directive can write into `_id` (via `$set` or the
plain-assignment fallback); a fresh uuid never collides with these. -/
def updAssignedIds (upd : Update) : List String :=
  upd.foldr (fun op acc =>
    match op with
    | .set kvs => (kvs.filterMap fun kv =>
        if kv.1 = "_id" then
          match kv.2 with
          | .prim (.pstr x) => some x
          | _ => none
        else none) ++ acc
    | .assign k v =>
      (if k = "_id" then
        match v with
        | .prim (.pstr x) => some x
        | _ => none
      else none).toList ++ acc
    | _ => acc) []

inductive Reachable : Database → Prop where
  | init : Reachable (Database.empty false)
  | tune {s : Database} (m : Nat) : Reachable s → Reachable { s with maxCacheSize := m }
  | insertStep {s s' : Database} (freshId : String) (item : Item) :
      Reachable s →
      (item.id = "" → freshId ∉ s.items.map Prod.fst ∧ freshId ≠ "") →
      insert s freshId item = some s' → Reachable s'
  | removeStep {s s' : Database} (q : Query) (opts : RemoveOptions) (n : Nat) :
      Reachable s → remove s q opts = some (n, s') → Reachable s'
  | updateStep {s s' : Database} (q : Query) (upd : Update) (opts : FindOptions)
      (freshIds : List String) (n : Nat) :
      Reachable s →
      freshIds.Nodup →
      (∀ id ∈ freshIds,
        id ∉ s.items.map Prod.fst ∧ id ∉ updAssignedIds upd ∧ id ≠ "") →
      (∀ rs, find s q opts = some rs → rs.length ≤ freshIds.length) →
      update s q upd opts freshIds = some (n, s') → Reachable s'
  | resizeStep {s s' : Database} (bs : Nat) :
      Reachable s → resize s bs = some s' → Reachable s'

/-! ## Derived views and concrete states used by the theorems -/

/-- The record a live index entry denotes: the cache slot when cached, the
decoded block otherwise. -/
def recordOf (s : Database) (d : ItemData) : Option Item :=
  if d.cached then cacheGet s d.cacheIndex else readFromBlock s d.block

/-- The records of the blocks `[start, blocks)`, in block order; `none` when
one of them does not parse. -/
def blockRecords (db : Database) (start : Nat) : Option (List Item) :=
  (List.range' start (db.blocks - start)).mapM (readFromBlock db)

/-- The records the cached pass of `iterate` visits, in index order. -/
def cachedTrace (db : Database) : List Item :=
  db.items.filterMap fun p => if p.2.cached then cacheGet db p.2.cacheIndex else none

/-- The records the out-of-core pass of `iterate` visits. -/
def oocTrace (db : Database) : List Item :=
  (List.range' db.cache.length (db.blocks - db.cache.length)).filterMap (readFromBlock db)

/-- All records `iterate` visits, in visiting order. -/
def liveTrace (db : Database) : List Item :=
  cachedTrace db ++ oocTrace db

/-- The query `{_id: idStr}`. -/
def idQuery (idStr : String) : Query :=
  [.field "_id" (.lit (.prim (.pstr idStr)))]

/-- A handler recording the records it is invoked on, always continuing. -/
def traceHandler : List Item → Item → Option (List Item × Bool) :=
  fun acc it => some (acc ++ [it], true)

/-- A handler recording the records it is invoked on and returning `stop` on
the first one. -/
def stopOnceHandler : List Item → Item → Option (List Item × Bool) :=
  fun acc it => some (acc ++ [it], !acc.isEmpty)

def recA : Item := { id := "a", fields := [] }
def recB : Item := { id := "b", fields := [] }

/-- A two-record database, record `a` cached and record `b` out-of-core
(`maxCacheSize` admits one 16-byte slot); satisfies `Inv`. -/
def invDB : Database where
  items := [("a", { block := 0, cached := true, cacheIndex := 0 }),
            ("b", { block := 1, cached := false, cacheIndex := -1 })]
  cache := [recA]
  cacheHoles := []
  maxCacheSize := 16
  blocks := 2
  blockSize := 16
  blockHoles := []
  compressed := false
  fileData := [some recA, some recB]
  fileLen := 54

/-- A state in the middle of a removal: block 0 is marked as a hole.
(`iterateOutOfCore` takes no notice.) -/
def holeDB : Database where
  items := []
  cache := []
  cacheHoles := []
  maxCacheSize := maxCacheSizeDefault
  blocks := 2
  blockSize := 16
  blockHoles := [0]
  compressed := false
  fileData := [some recA, some recB]
  fileLen := 54

/-- A fully cached two-record database; satisfies `Inv`. -/
def fullDB : Database where
  items := [("a", { block := 0, cached := true, cacheIndex := 0 }),
            ("b", { block := 1, cached := true, cacheIndex := 1 })]
  cache := [recA, recB]
  cacheHoles := []
  maxCacheSize := 32
  blocks := 2
  blockSize := 16
  blockHoles := []
  compressed := false
  fileData := [some recA, some recB]
  fileLen := 54

/-- `{_id: "a", color: "red"}` — an id-bearing query that record `a` (which
has no `color` field) does not match. -/
def idColorQuery : Query :=
  [.field "_id" (.lit (.prim (.pstr "a"))),
   .field "color" (.lit (.prim (.pstr "red")))]

/-- The record `{_id:"x", arr:[1]}`. -/
def pushItem : Item := { id := "x", fields := [("arr", .varr [.pint 1])] }

/-- The directive `{$push: {arr: {$each: [2,3]}}}`. -/
def pushDirective : Update := [.push [("arr", .eachArg [.pint 2, .pint 3] false none)]]

/-- The directive `{$addToSet: {arr: {$each: [2,3]}}}`. -/
def addToSetDirective : Update := [.addToSet [("arr", .eachArg [.pint 2, .pint 3] false none)]]

/-- No live record matches the query: the hypothesis of the remove
frame property, phrased executably. -/
def noLiveMatch (s : Database) (q : Query) : Bool :=
  s.items.all fun p =>
    match recordOf s p.2 with
    | some r => !(matchesQuery r q)
    | none => true

/-! ## Views and invariants for the hole-compaction proof (C1) -/

/-- The blocks of the live records, in index order. -/
def liveBlocks (db : Database) : List Nat :=
  db.items.map fun p => p.2.block

/-- The generalized invariant holding between `removeItem` marks and the
`fillHoles` compaction: `StateInv` with the hole sets populated.  The hole
lists are sorted ascending (JavaScript `Object.keys` order); the cache
holes are exactly the block holes below the cache length, because every
removed cached record sat at `cacheIndex = block`. -/
def MarkedInv (s : Database) : Prop :=
  (s.items.map Prod.fst).Nodup ∧
  (liveBlocks s).Nodup ∧
  s.items.length + s.blockHoles.length = s.blocks ∧
  s.cache.length ≤ s.blocks ∧
  s.blockHoles.Pairwise (· < ·) ∧
  (∀ h ∈ s.blockHoles, h < s.blocks) ∧
  s.cacheHoles = s.blockHoles.filter (fun x => x < s.cache.length) ∧
  (∀ p ∈ s.items, p.2.block ∉ s.blockHoles) ∧
  s.fileData.length ≤ s.blocks ∧
  (∀ p ∈ s.items, entryOK s p)

/-- The state after the on-disk pass of `resize` (the value the source's
`Promise.resolve()` chain has built when it reaches the cache pass),
written as a standalone definition so the proofs can case on it. -/
def resizeTarget (s : Database) (bs : Nat) : Database :=
  if s.cache.length < s.blocks then
    let moved := { s with
      fileData := (List.range s.fileData.length).zipWith
        (fun i c => if s.cache.length ≤ i ∧ i < s.blocks then
            resizeMoveBlockData s.blockSize bs c else c)
        s.fileData
      fileLen := max s.fileLen (headerLength + s.blocks * bs) }
    if bs ≤ s.blockSize then
      truncateFile moved (headerLength + s.blocks * bs) s.blocks
    else moved
  else s

/-- The invariant threaded through the moving regime of `fillHoles`' first
phase.  `T` is the target number of blocks (the live-record count), `C` the
cache length, `B` the block count and `ch0` the original `cacheHoles`
object, all fixed for the whole run; `hs`/`fs`/`ch` are the unprocessed
suffixes of the hole list, the `getLastNBlocks` list and the cache-hole
array; `disp` records the cached movers displaced so far as
`(block, slot)` pairs in processing order (blocks ascending, their old
cache slots descending). -/
structure P1Inv (T C B : Nat) (ch0 : List Nat) (db : Database)
    (hs : List Nat) (fs : List Int) (ch : List Nat)
    (disp : List (Nat × Nat)) : Prop where
  blocks_eq : db.blocks = B
  cache_len : db.cache.length = C
  ch0_eq : db.cacheHoles = ch0
  ch0_nodup : ch0.Nodup
  cle : C ≤ B
  tle : T ≤ B
  fdlen : db.fileData.length ≤ B
  ids_nodup : (db.items.map Prod.fst).Nodup
  blocks_nodup : (db.items.map fun p => p.2.block).Nodup
  items_len : db.items.length = T
  blocks_lt : ∀ p ∈ db.items, p.2.block < B
  hs_sorted : hs.Pairwise (· < ·)
  hs_lt : ∀ x ∈ hs, x < B
  hs_ch0 : ∀ x ∈ hs, x < C → x ∈ ch0
  hs_not_live : ∀ p ∈ db.items, p.2.block ∉ hs
  cover : ∀ b, b < T → (∃ p ∈ db.items, p.2.block = b) ∨ b ∈ hs
  fs_desc : fs.Pairwise (· > ·)
  fs_live : ∀ f ∈ fs, f = -1 ∨
    (0 ≤ f ∧ ∃ p ∈ db.items, (p.2.block : Int) = f)
  fs_top : ∀ p ∈ db.items, T ≤ p.2.block → (p.2.block : Int) ∈ fs
  ch_eq : ch = disp.map Prod.fst ++ hs.filter (fun x => x < C)
  ch0_rem : ∀ x ∈ ch0, T ≤ x → x < C → x ∈ ch
  disp_blk : ∀ pr ∈ disp, pr.1 < T ∧ pr.1 < C
  disp_slot : ∀ pr ∈ disp, T ≤ pr.2 ∧ pr.2 < C
  disp_slot_free : ∀ pr ∈ disp, pr.2 ∉ ch0
  disp_lt_fs : ∀ pr ∈ disp, ∀ f ∈ fs, f < (pr.2 : Int)
  disp_lt_hs : ∀ pr ∈ disp, ∀ x ∈ hs, pr.1 < x
  disp_blocks_asc : (disp.map Prod.fst).Pairwise (· < ·)
  disp_slots_desc : (disp.map Prod.snd).Pairwise (· > ·)
  disp_live : ∀ pr ∈ disp, ∃ p ∈ db.items, p.2.block = pr.1
  live_free_hi : ∀ p ∈ db.items, T ≤ p.2.block → p.2.block ∉ ch0
  slot_cover : ∀ x, T ≤ x → x < C →
    x ∈ ch0 ∨ x ∈ disp.map Prod.snd ∨ ∃ p ∈ db.items, p.2.block = x
  entry_disp : ∀ p ∈ db.items, ∀ sl, (p.2.block, sl) ∈ disp →
    p.2.cached = true ∧ p.2.cacheIndex = (sl : Int) ∧
    (db.cache.get? sl).map Item.id = some p.1 ∧ diskIdOKB db p = true
  entry_main : ∀ p ∈ db.items, p.2.block ∉ disp.map Prod.fst →
    (p.2.cached = true ↔ p.2.block < C) ∧
    (p.2.cached = true → p.2.cacheIndex = (p.2.block : Int) ∧
      (db.cache.get? p.2.block).map Item.id = some p.1) ∧
    diskIdOKB db p = true

/-- The state at the end of the first phase of `fillHoles`: the live
blocks are compact, the unconsumed cache-hole array splits into the
displaced records (cached movers): their blocks followed by the original cache holes at or
above the target `T`. -/
structure P1Post (T C B : Nat) (ch0 : List Nat) (db : Database)
    (rest : List Nat) (disp : List (Nat × Nat)) : Prop where
  blocks_eq : db.blocks = B
  cache_len : db.cache.length = C
  ch0_eq : db.cacheHoles = ch0
  ch0_nodup : ch0.Nodup
  cle : C ≤ B
  tle : T ≤ B
  fdlen : db.fileData.length ≤ B
  ids_nodup : (db.items.map Prod.fst).Nodup
  blocks_nodup : (db.items.map fun p => p.2.block).Nodup
  items_len : db.items.length = T
  compact : ∀ p ∈ db.items, p.2.block < T
  disp_blk : ∀ pr ∈ disp, pr.1 < T ∧ pr.1 < C
  disp_slot : ∀ pr ∈ disp, T ≤ pr.2 ∧ pr.2 < C
  disp_slot_free : ∀ pr ∈ disp, pr.2 ∉ ch0
  disp_blocks_asc : (disp.map Prod.fst).Pairwise (· < ·)
  disp_slots_desc : (disp.map Prod.snd).Pairwise (· > ·)
  disp_live : ∀ pr ∈ disp, ∃ p ∈ db.items, p.2.block = pr.1
  slot_cover : ∀ x, T ≤ x → x < C → x ∈ ch0 ∨ x ∈ disp.map Prod.snd
  entry_disp : ∀ p ∈ db.items, ∀ sl, (p.2.block, sl) ∈ disp →
    p.2.cached = true ∧ p.2.cacheIndex = (sl : Int) ∧
    (db.cache.get? sl).map Item.id = some p.1 ∧ diskIdOKB db p = true
  entry_main : ∀ p ∈ db.items, p.2.block ∉ disp.map Prod.fst →
    (p.2.cached = true ↔ p.2.block < C) ∧
    (p.2.cached = true → p.2.cacheIndex = (p.2.block : Int) ∧
      (db.cache.get? p.2.block).map Item.id = some p.1) ∧
    diskIdOKB db p = true
  rest_sorted : rest.Pairwise (· < ·)
  rest_hi : ∀ x ∈ rest, T ≤ x ∧ x < C
  rest_sub : ∀ x ∈ rest, x ∈ ch0
  rest_complete : ∀ x ∈ ch0, T ≤ x → x < C → x ∈ rest

/-- The invariant threaded through `fillHoles`' cache-repair loop: the
truncated, compacted state together with the cached movers `ds` whose cache
slots the loop has yet to pull down. -/
structure RInv (T C : Nat) (db : Database) (ds : List (Nat × Nat)) : Prop where
  blocks_eq : db.blocks = T
  cache_len : db.cache.length = C
  bh_nil : db.blockHoles = []
  ids_nodup : (db.items.map Prod.fst).Nodup
  blocks_nodup : (db.items.map fun p => p.2.block).Nodup
  items_len : db.items.length = T
  compact : ∀ p ∈ db.items, p.2.block < T
  fdlen : db.fileData.length ≤ T
  ds_blk : ∀ pr ∈ ds, pr.1 < T ∧ pr.1 < C
  ds_slot : ∀ pr ∈ ds, T ≤ pr.2 ∧ pr.2 < C
  ds_blocks_nodup : (ds.map Prod.fst).Nodup
  entry_ds : ∀ pr ∈ ds, ∃ p ∈ db.items, p.2.block = pr.1 ∧ p.2.cached = true ∧
    p.2.cacheIndex = ((pr.2 : Nat) : Int) ∧
    (db.cache.get? pr.2).map Item.id = some p.1 ∧ diskIdOKB db p = true
  entry_done : ∀ p ∈ db.items, p.2.block ∉ ds.map Prod.fst →
    (p.2.cached = true ↔ p.2.block < C) ∧
    (p.2.cached = true → p.2.cacheIndex = (p.2.block : Int) ∧
      (db.cache.get? p.2.block).map Item.id = some p.1) ∧
    diskIdOKB db p = true

/-- Demo records for the C1 stress witness: `"a"` and `"e"` match the demo
query, the other three do not. -/
def demoA : Item := { id := "a", fields := [("g", .prim (.pint 1))] }

/-- Demo record `"b"`. -/
def demoB : Item := { id := "b", fields := [] }

/-- Demo record `"c"`. -/
def demoC : Item := { id := "c", fields := [] }

/-- Demo record `"d"`. -/
def demoD : Item := { id := "d", fields := [] }

/-- Demo record `"e"`; it matches the demo query and sits out of core. -/
def demoE : Item := { id := "e", fields := [("g", .prim (.pint 1))] }

/-- The demo query `{g: 1}`, matching `"a"` and `"e"`. -/
def demoQuery : Query := [.field "g" (.lit (.prim (.pint 1)))]

/-- A five-record run: tune the cache to four 32-byte blocks, insert
`a`..`e` (so `e` stays out of core), then remove the two records matching
`{g: 1}` — block holes 0 and 4 appear, `remove` runs `fillHoles`, and the
cached record `d` is moved from block 3 into hole 0 while the repair loop
pulls its cache slot down to 0. -/
def demoTrace : Option Database := do
  let s1 ← insert { Database.empty false with maxCacheSize := 128 } "" demoA
  let s2 ← insert s1 "" demoB
  let s3 ← insert s2 "" demoC
  let s4 ← insert s3 "" demoD
  let s5 ← insert s4 "" demoE
  let (_, s6) ← remove s5 demoQuery { limit := some 9 }
  pure s6

/-! # Theorems -/

/-! ## C6 — `$exists` semantics -/

/-- **C6.**  For every record and field name, `{k: {$exists: b}}` matches
exactly when `(field value === undefined) === b`; in particular
`$exists: true` matches records where the field is *missing*. -/
theorem exists_operator_semantics (it : Item) (k : String) (b : Bool) :
    matchesQuery it [.field k (.ops [("$exists", .prim (.pbool b))])] =
      ((it.get k).isNone == b) := by
  simp only [matchesQuery, List.all_cons, List.all_nil, Bool.and_true,
    matchesField, applyLeafOps, evalLeafOp, if_pos rfl]
  cases h : (it.get k).isNone == b <;> simp

/-! ## C4 — `$push` with `$each` -/

/-- **C4.**  On `{_id:"x", arr:[1]}`, the directive
`{$push: {arr: {$each: [2,3]}}}` appends *nothing* (the push inside the
`$each` loop is guarded by `forceUnique`, which only `$addToSet` sets),
while `{$addToSet: {arr: {$each: [2,3]}}}` does append both elements.  The
claim (and the spec) say `$push`/`$each` appends every element in order. -/
theorem push_each_appends_nothing :
    applyUpdate pushItem pushDirective = some pushItem ∧
    applyUpdate pushItem addToSetDirective =
      some { id := "x", fields := [("arr", .varr [.pint 1, .pint 2, .pint 3])] } := by
  constructor <;> rfl

/-! ## C3 — file size invariant under a fully-cached shrinking resize -/

/-- **C3.**  Starting from an empty uncompressed database, insert two
records (`blockSize` becomes 16, file length `22 + 2·16 = 54`, the
invariant `filesize = headerLength + blocks·blockSize` holds), then
`resize(8)`.  Every record is cached, so the on-disk pass — and with it the
`ftruncate` — is skipped: the file stays at 54 bytes while
`headerLength + blocks·blockSize = 38`.  The claimed invariant is violated
by the code. -/
theorem resize_fully_cached_shrink_skips_truncate :
    (((do
      let s1 ← insert (Database.empty false) "u" recA
      insert s1 "u" recB : Option Database)).map fun s =>
        (decide (s.blocks ≤ s.cache.length), s.fileLen,
          headerLength + s.blocks * s.blockSize)) = some (true, 54, 54) ∧
    (((do
      let s1 ← insert (Database.empty false) "u" recA
      let s2 ← insert s1 "u" recB
      resize s2 8 : Option Database)).map fun s => (s.fileLen, headerLength + s.blocks * s.blockSize))
      = some (54, 38) ∧
    54 ≠ 38 := by
  refine ⟨rfl, rfl, by decide⟩

/-! ## C2 — stop during the in-cache phase of `iterate` -/

/-- **C2 counterexample.**  On a two-record database with one cached record
(`invDB`), a handler that stops on the very first record it sees: the
cached pass stops on `recA`, yet `iterate` still runs the out-of-core pass,
invokes the handler on `recB`, and — the handler continuing there —
resolves with `completed = true`.  The claim says the handler is invoked on
no further record and `iterate` resolves `completed = false`. -/
theorem iterate_stop_still_scans_out_of_core :
    stopOnceHandler [] recA = some ([recA], false) ∧
    invDB.cache.length < invDB.blocks ∧
    iterate invDB stopOnceHandler [] = some ([recA, recB], true) := by
  refine ⟨rfl, by decide, rfl⟩

/-- **C2 amended.**  If the handler stops during the in-cache phase *and*
the database is fully cached (`blocks ≤ cache.length`), then `iterate`
aborts with the state the cached pass produced and resolves
`completed = false`; when `blocks > cache.length` the out-of-core pass
still runs (see the counterexample). -/
theorem iterate_stop_aborts_when_fully_cached {σ : Type} (db : Database)
    (h : σ → Item → Option (σ × Bool)) (st st1 : σ)
    (hfull : db.blocks ≤ db.cache.length)
    (hstop : iterateCached db h st db.items = some (st1, true)) :
    iterate db h st = some (st1, false) := by
  unfold iterate
  rw [hstop]
  have hx : ¬ db.cache.length < db.blocks := by omega
  simp [hx]

/-- A fully cached two-record database. -/
theorem iterate_stop_aborts_witness :
    iterate fullDB stopOnceHandler [] = some ([recA], false) :=
  iterate_stop_aborts_when_fully_cached fullDB stopOnceHandler [] [recA]
    (by decide) (by rfl)

/-! ## C7 — `iterateOutOfCore` and `blockHoles` -/

/-- **C7 counterexample.**  `holeDB` has `blockHoles = {0}`, yet
`iterateOutOfCore(0, handler)` hands the handler the record of block 0
(first in the trace).  The claim says a block in `blockHoles` is never
given to the handler. -/
theorem iterate_out_of_core_visits_hole_block :
    0 ∈ holeDB.blockHoles ∧
    readFromBlock holeDB 0 = some recA ∧
    iterateOutOfCore holeDB 0 traceHandler [] = some ([recA, recB], true) := by
  refine ⟨by decide, rfl, rfl⟩

theorem oocAux_visits (db : Database) : ∀ (rem index : Nat) (acc rs : List Item),
    (List.range' index rem).mapM (readFromBlock db) = some rs →
    oocAux db traceHandler rem index acc = some (acc ++ rs, true) := by
  intro rem
  induction rem with
  | zero =>
    intro index acc rs h
    simp only [List.range', List.mapM_nil, Option.pure_def, Option.some.injEq] at h
    simp [oocAux, ← h]
  | succ rem ih =>
    intro index acc rs h
    rw [List.range'_succ] at h
    simp only [List.mapM_cons] at h
    match hr : readFromBlock db index with
    | none => rw [hr] at h; simp at h
    | some r =>
      rw [hr] at h
      match hrest : (List.range' (index + 1) rem).mapM (readFromBlock db) with
      | none => rw [hrest] at h; simp at h
      | some rs' =>
        rw [hrest] at h
        simp at h
        subst h
        simp only [oocAux, hr, traceHandler, if_pos]
        rw [ih (index + 1) (acc ++ [r]) rs' hrest]
        simp

/-- **C7 amended.**  When the blocks `[startBlock, blocks)` all parse,
`iterateOutOfCore(startBlock, handler)` invokes the handler on *every* one
of them — blocks in `blockHoles` included — in block-index order. -/
theorem iterate_out_of_core_visits_all_blocks (db : Database) (start : Nat)
    (rs : List Item) (h : blockRecords db start = some rs) :
    iterateOutOfCore db start traceHandler [] = some (rs, true) := by
  unfold blockRecords at h
  unfold iterateOutOfCore
  simpa using oocAux_visits db (db.blocks - start) start [] rs h

theorem iterate_out_of_core_visits_all_witness :
    iterateOutOfCore holeDB 1 traceHandler [] = some ([recB], true) :=
  iterate_out_of_core_visits_all_blocks holeDB 1 [recB] (by decide)

/-! ## C8 — header round-trip -/

/-- **C8 counterexample.**  `blockSize = 2^32` is representable as an
unsigned 64-bit integer, but JavaScript's `>>` and `&` operate on the
`ToInt32` of their operands, so `writeHeader` stores both halves as 0 and
the round-trip reads `blockSize = 0`. -/
theorem header_roundtrip_fails_at_2pow32 :
    (writeHeaderBytes false 4294967296 0).bind readHeaderBytes = some (false, 0, 0) ∧
    (4294967296 : Int) ≠ 0 := by
  constructor
  · rfl
  · decide

theorem jsToInt32_of_lt {v : Int} (h0 : 0 ≤ v) (h : v < 2 ^ 31) : jsToInt32 v = v := by
  have hm : v % (2 ^ 32 : Int) = v := Int.emod_eq_of_lt h0 (by omega)
  simp only [jsToInt32, hm]
  rw [if_pos (by omega)]

theorem jsShr_shr_16_eq_zero {v : Int} (h0 : 0 ≤ v) (h : v < 2 ^ 31) :
    jsShr (jsShr v 16) 16 = 0 := by
  unfold jsShr
  rw [jsToInt32_of_lt h0 h]
  have h1 : (0:Int) ≤ v / 2 ^ (16 % 32) := Int.ediv_nonneg h0 (by norm_num)
  have h2 : v / 2 ^ (16 % 32) < 2 ^ 31 := by
    calc v / 2 ^ (16 % 32) ≤ v := Int.ediv_le_self _ h0
    _ < 2 ^ 31 := h
  rw [jsToInt32_of_lt h1 h2]
  norm_num
  omega

theorem jsAnd_ffffffff {v : Int} (h0 : 0 ≤ v) (h : v < 2 ^ 31) :
    jsAnd v 4294967295 = v := by
  unfold jsAnd jsPat32
  rw [jsToInt32_of_lt h0 h]
  have hp : jsToInt32 4294967295 = -1 := by decide
  rw [hp]
  have hm : ((-1 : Int) % 2 ^ 32).toNat = 4294967295 := by decide
  have hv : (v % 2 ^ 32) = v := Int.emod_eq_of_lt h0 (by omega)
  rw [hv, hm]
  have hland : Nat.land v.toNat 4294967295 = v.toNat % 2 ^ 32 := by
    have := Nat.and_pow_two_sub_one_eq_mod v.toNat 32
    simpa [HAnd.hAnd, AndOp.and] using this
  rw [hland]
  have : v.toNat % 2 ^ 32 = v.toNat := Nat.mod_eq_of_lt (by omega)
  rw [this]
  rw [jsToInt32_of_lt (by omega) (by omega)]
  omega

theorem readHeaderBytes_layout (fl b0 b1 b2 b3 c0 c1 c2 c3 : Nat) :
    readHeaderBytes
      [106, 105, 110, 110, 1, fl, 0, 0, 0, 0, b0, b1, b2, b3, 0, 0, 0, 0, c0, c1, c2, c3] =
      some (decide (fl = 1),
        jsShl (jsShl 0 16) 16 + ((b0 + 256 * b1 + 65536 * b2 + 16777216 * b3 : Nat) : Int),
        jsShl (jsShl 0 16) 16 + ((c0 + 256 * c1 + 65536 * c2 + 16777216 * c3 : Nat) : Int)) := by
  unfold readHeaderBytes
  rw [if_pos (show ([106, 105, 110, 110, 1, fl, 0, 0, 0, 0, b0, b1, b2, b3,
        0, 0, 0, 0, c0, c1, c2, c3].take 4) = [106, 105, 110, 110] from rfl)]
  rw [if_pos (show ([106, 105, 110, 110, 1, fl, 0, 0, 0, 0, b0, b1, b2, b3,
        0, 0, 0, 0, c0, c1, c2, c3].getD 4 0) = 1 from rfl)]
  rfl

theorem writeUInt32LEBytes_natCast (v : Nat) (hv : v < 2 ^ 32) :
    writeUInt32LEBytes (v : Int) =
      some [v % 256, v / 256 % 256, v / 256 / 256 % 256, v / 256 / 256 / 256 % 256] := by
  unfold writeUInt32LEBytes
  rw [if_pos ⟨Int.natCast_nonneg v, by exact_mod_cast hv⟩]
  rfl

/-- **C8 amended.**  The header codec round-trips `compressed`, `blockSize`
and `blocks` exactly for all values below `2^31`; the full unsigned 64-bit
range of the claim fails at `2^32` (see the counterexample), because the
JavaScript shift and mask operators reduce their operands to 32-bit
integers. -/
theorem header_roundtrip_below_2pow31 (c : Bool) (bs nb : Nat)
    (hbs : bs < 2 ^ 31) (hnb : nb < 2 ^ 31) :
    (writeHeaderBytes c bs nb).bind readHeaderBytes = some (c, (bs : Int), (nb : Int)) := by
  have hbs0 : (0 : Int) ≤ (bs : Int) := Int.natCast_nonneg bs
  have hnb0 : (0 : Int) ≤ (nb : Int) := Int.natCast_nonneg nb
  have hbs31 : (bs : Int) < 2 ^ 31 := by exact_mod_cast hbs
  have hnb31 : (nb : Int) < 2 ^ 31 := by exact_mod_cast hnb
  unfold writeHeaderBytes
  rw [jsShr_shr_16_eq_zero hbs0 hbs31, jsShr_shr_16_eq_zero hnb0 hnb31,
    jsAnd_ffffffff hbs0 hbs31, jsAnd_ffffffff hnb0 hnb31,
    writeUInt32LEBytes_natCast bs (by omega), writeUInt32LEBytes_natCast nb (by omega),
    show writeUInt32LEBytes 0 = some [0, 0, 0, 0] from rfl]
  show readHeaderBytes
      ([106, 105, 110, 110, 1, if c then 1 else 0] ++ [0, 0, 0, 0] ++
        [bs % 256, bs / 256 % 256, bs / 256 / 256 % 256, bs / 256 / 256 / 256 % 256] ++
        [0, 0, 0, 0] ++
        [nb % 256, nb / 256 % 256, nb / 256 / 256 % 256, nb / 256 / 256 / 256 % 256]) =
      some (c, (bs : Int), (nb : Int))
  have hlist : ([106, 105, 110, 110, 1, if c then 1 else 0] ++ [0, 0, 0, 0] ++
      [bs % 256, bs / 256 % 256, bs / 256 / 256 % 256, bs / 256 / 256 / 256 % 256] ++
      [0, 0, 0, 0] ++
      [nb % 256, nb / 256 % 256, nb / 256 / 256 % 256, nb / 256 / 256 / 256 % 256]) =
      [106, 105, 110, 110, 1, if c then 1 else 0, 0, 0, 0, 0,
       bs % 256, bs / 256 % 256, bs / 256 / 256 % 256, bs / 256 / 256 / 256 % 256,
       0, 0, 0, 0,
       nb % 256, nb / 256 % 256, nb / 256 / 256 % 256, nb / 256 / 256 / 256 % 256] := rfl
  rw [hlist, readHeaderBytes_layout,
    show jsShl (jsShl 0 16) 16 = 0 from by decide]
  have hrec : ∀ v : Nat, v < 2 ^ 31 →
      v % 256 + 256 * (v / 256 % 256) + 65536 * (v / 256 / 256 % 256) +
        16777216 * (v / 256 / 256 / 256 % 256) = v := by
    intro v hv
    omega
  rw [hrec bs hbs, hrec nb hnb]
  cases c <;> simp

theorem header_roundtrip_witness :
    (writeHeaderBytes true 4096 7).bind readHeaderBytes = some (true, 4096, 7) ∧
    (4096 : Nat) < 2 ^ 31 ∧ (7 : Nat) < 2 ^ 31 :=
  ⟨header_roundtrip_below_2pow31 true 4096 7 (by decide) (by decide), by decide, by decide⟩

/-! ## Scan characterization under the invariant

These lemmas describe what `iterate` does on an invariant-satisfying state
with a handler that never stops: it folds the handler's state transformer
over `liveTrace`, visiting every cached record (in index order) and then
every out-of-core block. -/

theorem lookup_cons_ne {l : List (String × ItemData)} {p : String × ItemData} {k : String}
    (hne : k ≠ p.1) : (p :: l).lookup k = l.lookup k := by
  obtain ⟨a, b⟩ := p
  rw [List.lookup]
  rw [show (k == a) = false from by simpa using hne]

theorem lookup_cons_self {l : List (String × ItemData)} {k : String} {v : ItemData} :
    ((k, v) :: l).lookup k = some v := by
  rw [List.lookup]
  rw [show (k == k) = true from by simp]

theorem lookup_mem {l : List (String × ItemData)} {k : String} {v : ItemData}
    (h : l.lookup k = some v) : (k, v) ∈ l := by
  induction l with
  | nil => simp [List.lookup] at h
  | cons p rest ih =>
    by_cases he : k = p.1
    · obtain ⟨a, b⟩ := p
      subst he
      rw [lookup_cons_self] at h
      simp at h
      subst h
      exact List.mem_cons_self _ _
    · rw [lookup_cons_ne he] at h
      exact List.mem_cons_of_mem _ (ih h)

theorem lookup_eq_none_iff {l : List (String × ItemData)} {k : String} :
    l.lookup k = none ↔ k ∉ l.map Prod.fst := by
  induction l with
  | nil => simp [List.lookup]
  | cons p rest ih =>
    by_cases he : k = p.1
    · obtain ⟨a, b⟩ := p
      subst he
      rw [lookup_cons_self]
      simp
    · rw [lookup_cons_ne he]
      simp [ih, he]

theorem diskLiveOKB_spec {s : Database} {p : String × ItemData}
    (h : diskLiveOKB s p = true) :
    ∃ r, s.fileData.get? p.2.block = some (some r) ∧ r.id = p.1 := by
  unfold diskLiveOKB at h
  match hf : s.fileData.get? p.2.block with
  | some (some r) => rw [hf] at h; exact ⟨r, rfl, by simpa using h⟩
  | some none => rw [hf] at h; simp at h
  | none => rw [hf] at h; simp at h

theorem diskIdOKB_spec {s : Database} {p : String × ItemData}
    (h : diskIdOKB s p = true) :
    ∀ r, s.fileData.get? p.2.block = some (some r) → r.id = p.1 := by
  intro r hr
  unfold diskIdOKB at h
  rw [hr] at h
  simpa using h

theorem cacheGet_of_entry {db : Database} {p : String × ItemData}
    (hok : entryOK db p) (hc : p.2.cached = true) :
    cacheGet db p.2.cacheIndex = db.cache.get? p.2.block := by
  obtain ⟨-, -, hca, -⟩ := hok
  obtain ⟨hci, -⟩ := hca hc
  rw [hci]
  unfold cacheGet
  rw [if_neg (by omega)]
  simp

theorem recordOf_some_of_entry {db : Database} {p : String × ItemData}
    (hok : entryOK db p) (hlive : DiskLive db) (hp : p ∈ db.items) :
    ∃ r, recordOf db p.2 = some r ∧ r.id = p.1 := by
  unfold recordOf
  by_cases hc : p.2.cached = true
  · rw [if_pos hc, cacheGet_of_entry hok hc]
    obtain ⟨-, -, hca, -⟩ := hok
    obtain ⟨-, hid⟩ := hca hc
    match hr : db.cache.get? p.2.block with
    | some r => rw [hr] at hid; exact ⟨r, rfl, by simpa using hid⟩
    | none => rw [hr] at hid; simp at hid
  · rw [if_neg hc]
    have hc' : p.2.cached = false := by
      cases h : p.2.cached
      · rfl
      · exact absurd h hc
    obtain ⟨r, hr, hid⟩ := diskLiveOKB_spec (hlive p hp hc')
    exact ⟨r, by unfold readFromBlock; rw [hr], hid⟩

theorem blocks_surjective {db : Database} (hS : StateInv db) :
    ∀ b, b < db.blocks → ∃ p, p ∈ db.items ∧ p.2.block = b := by
  obtain ⟨-, hbn, hlen, -, -, -, -, hall⟩ := hS
  intro b hb
  set l := db.items.map fun p => p.2.block with hl
  have hsub : l.toFinset ⊆ Finset.range db.blocks := by
    intro x hx
    rw [List.mem_toFinset] at hx
    obtain ⟨p, hp, hpx⟩ := List.mem_map.mp hx
    rw [Finset.mem_range, ← hpx]
    exact (hall p hp).1
  have hcard : (Finset.range db.blocks).card ≤ l.toFinset.card := by
    rw [List.toFinset_card_of_nodup hbn, Finset.card_range]
    simp [hl, ← hlen]
  have heq : l.toFinset = Finset.range db.blocks :=
    Finset.eq_of_subset_of_card_le hsub hcard
  have hbmem : b ∈ l.toFinset := by rw [heq, Finset.mem_range]; exact hb
  rw [List.mem_toFinset] at hbmem
  obtain ⟨p, hp, hpb⟩ := List.mem_map.mp hbmem
  exact ⟨p, hp, hpb⟩

theorem iterateCached_fold {σ : Type} (db : Database)
    (h : σ → Item → Option (σ × Bool)) (g : σ → Item → σ)
    (hstep : ∀ st (p : String × ItemData), p ∈ db.items → p.2.cached = true →
      ∀ r, cacheGet db p.2.cacheIndex = some r → h st r = some (g st r, true))
    (hsome : ∀ p ∈ db.items, p.2.cached = true → (cacheGet db p.2.cacheIndex).isSome) :
    ∀ (items' : List (String × ItemData)), (∀ p ∈ items', p ∈ db.items) → ∀ st,
      iterateCached db h st items' =
        some ((items'.filterMap fun p =>
          if p.2.cached then cacheGet db p.2.cacheIndex else none).foldl g st, false) := by
  intro items'
  induction items' with
  | nil => intro _ st; simp [iterateCached]
  | cons p rest ih =>
    intro hsub st
    have hp : p ∈ db.items := hsub p (List.mem_cons_self _ _)
    have hsub' : ∀ q ∈ rest, q ∈ db.items := fun q hq => hsub q (List.mem_cons_of_mem _ hq)
    obtain ⟨pid, pd⟩ := p
    by_cases hc : pd.cached = true
    · obtain ⟨r, hr⟩ := Option.isSome_iff_exists.mp (hsome (pid, pd) hp hc)
      have hstep' := hstep st (pid, pd) hp hc r hr
      simp only at hr hstep'
      simp only [iterateCached, hc, if_true, hr, hstep']
      rw [ih hsub' (g st r)]
      simp [List.filterMap_cons, hc, hr]
    · simp only [iterateCached, hc, if_false, Bool.false_eq_true]
      rw [ih hsub' st]
      simp [List.filterMap_cons, hc]

theorem oocAux_fold {σ : Type} (db : Database)
    (h : σ → Item → Option (σ × Bool)) (g : σ → Item → σ) :
    ∀ (rem index : Nat) (st : σ),
    (∀ b, index ≤ b → b < index + rem → ∃ r, readFromBlock db b = some r ∧
      ∀ st', h st' r = some (g st' r, true)) →
    oocAux db h rem index st =
      some (((List.range' index rem).filterMap (readFromBlock db)).foldl g st, true) := by
  intro rem
  induction rem with
  | zero => intro index st _; simp [oocAux, List.range']
  | succ rem ih =>
    intro index st hall
    obtain ⟨r, hr, hh⟩ := hall index (Nat.le_refl _) (by omega)
    simp only [oocAux, hr, hh st, if_true]
    rw [ih (index + 1) (g st r) (fun b hb1 hb2 => hall b (by omega) (by omega))]
    rw [List.range'_succ]
    simp [List.filterMap_cons, hr]

theorem iterate_fold {σ : Type} (db : Database) (hInv : Inv db)
    (h : σ → Item → Option (σ × Bool)) (g : σ → Item → σ)
    (hstep : ∀ st (p : String × ItemData) r, p ∈ db.items →
      recordOf db p.2 = some r → h st r = some (g st r, true)) (st : σ) :
    iterate db h st = some ((liveTrace db).foldl g st, true) := by
  obtain ⟨hS, hL⟩ := hInv
  have hok : ∀ p ∈ db.items, entryOK db p := hS.2.2.2.2.2.2.2
  unfold iterate
  rw [iterateCached_fold db h g
    (fun st p hp hc r hr => by
      apply hstep st p r hp
      unfold recordOf
      rw [if_pos hc, hr])
    (fun p hp hc => by
      rw [cacheGet_of_entry (hok p hp) hc]
      obtain ⟨-, -, hca, -⟩ := hok p hp
      obtain ⟨-, hid⟩ := hca hc
      obtain ⟨a, ha, -⟩ := Option.map_eq_some'.mp hid
      rw [ha]
      rfl)
    db.items (fun p hp => hp) st]
  by_cases hlt : db.cache.length < db.blocks
  · simp only [hlt, if_true]
    unfold iterateOutOfCore
    rw [oocAux_fold db h g (db.blocks - db.cache.length) db.cache.length _
      (fun b hb1 hb2 => by
        obtain ⟨p, hp, hpb⟩ := blocks_surjective hS b (by omega)
        have hc : p.2.cached = false := by
          obtain ⟨-, hiff, -, -⟩ := hok p hp
          cases hcv : p.2.cached
          · rfl
          · exact absurd ((hiff.mp hcv)) (by omega)
        obtain ⟨r, hr, hid⟩ := diskLiveOKB_spec (hL p hp hc)
        refine ⟨r, by unfold readFromBlock; rw [hpb] at hr; rw [hr], fun st' => ?_⟩
        apply hstep st' p r hp
        unfold recordOf
        rw [if_neg (by simp [hc])]
        unfold readFromBlock
        rw [hr])]
    unfold liveTrace cachedTrace oocTrace
    rw [List.foldl_append]
  · simp only [hlt, if_false, Bool.not_false]
    have hz : db.blocks - db.cache.length = 0 := by omega
    unfold liveTrace cachedTrace oocTrace
    rw [hz]
    simp [List.range']

theorem recordOf_id {db : Database} (hInv : Inv db) :
    ∀ p ∈ db.items, ∀ r, recordOf db p.2 = some r → r.id = p.1 := by
  intro p hp r hr
  obtain ⟨hS, -⟩ := hInv
  have hok : entryOK db p := hS.2.2.2.2.2.2.2 p hp
  unfold recordOf at hr
  by_cases hc : p.2.cached = true
  · rw [if_pos hc, cacheGet_of_entry hok hc] at hr
    obtain ⟨-, -, hca, -⟩ := hok
    obtain ⟨-, hid⟩ := hca hc
    rw [hr] at hid
    simpa using hid
  · rw [if_neg hc] at hr
    obtain ⟨-, -, -, hdisk⟩ := hok
    unfold readFromBlock at hr
    match hf : db.fileData.get? p.2.block with
    | some (some r') =>
      rw [hf] at hr
      cases hr
      exact diskIdOKB_spec hdisk r hf
    | some none => rw [hf] at hr; cases hr
    | none => rw [hf] at hr; cases hr

theorem foldl_append_singleton : ∀ (l init : List Item),
    l.foldl (fun acc x => acc ++ [x]) init = init ++ l := by
  intro l
  induction l with
  | nil => intro init; simp
  | cons x rest ih => intro init; simp [List.foldl_cons, ih]

theorem foldl_const {σ : Type} : ∀ (l : List Item) (init : σ),
    l.foldl (fun st _ => st) init = init := by
  intro l
  induction l with
  | nil => intro init; rfl
  | cons x rest ih => intro init; simp [List.foldl_cons, ih]

theorem cachedTrace_ids {db : Database} (hS : StateInv db) :
    (cachedTrace db).map Item.id = (db.items.filter fun p => p.2.cached).map Prod.fst := by
  have hok : ∀ p ∈ db.items, entryOK db p := hS.2.2.2.2.2.2.2
  unfold cachedTrace
  have aux : ∀ l : List (String × ItemData), (∀ p ∈ l, entryOK db p) →
      ((l.filterMap fun p => if p.2.cached then cacheGet db p.2.cacheIndex else none).map
        Item.id) = (l.filter fun p => p.2.cached).map Prod.fst := by
    intro l
    induction l with
    | nil => intro _; rfl
    | cons p rest ih =>
      intro hl
      have hokp := hl p (List.mem_cons_self _ _)
      have hrest := fun q hq => hl q (List.mem_cons_of_mem _ hq)
      by_cases hc : p.2.cached = true
      · obtain ⟨-, -, hca, -⟩ := hl p (List.mem_cons_self _ _)
        obtain ⟨-, hid⟩ := hca hc
        obtain ⟨r, hrr, hrid⟩ := Option.map_eq_some'.mp hid
        have hcg : cacheGet db p.2.cacheIndex = some r := by
          rw [cacheGet_of_entry hokp hc, hrr]
        rw [List.filterMap_cons, if_pos hc, hcg, List.filter_cons, if_pos (by simp [hc])]
        simp [ih hrest, hrid]
      · rw [List.filterMap_cons, if_neg hc, List.filter_cons,
          if_neg (by simpa using hc)]
        exact ih hrest
  exact aux db.items hok

theorem uncached_blocks_perm {db : Database} (hS : StateInv db) :
    List.Perm ((db.items.filter fun p => !p.2.cached).map fun p => p.2.block)
      (List.range' db.cache.length (db.blocks - db.cache.length)) := by
  have hok : ∀ p ∈ db.items, entryOK db p := hS.2.2.2.2.2.2.2
  have hbn : (db.items.map fun p => p.2.block).Nodup := hS.2.1
  apply List.perm_of_nodup_nodup_toFinset_eq
  · exact hbn.sublist ((List.filter_sublist _).map _)
  · exact List.nodup_range' _ _
  · ext b
    simp only [List.mem_toFinset, List.mem_map, List.mem_filter, List.mem_range'_1]
    constructor
    · rintro ⟨p, ⟨hp, hcb⟩, hpb⟩
      have hokp := hok p hp
      obtain ⟨hlt, hiff, -, -⟩ := hokp
      have hc : ¬ p.2.cached = true := by simpa using hcb
      have : ¬ p.2.block < db.cache.length := fun hx => hc (hiff.mpr hx)
      omega
    · rintro ⟨hb1, hb2⟩
      obtain ⟨p, hp, hpb⟩ := blocks_surjective hS b (by omega)
      refine ⟨p, ⟨hp, ?_⟩, hpb⟩
      obtain ⟨-, hiff, -, -⟩ := hok p hp
      have : ¬ p.2.cached = true := fun hx => by
        have := hiff.mp hx
        omega
      simpa using this

theorem oocTrace_ids_perm {db : Database} (hInv : Inv db) :
    List.Perm ((oocTrace db).map Item.id)
      ((db.items.filter fun p => !p.2.cached).map Prod.fst) := by
  obtain ⟨hS, hL⟩ := hInv
  have hok : ∀ p ∈ db.items, entryOK db p := hS.2.2.2.2.2.2.2
  have h1 : (oocTrace db).map Item.id =
      (List.range' db.cache.length (db.blocks - db.cache.length)).filterMap
        (fun b => (readFromBlock db b).map Item.id) := by
    unfold oocTrace
    rw [List.map_filterMap]
  have h2 : ((db.items.filter fun p => !p.2.cached).map fun p => p.2.block).filterMap
      (fun b => (readFromBlock db b).map Item.id) =
      (db.items.filter fun p => !p.2.cached).map Prod.fst := by
    have aux : ∀ l : List (String × ItemData),
        (∀ p ∈ l, (readFromBlock db p.2.block).map Item.id = some p.1) →
        (l.map fun p => p.2.block).filterMap (fun b => (readFromBlock db b).map Item.id) =
          l.map Prod.fst := by
      intro l
      induction l with
      | nil => intro _; rfl
      | cons p rest ih =>
        intro hl
        rw [List.map_cons, List.filterMap_cons, hl p (List.mem_cons_self _ _)]
        rw [ih fun q hq => hl q (List.mem_cons_of_mem _ hq)]
        rfl
    apply aux
    intro p hp
    rw [List.mem_filter] at hp
    have hc : p.2.cached = false := by
      cases h : p.2.cached
      · rfl
      · exact absurd h (by simpa using hp.2)
    obtain ⟨r, hr, hid⟩ := diskLiveOKB_spec (hL p hp.1 hc)
    unfold readFromBlock
    rw [hr]
    simp [hid]
  rw [h1, ← h2]
  exact (List.Perm.filterMap _ (uncached_blocks_perm hS)).symm

theorem liveTrace_ids_perm {db : Database} (hInv : Inv db) :
    List.Perm ((liveTrace db).map Item.id) (db.items.map Prod.fst) := by
  unfold liveTrace
  rw [List.map_append, cachedTrace_ids hInv.1]
  have h1 : List.Perm
      (((db.items.filter fun p => p.2.cached).map Prod.fst) ++ (oocTrace db).map Item.id)
      (((db.items.filter fun p => p.2.cached).map Prod.fst) ++
        ((db.items.filter fun p => !p.2.cached).map Prod.fst)) :=
    List.Perm.append_left _ (oocTrace_ids_perm hInv)
  refine h1.trans ?_
  rw [← List.map_append]
  exact List.Perm.map _ (List.filter_append_perm _ db.items)

theorem liveTrace_recordOf {db : Database} (hInv : Inv db) :
    ∀ r ∈ liveTrace db, ∃ p ∈ db.items, p.1 = r.id ∧ recordOf db p.2 = some r := by
  intro r hr
  unfold liveTrace at hr
  rcases List.mem_append.mp hr with hr | hr
  · unfold cachedTrace at hr
    obtain ⟨p, hp, hpr⟩ := List.mem_filterMap.mp hr
    by_cases hc : p.2.cached = true
    · rw [if_pos hc] at hpr
      have hrec : recordOf db p.2 = some r := by unfold recordOf; rw [if_pos hc, hpr]
      exact ⟨p, hp, (recordOf_id hInv p hp r hrec).symm, hrec⟩
    · rw [if_neg hc] at hpr
      cases hpr
  · unfold oocTrace at hr
    obtain ⟨b, hb, hbr⟩ := List.mem_filterMap.mp hr
    rw [List.mem_range'_1] at hb
    obtain ⟨p, hp, hpb⟩ := blocks_surjective hInv.1 b (by omega)
    have hc : ¬ p.2.cached = true := by
      obtain ⟨-, hiff, -, -⟩ := hInv.1.2.2.2.2.2.2.2 p hp
      intro hx
      have := hiff.mp hx
      omega
    have hrec : recordOf db p.2 = some r := by
      unfold recordOf
      rw [if_neg hc, hpb, hbr]
    exact ⟨p, hp, (recordOf_id hInv p hp r hrec).symm, hrec⟩

/-! ## C10 — empty query matches everything; `find({})` returns every live
record exactly once -/

/-- **C10.**  `matches(record, {})` is true for every record, and on an
invariant-satisfying state `find({})` (no limit) resolves to `liveTrace` —
a list whose ids are a permutation of the index's ids (hence, the ids being
distinct, every live record appears exactly once), each entry being the
live record of its id. -/
theorem find_empty_query_all (s : Database) (hInv : Inv s) :
    (∀ it : Item, matchesQuery it ([] : Query) = true) ∧
    find s [] {} = some (liveTrace s) ∧
    List.Perm ((liveTrace s).map Item.id) (s.items.map Prod.fst) ∧
    ∀ r ∈ liveTrace s, ∃ p ∈ s.items, p.1 = r.id ∧ recordOf s p.2 = some r := by
  refine ⟨fun it => rfl, ?_, liveTrace_ids_perm hInv, liveTrace_recordOf hInv⟩
  unfold find
  rw [show (queryIdVal ([] : Query)).bind jsPropKey = none from rfl]
  rw [iterate_fold s hInv
    (fun results item =>
      if matchesQuery item [] then some (addToResults item [] results {})
      else some (results, true))
    (fun st it => st ++ [it]) (fun st p r hp hrec => by rfl) []]
  simp [foldl_append_singleton]

theorem find_empty_query_witness :
    find invDB [] {} = some [recA, recB] ∧
    List.Perm ([recA, recB].map Item.id) (invDB.items.map Prod.fst) := by
  have h := find_empty_query_all invDB (by decide)
  refine ⟨?_, ?_⟩
  · have h1 := h.2.1
    rwa [show liveTrace invDB = [recA, recB] from rfl] at h1
  · have h1 := h.2.2.1
    rwa [show liveTrace invDB = [recA, recB] from rfl] at h1

/-! ## C5 — `find({_id: id})` -/

/-- **C5.**  On an invariant-satisfying state: when `id` is live (in the
index, cached or out-of-core), `find({_id: id})` resolves to the singleton
holding exactly the live record of `id`; when no live record has the id, it
resolves to the empty list. -/
theorem find_by_id_semantics (s : Database) (hInv : Inv s) (idStr : String) :
    (∀ d, s.items.lookup idStr = some d →
      ∃ r, recordOf s d = some r ∧ r.id = idStr ∧
        find s (idQuery idStr) {} = some [r]) ∧
    (s.items.lookup idStr = none → find s (idQuery idStr) {} = some []) := by
  constructor
  · intro d hd
    have hp : (idStr, d) ∈ s.items := lookup_mem hd
    have hok : entryOK s (idStr, d) := hInv.1.2.2.2.2.2.2.2 _ hp
    obtain ⟨r, hr, hid⟩ := recordOf_some_of_entry hok hInv.2 hp
    refine ⟨r, hr, hid, ?_⟩
    unfold find
    rw [show (queryIdVal (idQuery idStr)).bind jsPropKey = some idStr from rfl]
    simp only [hd]
    rw [show (if d.cached then cacheGet s d.cacheIndex else readFromBlock s d.block) =
      recordOf s d from rfl, hr]
    rfl
  · intro hnone
    unfold find
    rw [show (queryIdVal (idQuery idStr)).bind jsPropKey = some idStr from rfl]
    simp only [hnone]
    rw [iterate_fold s hInv _ (fun (st : List Item) (_ : Item) => st)
      (fun st p r hp hrec => by
        have hid : r.id = p.1 := recordOf_id hInv p hp r hrec
        have hneq : r.id ≠ idStr := by
          intro he
          apply lookup_eq_none_iff.mp hnone
          rw [← he, hid]
          exact List.mem_map_of_mem Prod.fst hp
        have hm : matchesQuery r (idQuery idStr) = false := by
          simp [matchesQuery, idQuery, matchesField, Item.get, hneq]
        simp [hm]) []]
    simp [foldl_const]

theorem find_by_id_witness :
    (∃ r, recordOf invDB { block := 1, cached := false, cacheIndex := -1 } = some r ∧
      r.id = "b" ∧ find invDB (idQuery "b") {} = some [r]) ∧
    find invDB (idQuery "zz") {} = some [] :=
  ⟨(find_by_id_semantics invDB (by decide) "b").1 _ (by decide),
   (find_by_id_semantics invDB (by decide) "zz").2 (by decide)⟩

/-- **C5 counterexample.**  The claim as stated quantifies over every
reachable state, but reachability does not guarantee that every live
out-of-core record's block still parses: `resize` copies only
`min(oldSize, newSize)` bytes per block, so shrinking `blockSize` below a
live uncached record's encoded length truncates its block.  Concretely the
trace `tune 16; insert {_id:"a"}; insert {_id:"b"}; resize 8` reaches a
state where record `b` is live in the index (uncached at block 1), yet
`find({_id:"b"})` rejects (`JSON.parse` of the truncated block fails, so
the fast path returns `none`) instead of resolving `[b]` — or even `[]`. -/
theorem find_by_id_reachable_fails :
    ∃ s, Reachable s ∧ "b" ∈ s.items.map Prod.fst ∧
      find s (idQuery "b") {} = none := by
  have h0 : Reachable (Database.empty false) := Reachable.init
  have h1 : Reachable { Database.empty false with maxCacheSize := 16 } :=
    Reachable.tune 16 h0
  have h2 := Reachable.insertStep "" { id := "a", fields := [] } h1
    (fun h => absurd h (by decide)) rfl
  have h3 := Reachable.insertStep "" { id := "b", fields := [] } h2
    (fun h => absurd h (by decide)) rfl
  have h4 := Reachable.resizeStep 8 h3 rfl
  exact ⟨_, h4, by decide, by decide⟩

/-! ## C9 — remove of a query matching nothing -/

/-- **C9 counterexample.**  `invDB` satisfies the invariant and no live
record matches `{_id:"a", color:"red"}` (record `a` has no `color` field).
Yet `remove` with a `sort` option resolves to 1, not 0: the sorted path
delegates to `find`, whose by-id fast path returns record `a` on the `_id`
key alone, ignoring the rest of the query. -/
theorem remove_sorted_fast_path_removes_nonmatch :
    Inv invDB ∧
    noLiveMatch invDB idColorQuery = true ∧
    (remove invDB idColorQuery { sort := some fun _ _ => 0 }).map Prod.fst = some 1 := by
  refine ⟨by decide, by decide, rfl⟩

theorem noLiveMatch_spec {s : Database} {q : Query} (h : noLiveMatch s q = true) :
    ∀ p ∈ s.items, ∀ r, recordOf s p.2 = some r → matchesQuery r q = false := by
  intro p hp r hr
  unfold noLiveMatch at h
  rw [List.all_eq_true] at h
  have := h p hp
  rw [hr] at this
  simpa using this

/-- **C9 amended.**  On an invariant-satisfying state, `remove` with a query
matching no live record resolves to 0 and leaves the state exactly
unchanged (hole compaction is not run), *provided* the by-id fast path of
`find` is not engaged: either no `sort` option is given (the unsorted path
never consults `find`), or the query's `_id` literal names no live id.
Without that proviso the claim fails (see the counterexample). -/
theorem remove_no_live_match (s : Database) (hInv : Inv s) (q : Query)
    (opts : RemoveOptions) (hnm : noLiveMatch s q = true)
    (hfast : opts.sort = none ∨
      ∀ v key, queryIdVal q = some v → jsPropKey v = some key →
        s.items.lookup key = none) :
    remove s q opts = some (0, s) := by
  have hnm' := noLiveMatch_spec hnm
  unfold remove
  match hsort : opts.sort with
  | none =>
    show (match (iterate s (fun (st : Database × Nat) item =>
        if matchesQuery item q then
          match removeItem st.1 item.id with
          | none => none
          | some db1 =>
            let n := st.2 + 1
            some ((db1, n), decide (n < opts.limit.getD jsMaxValue))
        else some (st, true)) (s, 0)).map Prod.fst with
      | none => none
      | some (db1, n) =>
        if 0 < n then (fillHoles db1).map fun db2 => (n, db2) else some (n, db1)) =
      some (0, s)
    rw [iterate_fold s hInv
      (fun (st : Database × Nat) item =>
        if matchesQuery item q then
          match removeItem st.1 item.id with
          | none => none
          | some db1 =>
            let n := st.2 + 1
            some ((db1, n), decide (n < opts.limit.getD jsMaxValue))
        else some (st, true))
      (fun (st : Database × Nat) (_ : Item) => st)
      (fun st p r hp hrec => by simp [hnm' p hp r hrec]) (s, 0)]
    simp [foldl_const]
  | some cmp =>
    show (match (match find s q
        { limit := some (opts.limit.getD jsMaxValue), sort := some cmp } with
      | none => none
      | some results =>
        results.foldlM (fun (st : Database × Nat) r =>
          (removeItem st.1 r.id).map fun db1 => (db1, st.2 + 1)) (s, 0)) with
      | none => none
      | some (db1, n) =>
        if 0 < n then (fillHoles db1).map fun db2 => (n, db2)
        else some (n, db1)) = some (0, s)
    have hgen : find s q { limit := some (opts.limit.getD jsMaxValue), sort := some cmp }
        = some [] := by
      unfold find
      have hiter : (iterate s (fun results item =>
          if matchesQuery item q then
            some (addToResults item q results
              { limit := some (opts.limit.getD jsMaxValue), sort := some cmp })
          else some (results, true)) []).map Prod.fst = some [] := by
        rw [iterate_fold s hInv _ (fun (st : List Item) (_ : Item) => st)
          (fun st p r hp hrec => by simp [hnm' p hp r hrec]) []]
        simp [foldl_const]
      match hqk : (queryIdVal q).bind jsPropKey with
      | some key =>
        obtain ⟨v, hv, hkey⟩ := Option.bind_eq_some.mp hqk
        have hlook : s.items.lookup key = none := by
          rcases hfast with hl | hr
          · rw [hl] at hsort; cases hsort
          · exact hr v key hv hkey
        simp only [hlook]
        exact hiter
      | none => exact hiter
    rw [hgen]
    rfl

theorem remove_no_live_match_witness :
    remove invDB (idQuery "zz") {} = some (0, invDB) :=
  remove_no_live_match invDB (by decide) (idQuery "zz") {} (by decide) (Or.inl rfl)

/-! ## C1 — helper lemmas on the state primitives -/

theorem lookup_of_mem_nodup {l : List (String × ItemData)} {p : String × ItemData}
    (hn : (l.map Prod.fst).Nodup) (hp : p ∈ l) : l.lookup p.1 = some p.2 := by
  induction l with
  | nil => cases hp
  | cons q rest ih =>
    rcases List.mem_cons.mp hp with hq | hrest
    · subst hq
      obtain ⟨a, b⟩ := p
      exact lookup_cons_self
    · have hne : p.1 ≠ q.1 := by
        intro he
        have : q.1 ∈ rest.map Prod.fst := he ▸ List.mem_map_of_mem Prod.fst hrest
        exact (List.nodup_cons.mp (by simpa using hn)).1 this
      rw [lookup_cons_ne hne]
      exact ih (List.nodup_cons.mp (by simpa using hn)).2 hrest

theorem holeInsert_cons_lt {y n : Nat} {rest : List Nat} (h : n < y) :
    holeInsert (y :: rest) n = n :: y :: rest := by
  unfold holeInsert
  rw [if_pos h]

theorem holeInsert_cons_self {n : Nat} {rest : List Nat} :
    holeInsert (n :: rest) n = n :: rest := by
  unfold holeInsert
  rw [if_neg (lt_irrefl n), if_pos rfl]

theorem holeInsert_cons_gt {y n : Nat} {rest : List Nat} (h1 : ¬n < y) (h2 : n ≠ y) :
    holeInsert (y :: rest) n = y :: holeInsert rest n := by
  simp only [holeInsert]
  rw [if_neg h1, if_neg h2]

theorem mem_holeInsert {l : List Nat} {n x : Nat} :
    x ∈ holeInsert l n ↔ x = n ∨ x ∈ l := by
  induction l with
  | nil => simp [holeInsert]
  | cons y rest ih =>
    by_cases h1 : n < y
    · rw [holeInsert_cons_lt h1]
      simp [List.mem_cons]
    · by_cases h2 : n = y
      · subst h2
        rw [holeInsert_cons_self]
        simp only [List.mem_cons]
        tauto
      · rw [holeInsert_cons_gt h1 h2]
        simp only [List.mem_cons, ih]
        tauto

theorem holeInsert_pairwise {l : List Nat} {n : Nat} (h : l.Pairwise (· < ·))
    (hnm : n ∉ l) : (holeInsert l n).Pairwise (· < ·) := by
  induction l with
  | nil => simp [holeInsert]
  | cons y rest ih =>
    have hny : n ≠ y := by intro he; exact hnm (he ▸ List.mem_cons_self _ _)
    have hnr : n ∉ rest := fun hr => hnm (List.mem_cons_of_mem _ hr)
    by_cases h1 : n < y
    · rw [holeInsert_cons_lt h1]
      refine List.pairwise_cons.mpr ⟨?_, h⟩
      intro x hx
      rcases List.mem_cons.mp hx with h' | h'
      · omega
      · have := (List.pairwise_cons.mp h).1 x h'
        omega
    · rw [holeInsert_cons_gt h1 hny]
      refine List.pairwise_cons.mpr ⟨?_, ih (List.pairwise_cons.mp h).2 hnr⟩
      intro x hx
      rcases mem_holeInsert.mp hx with h' | h'
      · omega
      · exact (List.pairwise_cons.mp h).1 x h'

theorem holeInsert_length {l : List Nat} {n : Nat} (h : n ∉ l) :
    (holeInsert l n).length = l.length + 1 := by
  induction l with
  | nil => simp [holeInsert]
  | cons y rest ih =>
    have hny : n ≠ y := by intro he; exact h (he ▸ List.mem_cons_self _ _)
    by_cases h1 : n < y
    · rw [holeInsert_cons_lt h1]
      rfl
    · rw [holeInsert_cons_gt h1 hny]
      simp only [List.length_cons]
      rw [ih (fun hr => h (List.mem_cons_of_mem _ hr))]

theorem holeInsert_of_forall_lt {l : List Nat} {n : Nat} (h : ∀ x ∈ l, n < x) :
    holeInsert l n = n :: l := by
  cases l with
  | nil => rfl
  | cons y rest => exact holeInsert_cons_lt (h y (List.mem_cons_self _ _))

theorem holeInsert_filter_lt {l : List Nat} {n C : Nat} (hs : l.Pairwise (· < ·)) :
    (holeInsert l n).filter (fun x => x < C) =
      if n < C then holeInsert (l.filter (fun x => x < C)) n
      else l.filter (fun x => x < C) := by
  induction l with
  | nil =>
    by_cases h : n < C <;> simp [holeInsert, h]
  | cons y rest ih =>
    have hrest : rest.Pairwise (· < ·) := (List.pairwise_cons.mp hs).2
    have hy : ∀ x ∈ rest, y < x := (List.pairwise_cons.mp hs).1
    by_cases h1 : n < y
    · rw [holeInsert_cons_lt h1]
      by_cases hnC : n < C
      · rw [if_pos hnC]
        by_cases hyC : y < C
        · rw [show List.filter (fun x => decide (x < C)) (y :: rest) =
              y :: rest.filter (fun x => decide (x < C)) from by simp [hyC]]
          rw [holeInsert_cons_lt h1]
          simp [hnC, hyC]
        · have hrC : rest.filter (fun x => decide (x < C)) = [] := by
            rw [List.filter_eq_nil_iff]
            intro x hx
            have := hy x hx
            simp only [decide_eq_true_eq]
            omega
          rw [show List.filter (fun x => decide (x < C)) (y :: rest) = [] from by
            simp [hyC, hrC]]
          simp [holeInsert, hnC, hyC, hrC]
      · rw [if_neg hnC]
        have hyC : ¬y < C := by omega
        have hrC : rest.filter (fun x => decide (x < C)) = [] := by
          rw [List.filter_eq_nil_iff]
          intro x hx
          have := hy x hx
          simp only [decide_eq_true_eq]
          omega
        simp [hnC, hyC, hrC]
    · by_cases h2 : n = y
      · subst h2
        rw [holeInsert_cons_self]
        by_cases hnC : n < C
        · rw [if_pos hnC]
          rw [show List.filter (fun x => decide (x < C)) (n :: rest) =
              n :: rest.filter (fun x => decide (x < C)) from by simp [hnC]]
          rw [holeInsert_cons_self]
        · rw [if_neg hnC]
      · rw [holeInsert_cons_gt h1 h2]
        by_cases hyC : y < C
        · rw [show List.filter (fun x => decide (x < C)) (y :: holeInsert rest n) =
              y :: (holeInsert rest n).filter (fun x => decide (x < C)) from by
            simp [hyC]]
          rw [ih hrest]
          by_cases hnC : n < C
          · rw [if_pos hnC, if_pos hnC]
            rw [show List.filter (fun x => decide (x < C)) (y :: rest) =
                y :: rest.filter (fun x => decide (x < C)) from by simp [hyC]]
            rw [holeInsert_cons_gt h1 h2]
          · rw [if_neg hnC, if_neg hnC]
            rw [show List.filter (fun x => decide (x < C)) (y :: rest) =
                y :: rest.filter (fun x => decide (x < C)) from by simp [hyC]]
        · rw [show List.filter (fun x => decide (x < C)) (y :: holeInsert rest n) =
              (holeInsert rest n).filter (fun x => decide (x < C)) from by simp [hyC]]
          rw [ih hrest]
          rw [show List.filter (fun x => decide (x < C)) (y :: rest) =
              rest.filter (fun x => decide (x < C)) from by simp [hyC]]

theorem map_setpair_eq_self {l : List (String × ItemData)} {id : String}
    {d : ItemData} (hnm : id ∉ l.map Prod.fst) :
    l.map (fun p => if p.1 = id then (id, d) else p) = l := by
  induction l with
  | nil => rfl
  | cons q rest ih =>
    have h1 : ¬q.1 = id := by
      intro he
      exact hnm (by rw [List.map_cons]; exact he ▸ List.mem_cons_self _ _)
    have h2 : id ∉ rest.map Prod.fst := by
      intro hr
      exact hnm (by rw [List.map_cons]; exact List.mem_cons_of_mem _ hr)
    rw [List.map_cons, if_neg h1, ih h2]

theorem assocSet_present_eq {l : List (String × ItemData)} {id : String}
    {dold : ItemData} (d : ItemData)
    (hn : (l.map Prod.fst).Nodup) (hl : l.lookup id = some dold) :
    ∃ l1 l2, l = l1 ++ (id, dold) :: l2 ∧
      assocSet l id d = l1 ++ (id, d) :: l2 ∧
      id ∉ l1.map Prod.fst ∧ id ∉ l2.map Prod.fst := by
  induction l with
  | nil => simp [List.lookup] at hl
  | cons q rest ih =>
    by_cases he : id = q.1
    · obtain ⟨a, b⟩ := q
      simp only at he
      subst he
      rw [lookup_cons_self] at hl
      obtain rfl : b = dold := by simpa using hl
      have hrest : id ∉ rest.map Prod.fst :=
        (List.nodup_cons.mp (by simpa using hn)).1
      refine ⟨[], rest, by simp, ?_, by simp, hrest⟩
      unfold assocSet
      rw [if_pos (by rw [lookup_cons_self]; rfl)]
      rw [List.map_cons]
      rw [show (if (id, b).1 = id then (id, d) else (id, b)) = (id, d) from by
        rw [if_pos rfl]]
      rw [map_setpair_eq_self hrest]
      rfl
    · rw [lookup_cons_ne he] at hl
      obtain ⟨l1, l2, hsplit, hset, h1, h2⟩ :=
        ih (List.nodup_cons.mp (by simpa using hn)).2 hl
      refine ⟨q :: l1, l2, by rw [hsplit]; rfl, ?_, ?_, h2⟩
      · unfold assocSet
        rw [if_pos (by rw [lookup_cons_ne he, hl]; rfl)]
        simp only [List.map_cons]
        rw [show (if q.1 = id then (id, d) else q) = q from by
          rw [if_neg (fun h => he h.symm)]]
        unfold assocSet at hset
        by_cases hrs : (rest.lookup id).isSome
        · rw [if_pos hrs] at hset
          rw [hset]
          rfl
        · rw [hl] at hrs
          exact absurd rfl hrs
      · simp only [List.map_cons, List.mem_cons]
        rintro (h | h)
        · exact he h
        · exact h1 h

theorem assocSet_absent_eq {l : List (String × ItemData)} {id : String}
    (d : ItemData) (hl : l.lookup id = none) :
    assocSet l id d = l ++ [(id, d)] := by
  unfold assocSet
  rw [if_neg (by rw [hl]; simp)]

theorem listSetPad_length {l : List (Option Item)} {i : Nat} {v : Option Item} :
    (listSetPad l i v).length = max l.length (i + 1) := by
  unfold listSetPad
  by_cases h : i < l.length
  · rw [if_pos h]
    simp
    omega
  · rw [if_neg h]
    simp
    omega

theorem listSetPad_get_self {l : List (Option Item)} {i : Nat} {v : Option Item} :
    (listSetPad l i v).get? i = some v := by
  unfold listSetPad
  by_cases h : i < l.length
  · rw [if_pos h]
    exact List.get?_set_eq_of_lt _ (by simpa using h)
  · rw [if_neg h]
    rw [List.get?_append_right (by simp; omega)]
    have hlen : (l ++ List.replicate (i - l.length) none).length = i := by
      simp
      omega
    rw [hlen, Nat.sub_self]
    rfl

theorem listSetPad_get_ne {l : List (Option Item)} {i j : Nat} {v : Option Item}
    (h : j ≠ i) : (listSetPad l i v).get? j =
      if j < l.length then l.get? j else if j < i then some none else none := by
  unfold listSetPad
  by_cases hi : i < l.length
  · rw [if_pos hi]
    by_cases hj : j < l.length
    · rw [if_pos hj, List.get?_set_ne _ _ (fun he => h he.symm)]
    · rw [if_neg hj, if_neg (by omega), List.get?_len_le (by simp; omega)]
  · rw [if_neg hi]
    by_cases hj : j < l.length
    · rw [if_pos hj, List.get?_append (by simp; omega), List.get?_append hj]
    · rw [if_neg hj]
      by_cases hji : j < i
      · rw [if_pos hji]
        rw [List.get?_append (by simp; omega)]
        rw [List.get?_append_right (by omega)]
        rw [List.get?_eq_get (by simp; omega)]
        simp
      · rw [if_neg hji]
        apply List.get?_len_le
        simp
        omega

theorem nodup_lt_cover {live holes : List Nat} {B : Nat}
    (hln : live.Nodup) (hhn : holes.Nodup) (hdisj : ∀ x ∈ live, x ∉ holes)
    (hl : ∀ x ∈ live, x < B) (hh : ∀ x ∈ holes, x < B)
    (hcount : live.length + holes.length = B) :
    ∀ b, b < B → b ∈ live ∨ b ∈ holes := by
  intro b hb
  have hsub : live.toFinset ∪ holes.toFinset ⊆ Finset.range B := by
    intro x hx
    rw [Finset.mem_union, List.mem_toFinset, List.mem_toFinset] at hx
    rw [Finset.mem_range]
    rcases hx with h | h
    · exact hl x h
    · exact hh x h
  have hdisj' : Disjoint live.toFinset holes.toFinset := by
    rw [Finset.disjoint_left]
    intro x hx hx'
    rw [List.mem_toFinset] at hx hx'
    exact hdisj x hx hx'
  have hcard : (live.toFinset ∪ holes.toFinset).card = B := by
    rw [Finset.card_union_of_disjoint hdisj',
      List.toFinset_card_of_nodup hln, List.toFinset_card_of_nodup hhn]
    exact hcount
  have heq : live.toFinset ∪ holes.toFinset = Finset.range B :=
    Finset.eq_of_subset_of_card_le hsub (by rw [hcard, Finset.card_range])
  have : b ∈ live.toFinset ∪ holes.toFinset := by
    rw [heq, Finset.mem_range]; exact hb
  rw [Finset.mem_union, List.mem_toFinset, List.mem_toFinset] at this
  exact this

theorem toFinset_union_range {live holes : List Nat} {B : Nat}
    (hln : live.Nodup) (hhn : holes.Nodup) (hdisj : ∀ x ∈ live, x ∉ holes)
    (hl : ∀ x ∈ live, x < B) (hh : ∀ x ∈ holes, x < B)
    (hcount : live.length + holes.length = B) :
    live.toFinset ∪ holes.toFinset = Finset.range B := by
  have hsub : live.toFinset ∪ holes.toFinset ⊆ Finset.range B := by
    intro x hx
    rw [Finset.mem_union, List.mem_toFinset, List.mem_toFinset] at hx
    rw [Finset.mem_range]
    rcases hx with h | h
    · exact hl x h
    · exact hh x h
  have hdisj' : Disjoint live.toFinset holes.toFinset := by
    rw [Finset.disjoint_left]
    intro x hx hx'
    rw [List.mem_toFinset] at hx hx'
    exact hdisj x hx hx'
  have hcard : (live.toFinset ∪ holes.toFinset).card = B := by
    rw [Finset.card_union_of_disjoint hdisj',
      List.toFinset_card_of_nodup hln, List.toFinset_card_of_nodup hhn]
    exact hcount
  exact Finset.eq_of_subset_of_card_le hsub (by rw [hcard, Finset.card_range])

theorem filter_high_length {live holes : List Nat} {B T : Nat}
    (hln : live.Nodup) (hhn : holes.Nodup) (hdisj : ∀ x ∈ live, x ∉ holes)
    (hl : ∀ x ∈ live, x < B) (hh : ∀ x ∈ holes, x < B)
    (hcount : live.length + holes.length = B) (hT : live.length = T) :
    (live.filter (fun x => T ≤ x)).length = (holes.filter (fun x => x < T)).length := by
  have hTB : T ≤ B := by omega
  have hrange := toFinset_union_range hln hhn hdisj hl hh hcount
  have hdisj' : Disjoint live.toFinset holes.toFinset := by
    rw [Finset.disjoint_left]
    intro x hx hx'
    rw [List.mem_toFinset] at hx hx'
    exact hdisj x hx hx'
  have hsplit : live.toFinset.filter (fun x => x < T) ∪
      holes.toFinset.filter (fun x => x < T) = Finset.range T := by
    rw [← Finset.filter_union, hrange]
    ext x
    simp only [Finset.mem_filter, Finset.mem_range]
    constructor
    · rintro ⟨-, h2⟩
      simpa using h2
    · intro h
      exact ⟨by omega, by simpa using h⟩
  have hlocard : (live.toFinset.filter (fun x => x < T)).card +
      (holes.toFinset.filter (fun x => x < T)).card = T := by
    have := congrArg Finset.card hsplit
    rw [Finset.card_union_of_disjoint
      (Finset.disjoint_filter_filter hdisj'), Finset.card_range] at this
    exact this
  have hlivesplit : (live.toFinset.filter (fun x => T ≤ x)).card +
      (live.toFinset.filter (fun x => x < T)).card = T := by
    have h0 := Finset.filter_card_add_filter_neg_card_eq_card
      (s := live.toFinset) (p := fun x => T ≤ x)
    rw [List.toFinset_card_of_nodup hln, hT] at h0
    rw [show (live.toFinset.filter (fun x => ¬T ≤ x)).card =
        (live.toFinset.filter (fun x => x < T)).card from by
      congr 1
      apply Finset.filter_congr
      intro x hx
      constructor
      · intro h; simp at h ⊢; omega
      · intro h; simp at h ⊢; omega]
      at h0
    exact h0
  have e1 : (live.filter (fun x => T ≤ x)).length =
      (live.toFinset.filter (fun x => T ≤ x)).card := by
    rw [← List.toFinset_card_of_nodup (hln.filter _)]
    congr 1
    rw [List.toFinset_filter]
    apply Finset.filter_congr
    intro x hx
    simp
  have e2 : (holes.filter (fun x => x < T)).length =
      (holes.toFinset.filter (fun x => x < T)).card := by
    rw [← List.toFinset_card_of_nodup (hhn.filter _)]
    congr 1
    rw [List.toFinset_filter]
    apply Finset.filter_congr
    intro x hx
    simp
  omega

/-! ## The `getLastNBlocks` / `getLastNCacheIndices` walk -/

theorem skipHoles_le (holes : List Nat) :
    ∀ (fuel : Nat) (i : Int), skipHoles holes fuel i ≤ i := by
  intro fuel
  induction fuel with
  | zero => intro i; exact le_refl i
  | succ fuel ih =>
    intro i
    simp only [skipHoles]
    by_cases h : 0 ≤ i ∧ holes.contains i.toNat = true
    · rw [if_pos h]
      have := ih (i - 1)
      omega
    · rw [if_neg h]

theorem skipHoles_free (holes : List Nat) :
    ∀ (fuel : Nat) (i : Int), i < fuel →
    skipHoles holes fuel i < 0 ∨ (0 ≤ skipHoles holes fuel i ∧
      holes.contains (skipHoles holes fuel i).toNat = false) := by
  intro fuel
  induction fuel with
  | zero => intro i h; left; exact_mod_cast h
  | succ fuel ih =>
    intro i h
    simp only [skipHoles]
    by_cases hc : 0 ≤ i ∧ holes.contains i.toNat = true
    · rw [if_pos hc]
      exact ih (i - 1) (by push_cast; omega)
    · rw [if_neg hc]
      by_cases hi : 0 ≤ i
      · right
        refine ⟨hi, ?_⟩
        cases hcontains : holes.contains i.toNat
        · rfl
        · exact absurd ⟨hi, hcontains⟩ hc
      · left; omega

theorem skipHoles_ge (holes : List Nat) :
    ∀ (fuel : Nat) (i j : Int), 0 ≤ j → j ≤ i →
    holes.contains j.toNat = false → j ≤ skipHoles holes fuel i := by
  intro fuel
  induction fuel with
  | zero => intro i j _ hji _; exact hji
  | succ fuel ih =>
    intro i j hj hji hfree
    simp only [skipHoles]
    by_cases hc : 0 ≤ i ∧ holes.contains i.toNat = true
    · rw [if_pos hc]
      apply ih (i - 1) j hj ?_ hfree
      have hne : j ≠ i := by
        intro he
        rw [he] at hfree
        rw [hfree] at hc
        exact absurd hc (by simp)
      omega
    · rw [if_neg hc]
      exact hji

theorem skipHoles_ge_neg (holes : List Nat) :
    ∀ (fuel : Nat) (i : Int), -1 ≤ i → -1 ≤ skipHoles holes fuel i := by
  intro fuel
  induction fuel with
  | zero => intro i h; exact h
  | succ fuel ih =>
    intro i h
    simp only [skipHoles]
    by_cases hc : 0 ≤ i ∧ holes.contains i.toNat = true
    · rw [if_pos hc]
      exact ih (i - 1) (by omega)
    · rw [if_neg hc]
      exact h

theorem getLastNAux_spec (holes : List Nat) (n : Nat) (start : Int) :
    ∀ (fuel : Nat) (i : Int) (acc : List Int),
    acc.length + fuel = n + 1 →
    i ≤ start →
    acc.Pairwise (· > ·) →
    (∀ a ∈ acc, i < a ∧ a ≤ start ∧
      (a = -1 ∨ (0 ≤ a ∧ holes.contains a.toNat = false))) →
    (∀ j : Int, 0 ≤ j → holes.contains j.toNat = false → i < j → j ≤ start →
      j ∈ acc) →
    (getLastNAux holes n fuel i acc).Pairwise (· > ·) ∧
    (∀ a ∈ getLastNAux holes n fuel i acc,
      a ≤ start ∧ (a = -1 ∨ (0 ≤ a ∧ holes.contains a.toNat = false))) ∧
    (∀ j : Int, 0 ≤ j → holes.contains j.toNat = false → j ≤ start →
      j ∉ getLastNAux holes n fuel i acc →
      n ≤ (getLastNAux holes n fuel i acc).length ∧
      ∀ a ∈ getLastNAux holes n fuel i acc, j < a) := by
  intro fuel
  induction fuel with
  | zero =>
    intro i acc hlen hi hdesc hmem hcpl
    simp only [getLastNAux]
    refine ⟨hdesc, fun a ha => ⟨(hmem a ha).2.1, (hmem a ha).2.2⟩, ?_⟩
    intro j hj hfree hjs hnot
    constructor
    · omega
    · intro a ha
      have hji : ¬i < j := fun hlt => hnot (hcpl j hj hfree hlt hjs)
      have := (hmem a ha).1
      omega
  | succ fuel ih =>
    intro i acc hlen hi hdesc hmem hcpl
    simp only [getLastNAux]
    by_cases hc : acc.length < n ∧ 0 ≤ i
    · rw [if_pos hc]
      show (getLastNAux holes n fuel (skipHoles holes (i.toNat + 1) i - 1)
          (acc ++ [skipHoles holes (i.toNat + 1) i])).Pairwise (· > ·) ∧ _
      set jstar := skipHoles holes (i.toNat + 1) i with hjdef
      have hjle : jstar ≤ i := skipHoles_le holes _ i
      have hjneg : -1 ≤ jstar := skipHoles_ge_neg holes _ i (by omega)
      have hjfree : jstar < 0 ∨ (0 ≤ jstar ∧
          holes.contains jstar.toNat = false) := by
        apply skipHoles_free holes (i.toNat + 1) i
        push_cast
        rw [Int.toNat_of_nonneg hc.2]
        omega
      have hjmax : ∀ j : Int, 0 ≤ j → holes.contains j.toNat = false → j ≤ i →
          j ≤ jstar := fun j hj hfree hji => skipHoles_ge holes _ i j hj hji hfree
      apply ih (jstar - 1) (acc ++ [jstar])
      · simp only [List.length_append, List.length_cons, List.length_nil]
        omega
      · omega
      · rw [List.pairwise_append]
        refine ⟨hdesc, List.pairwise_singleton _ _, ?_⟩
        intro a ha b hb
        rw [List.mem_singleton] at hb
        subst hb
        have := (hmem a ha).1
        omega
      · intro a ha
        rcases List.mem_append.mp ha with h | h
        · have := hmem a h
          refine ⟨by omega, this.2.1, this.2.2⟩
        · rw [List.mem_singleton] at h
          subst h
          refine ⟨by omega, by omega, ?_⟩
          rcases hjfree with h | h
          · left; omega
          · right; exact h
      · intro j hj hfree hlow hjs
        by_cases hji : i < j
        · exact List.mem_append.mpr (Or.inl (hcpl j hj hfree hji hjs))
        · have : j ≤ jstar := hjmax j hj hfree (by omega)
          have : j = jstar := by omega
          subst this
          exact List.mem_append.mpr (Or.inr (List.mem_singleton.mpr rfl))
    · rw [if_neg hc]
      refine ⟨hdesc, fun a ha => ⟨(hmem a ha).2.1, (hmem a ha).2.2⟩, ?_⟩
      intro j hj hfree hjs hnot
      rcases not_and_or.mp hc with hlen' | hineg
      · constructor
        · omega
        · intro a ha
          have hji : ¬i < j := fun hlt => hnot (hcpl j hj hfree hlt hjs)
          have := (hmem a ha).1
          omega
      · exact absurd (hcpl j hj hfree (by omega) hjs) hnot

/-! ## C1 — `resize` preserves the state invariant -/

theorem zipWith_range_get {α β : Type} (g : Nat → α → β) (l : List α) (i : Nat) :
    ((List.range l.length).zipWith g l).get? i = (l.get? i).map (g i) := by
  by_cases h : i < l.length
  · rw [List.get?_eq_getElem?, List.getElem?_zipWith]
    rw [show (List.range l.length)[i]? = some i from by
      rw [← List.get?_eq_getElem?]; exact List.get?_range h]
    rw [List.get?_eq_get h]
    rw [show l[i]? = some (l.get ⟨i, h⟩) from by
      rw [← List.get?_eq_getElem?]; exact List.get?_eq_get h]
    rfl
  · rw [List.get?_len_le (by rw [List.length_zipWith, List.length_range]; omega),
      List.get?_len_le (by omega)]
    rfl

theorem block_eq_of_nodup {l : List (String × ItemData)}
    (hn : (l.map fun p => p.2.block).Nodup) {p q : String × ItemData}
    (hp : p ∈ l) (hq : q ∈ l) (he : p.2.block = q.2.block) : p = q :=
  List.inj_on_of_nodup_map hn hp hq he

theorem diskIdOKB_intro {s : Database} {p : String × ItemData}
    (h : ∀ r, s.fileData.get? p.2.block = some (some r) → r.id = p.1) :
    diskIdOKB s p = true := by
  unfold diskIdOKB
  match hf : s.fileData.get? p.2.block with
  | some (some r) => simpa using h r hf
  | some none => rfl
  | none => rfl

theorem stateInv_set_fileData {s : Database} {F : List (Option Item)} {L : Nat}
    (hS : StateInv s) (hlen : F.length ≤ s.blocks)
    (hid : ∀ p ∈ s.items, ∀ r, F.get? p.2.block = some (some r) → r.id = p.1) :
    StateInv { s with fileData := F, fileLen := L } := by
  obtain ⟨h1, h2, h3, h4, h5, h6, h7, h8⟩ := hS
  refine ⟨h1, h2, h3, h4, h5, h6, hlen, ?_⟩
  intro p hp
  obtain ⟨e1, e2, e3, e4⟩ := h8 p hp
  exact ⟨e1, e2, e3, diskIdOKB_intro (hid p hp)⟩

theorem resizeCachePass_inv {bs : Nat} :
    ∀ (l : List Item) (db db' : Database),
    resizeCachePass bs db l = some db' →
    (liveBlocks db).Nodup →
    (∀ p ∈ db.items, p.2.block < db.blocks) →
    (∀ p ∈ db.items, diskIdOKB db p = true) →
    db.fileData.length ≤ db.blocks →
    db'.items = db.items ∧ db'.cache = db.cache ∧ db'.blocks = db.blocks ∧
    db'.blockHoles = db.blockHoles ∧ db'.cacheHoles = db.cacheHoles ∧
    db'.blockSize = db.blockSize ∧ db'.maxCacheSize = db.maxCacheSize ∧
    db'.compressed = db.compressed ∧
    (∀ p ∈ db.items, diskIdOKB db' p = true) ∧
    db'.fileData.length ≤ db.blocks := by
  intro l
  induction l with
  | nil =>
    intro db db' h hb hlt hok hlen
    rw [show resizeCachePass bs db [] = some db from rfl] at h
    cases h
    exact ⟨rfl, rfl, rfl, rfl, rfl, rfl, rfl, rfl, hok, hlen⟩
  | cons item rest ih =>
    intro db db' h hb hlt hok hlen
    rw [show resizeCachePass bs db (item :: rest) =
      match db.items.lookup item.id with
      | none => none
      | some d => resizeCachePass bs (writeToBlock db d.block item bs) rest
      from rfl] at h
    match hlk : db.items.lookup item.id with
    | none => rw [hlk] at h; cases h
    | some d =>
      rw [hlk] at h
      have hmem : (item.id, d) ∈ db.items := lookup_mem hlk
      have hdb : d.block < db.blocks := hlt (item.id, d) hmem
      have := ih (writeToBlock db d.block item bs) db' h
        (by unfold writeToBlock liveBlocks at *; exact hb)
        (by unfold writeToBlock; exact hlt)
        ?_ ?_
      · unfold writeToBlock at this
        exact this
      · intro p hp
        apply diskIdOKB_intro
        intro r hr
        unfold writeToBlock at hr
        simp only at hr
        by_cases hpb : p.2.block = d.block
        · rw [hpb, listSetPad_get_self] at hr
          have hfits : (if item.encLen ≤ bs then some item else none) = some r := by
            simpa using hr
          by_cases hf : item.encLen ≤ bs
          · rw [if_pos hf] at hfits
            have hir : r = item := by simpa using hfits.symm
            have hpd : p = (item.id, d) := block_eq_of_nodup hb hp hmem hpb
            rw [hir, hpd]
          · rw [if_neg hf] at hfits
            cases hfits
        · rw [listSetPad_get_ne hpb] at hr
          by_cases hlo : p.2.block < db.fileData.length
          · rw [if_pos hlo] at hr
            exact diskIdOKB_spec (hok p hp) r hr
          · rw [if_neg hlo] at hr
            by_cases hmid : p.2.block < d.block
            · rw [if_pos hmid] at hr
              cases hr
            · rw [if_neg hmid] at hr
              cases hr
      · unfold writeToBlock
        simp only
        rw [listSetPad_length]
        omega

theorem dropLast_get?_lt {l : List Item} {i : Nat} (h : i < l.length - 1) :
    l.dropLast.get? i = l.get? i := by
  rw [List.dropLast_eq_take]
  exact List.get?_take (by omega)

theorem resizePopLoop_inv :
    ∀ (fuel : Nat) (db db' : Database),
    resizePopLoop fuel db = some db' → StateInv db → StateInv db' := by
  intro fuel
  induction fuel with
  | zero =>
    intro db db' h hS
    rw [show resizePopLoop 0 db = some db from rfl] at h
    cases h
    exact hS
  | succ fuel ih =>
    intro db db' h hS
    rw [show resizePopLoop (fuel + 1) db =
      if db.maxCacheSize < db.blockSize * db.cache.length then
        match db.cache.getLast? with
        | none => none
        | some item =>
          match db.items.lookup item.id with
          | none => none
          | some d =>
            resizePopLoop fuel
              { db with
                cache := db.cache.dropLast
                items := assocSet db.items item.id
                  { d with cached := false, cacheIndex := -1 } }
      else some db from rfl] at h
    by_cases hguard : db.maxCacheSize < db.blockSize * db.cache.length
    · rw [if_pos hguard] at h
      match hlast : db.cache.getLast? with
      | none => rw [hlast] at h; cases h
      | some item =>
        simp only [hlast] at h
        match hlk : db.items.lookup item.id with
        | none => simp only [hlk] at h; cases h
        | some d =>
          simp only [hlk] at h
          obtain ⟨h1, h2, h3, h4, h5, h6, h7, h8⟩ := hS
          have hC : 0 < db.cache.length := by
            by_contra h0
            have hnil : db.cache = [] := List.eq_nil_of_length_eq_zero (by omega)
            rw [hnil] at hlast
            cases hlast
          obtain ⟨q, hq, hqb⟩ := blocks_surjective ⟨h1, h2, h3, h4, h5, h6, h7, h8⟩
            (db.cache.length - 1) (by omega)
          have hqok := h8 q hq
          have hqc : q.2.cached = true := hqok.2.1.mpr (by omega)
          have hqid : (db.cache.get? (db.cache.length - 1)).map Item.id = some q.1 := by
            have := (hqok.2.2.1 hqc).2
            rw [hqb] at this
            exact this
          have hitem : item.id = q.1 := by
            rw [List.getLast?_eq_get? db.cache] at hlast
            rw [hlast] at hqid
            simpa using hqid
          have hdq : d = q.2 := by
            have := lookup_of_mem_nodup h1 hq
            rw [← hitem] at this
            rw [hlk] at this
            simpa using this
          have hdb' : d.block = db.cache.length - 1 := by rw [hdq, hqb]
          obtain ⟨l1, l2, hsplit, hset, hni1, hni2⟩ :=
            assocSet_present_eq { d with cached := false, cacheIndex := -1 } h1 hlk
          apply ih _ db' h
          have hmemd : (item.id, d) ∈ db.items := lookup_mem hlk
          have hkeys : (assocSet db.items item.id
              { d with cached := false, cacheIndex := -1 }).map Prod.fst =
              db.items.map Prod.fst := by
            rw [hset, hsplit]
            simp
          have hblk : (assocSet db.items item.id
              { d with cached := false, cacheIndex := -1 }).map
                (fun p => p.2.block) = db.items.map (fun p => p.2.block) := by
            rw [hset, hsplit]
            simp
          have hlen : (assocSet db.items item.id
              { d with cached := false, cacheIndex := -1 }).length =
              db.items.length := by
            rw [hset, hsplit]
            simp
          refine ⟨?_, ?_, ?_, ?_, h5, h6, h7, ?_⟩
          · show (assocSet db.items item.id
              { d with cached := false, cacheIndex := -1 }).map Prod.fst
                |>.Nodup
            rw [hkeys]
            exact h1
          · show (assocSet db.items item.id
              { d with cached := false, cacheIndex := -1 }).map
                (fun p => p.2.block) |>.Nodup
            rw [hblk]
            exact h2
          · show (assocSet db.items item.id
              { d with cached := false, cacheIndex := -1 }).length = db.blocks
            rw [hlen]
            exact h3
          · show db.cache.dropLast.length ≤ db.blocks
            rw [List.length_dropLast]
            omega
          · intro p hp
            rw [hset] at hp
            have hpcases : p = (item.id, { d with cached := false, cacheIndex := -1 })
                ∨ (p ∈ db.items ∧ p.1 ≠ item.id) := by
              rcases List.mem_append.mp hp with hl' | hr'
              · refine Or.inr ⟨by rw [hsplit]; exact List.mem_append.mpr (Or.inl hl'), ?_⟩
                intro he
                exact hni1 (he ▸ List.mem_map_of_mem Prod.fst hl')
              · rcases List.mem_cons.mp hr' with hm | hm
                · exact Or.inl hm
                · refine Or.inr ⟨by
                    rw [hsplit]
                    exact List.mem_append.mpr
                      (Or.inr (List.mem_cons.mpr (Or.inr hm))), ?_⟩
                  intro he
                  exact hni2 (he ▸ List.mem_map_of_mem Prod.fst hm)
            rcases hpcases with hpd | ⟨hpold, hpne⟩
            · subst hpd
              refine ⟨?_, ?_, ?_, ?_⟩
              · show d.block < db.blocks
                rw [hdq]
                exact hqok.1
              · show (false = true ↔ d.block < db.cache.dropLast.length)
                rw [List.length_dropLast, hdb']
                simp
              · intro hcf
                cases hcf
              · apply diskIdOKB_intro
                intro r hr
                rw [hitem]
                apply diskIdOKB_spec hqok.2.2.2 r
                show db.fileData.get? q.2.block = some (some r)
                rw [← hdq]
                exact hr
            · have hpok := h8 p hpold
              have hpbne : p.2.block ≠ db.cache.length - 1 := by
                intro he
                have : p = q := block_eq_of_nodup h2 hpold hq (by rw [he, hqb])
                rw [this] at hpne
                exact hpne hitem.symm
              refine ⟨hpok.1, ?_, ?_, ?_⟩
              · show (p.2.cached = true ↔ p.2.block < db.cache.dropLast.length)
                rw [List.length_dropLast]
                have := hpok.2.1
                constructor
                · intro hc
                  have := this.mp hc
                  omega
                · intro hlt
                  exact this.mpr (by omega)
              · intro hc
                obtain ⟨e1, e2⟩ := hpok.2.2.1 hc
                refine ⟨e1, ?_⟩
                show (db.cache.dropLast.get? p.2.block).map Item.id = some p.1
                rw [dropLast_get?_lt]
                · exact e2
                · have := hpok.2.1.mp hc
                  omega
              · apply diskIdOKB_intro
                intro r hr
                exact diskIdOKB_spec hpok.2.2.2 r hr
    · rw [if_neg hguard] at h
      cases h
      exact hS

theorem resizeMoveBlockData_some {old new : Nat} {c : Option Item} {r : Item}
    (h : resizeMoveBlockData old new c = some r) : c = some r := by
  match c with
  | none => cases h
  | some r' =>
    simp only [resizeMoveBlockData] at h
    by_cases hf : r'.encLen ≤ min old new
    · rw [if_pos hf] at h
      exact h
    · rw [if_neg hf] at h
      cases h

theorem resize_tail_inv {db1 : Database} {bs : Nat} {s' : Database}
    (hS1 : StateInv db1)
    (h : (match resizeCachePass bs db1 db1.cache with
      | none => none
      | some db2 => resizePopLoop (db2.cache.length + 1)
          { db2 with blockSize := bs }) = some s') : StateInv s' := by
  match hcp : resizeCachePass bs db1 db1.cache with
  | none => rw [hcp] at h; cases h
  | some db2 =>
    rw [hcp] at h
    obtain ⟨h1, h2, h3, h4, h5, h6, h7, h8⟩ := hS1
    obtain ⟨e1, e2, e3, e4, e5, e6, e7, e8, e9, e10⟩ :=
      resizeCachePass_inv db1.cache db1 db2 hcp h2
        (fun p hp => (h8 p hp).1) (fun p hp => (h8 p hp).2.2.2) h7
    apply resizePopLoop_inv _ _ s' h
    refine ⟨?_, ?_, ?_, ?_, ?_, ?_, ?_, ?_⟩
    · show (db2.items.map Prod.fst).Nodup
      rw [e1]; exact h1
    · show (db2.items.map fun p => p.2.block).Nodup
      rw [e1]; exact h2
    · show db2.items.length = db2.blocks
      rw [e1, e3]; exact h3
    · show db2.cache.length ≤ db2.blocks
      rw [e2, e3]; exact h4
    · show db2.blockHoles = []
      rw [e4]; exact h5
    · show db2.cacheHoles = []
      rw [e5]; exact h6
    · show db2.fileData.length ≤ db2.blocks
      rw [e3]; exact e10
    · intro p hp
      rw [e1] at hp
      obtain ⟨k1, k2, k3, k4⟩ := h8 p hp
      refine ⟨?_, ?_, ?_, ?_⟩
      · show p.2.block < db2.blocks
        rw [e3]; exact k1
      · show p.2.cached = true ↔ p.2.block < db2.cache.length
        rw [e2]; exact k2
      · intro hc
        obtain ⟨m1, m2⟩ := k3 hc
        refine ⟨m1, ?_⟩
        show (db2.cache.get? p.2.block).map Item.id = some p.1
        rw [e2]; exact m2
      · show diskIdOKB { db2 with blockSize := bs } p = true
        have := e9 p hp
        unfold diskIdOKB at this ⊢
        exact this

theorem resize_red {s : Database} {bs : Nat} (hne : ¬bs = s.blockSize) :
    resize s bs =
      (match resizeCachePass bs (resizeTarget s bs) (resizeTarget s bs).cache with
      | none => none
      | some db2 => resizePopLoop (db2.cache.length + 1)
          { db2 with blockSize := bs }) := by
  unfold resize resizeTarget
  rw [if_neg hne]

theorem stateInv_resizeTarget {s : Database} {bs : Nat} (hS : StateInv s) :
    StateInv (resizeTarget s bs) := by
  unfold resizeTarget
  by_cases hCB : s.cache.length < s.blocks
  · rw [if_pos hCB]
    set F : List (Option Item) := (List.range s.fileData.length).zipWith
      (fun i c => if s.cache.length ≤ i ∧ i < s.blocks then
          resizeMoveBlockData s.blockSize bs c else c)
      s.fileData with hFdef
    have hFlen : F.length = s.fileData.length := by
      rw [hFdef, List.length_zipWith, List.length_range]
      omega
    have hFid : ∀ p ∈ s.items, ∀ r, F.get? p.2.block = some (some r) →
        r.id = p.1 := by
      intro p hp r hr
      rw [hFdef, zipWith_range_get] at hr
      match hfd : s.fileData.get? p.2.block with
      | none => rw [hfd] at hr; cases hr
      | some c =>
        rw [hfd] at hr
        simp only [Option.map_some', Option.some.injEq] at hr
        have hc : c = some r := by
          by_cases hcond : s.cache.length ≤ p.2.block ∧ p.2.block < s.blocks
          · rw [if_pos hcond] at hr
            exact resizeMoveBlockData_some hr
          · rw [if_neg hcond] at hr
            exact hr
        subst hc
        exact diskIdOKB_spec (hS.2.2.2.2.2.2.2 p hp).2.2.2 r hfd
    by_cases hble : bs ≤ s.blockSize
    · rw [if_pos hble]
      show StateInv (truncateFile _ _ _)
      unfold truncateFile
      apply stateInv_set_fileData hS
      · simp only [List.length_take]
        omega
      · intro p hp r hr
        simp only at hr
        have hblt : p.2.block < s.blocks := (hS.2.2.2.2.2.2.2 p hp).1
        rw [List.get?_take hblt] at hr
        exact hFid p hp r hr
    · rw [if_neg hble]
      apply stateInv_set_fileData hS
      · rw [hFlen]
        exact hS.2.2.2.2.2.2.1
      · exact hFid
  · rw [if_neg hCB]
    exact hS

theorem resize_stateInv {s s' : Database} {bs : Nat}
    (hS : StateInv s) (h : resize s bs = some s') : StateInv s' := by
  by_cases heq : bs = s.blockSize
  · unfold resize at h
    rw [if_pos heq] at h
    cases h
    exact hS
  · rw [resize_red heq] at h
    exact resize_tail_inv (stateInv_resizeTarget hS) h

/-! ## C1 — `insert` preserves the state invariant -/

theorem writeToBlock_self_inv {db : Database} {item : Item} {d' : ItemData}
    (hS : StateInv db) (hd' : db.items.lookup item.id = some d') (bs2 : Nat) :
    StateInv (writeToBlock db d'.block item bs2) := by
  have hmem : (item.id, d') ∈ db.items := lookup_mem hd'
  have hblt : d'.block < db.blocks := (hS.2.2.2.2.2.2.2 _ hmem).1
  unfold writeToBlock
  apply stateInv_set_fileData hS
  · rw [listSetPad_length]
    have h7 := hS.2.2.2.2.2.2.1
    omega
  · intro p hp r hr
    by_cases hpb : p.2.block = d'.block
    · rw [hpb, listSetPad_get_self] at hr
      have hpd : p = (item.id, d') := block_eq_of_nodup hS.2.1 hp hmem hpb
      by_cases hf : item.encLen ≤ bs2
      · rw [if_pos hf] at hr
        have : item = r := by simpa using hr
        rw [← this, hpd]
      · rw [if_neg hf] at hr
        cases hr
    · rw [listSetPad_get_ne hpb] at hr
      by_cases hlo : p.2.block < db.fileData.length
      · rw [if_pos hlo] at hr
        exact diskIdOKB_spec (hS.2.2.2.2.2.2.2 p hp).2.2.2 r hr
      · rw [if_neg hlo] at hr
        by_cases hmid : p.2.block < d'.block
        · rw [if_pos hmid] at hr
          cases hr
        · rw [if_neg hmid] at hr
          cases hr

theorem cacheSet_self_inv {db : Database} {item : Item} {d' : ItemData}
    (hS : StateInv db) (hd' : db.items.lookup item.id = some d')
    (hc : d'.cached = true) :
    StateInv { db with cache := db.cache.set d'.cacheIndex.toNat item } := by
  obtain ⟨h1, h2, h3, h4, h5, h6, h7, h8⟩ := hS
  have hmem : (item.id, d') ∈ db.items := lookup_mem hd'
  have hok := h8 _ hmem
  have hci : d'.cacheIndex = (d'.block : Int) := (hok.2.2.1 hc).1
  have hcib : d'.cacheIndex.toNat = d'.block := by rw [hci]; simp
  have hblt : d'.block < db.cache.length := hok.2.1.mp hc
  refine ⟨h1, h2, h3, by simpa using h4, h5, h6, h7, ?_⟩
  intro p hp
  obtain ⟨k1, k2, k3, k4⟩ := h8 p hp
  refine ⟨k1, by simpa using k2, ?_, k4⟩
  intro hpc
  obtain ⟨m1, m2⟩ := k3 hpc
  refine ⟨m1, ?_⟩
  show ((db.cache.set d'.cacheIndex.toNat item).get? p.2.block).map Item.id = some p.1
  by_cases hpb : p.2.block = d'.block
  · have hpd : p = (item.id, d') := block_eq_of_nodup h2 hp hmem hpb
    rw [hcib, hpb, List.get?_set_eq_of_lt _ (by simpa using hblt)]
    rw [hpd]
    rfl
  · rw [hcib, List.get?_set_ne _ _ (fun he => hpb he.symm)]
    exact m2

theorem promote_self_inv {db : Database} {item : Item} {d' : ItemData}
    (hS : StateInv db) (hd' : db.items.lookup item.id = some d')
    (hc : d'.cached = false) (hb : d'.block = db.cache.length) :
    StateInv { db with
      items := assocSet db.items item.id
        { d' with cached := true, cacheIndex := (db.cache.length : Int) }
      cache := db.cache ++ [item] } ∧
    (assocSet db.items item.id
        { d' with cached := true, cacheIndex := (db.cache.length : Int) }).lookup
      item.id = some { d' with cached := true, cacheIndex := (db.cache.length : Int) } := by
  obtain ⟨h1, h2, h3, h4, h5, h6, h7, h8⟩ := hS
  have hmem : (item.id, d') ∈ db.items := lookup_mem hd'
  have hok := h8 _ hmem
  have hblt : d'.block < db.blocks := hok.1
  obtain ⟨l1, l2, hsplit, hset, hni1, hni2⟩ := assocSet_present_eq
    { d' with cached := true, cacheIndex := (db.cache.length : Int) } h1 hd'
  have hkeys : (assocSet db.items item.id
      { d' with cached := true, cacheIndex := (db.cache.length : Int) }).map
        Prod.fst = db.items.map Prod.fst := by
    rw [hset, hsplit]; simp
  have hblks : (assocSet db.items item.id
      { d' with cached := true, cacheIndex := (db.cache.length : Int) }).map
        (fun p => p.2.block) = db.items.map (fun p => p.2.block) := by
    rw [hset, hsplit]; simp
  have hlen : (assocSet db.items item.id
      { d' with cached := true, cacheIndex := (db.cache.length : Int) }).length =
      db.items.length := by
    rw [hset, hsplit]; simp
  have hnodup' : ((assocSet db.items item.id
      { d' with cached := true, cacheIndex := (db.cache.length : Int) }).map
        Prod.fst).Nodup := by rw [hkeys]; exact h1
  have hlk' : (assocSet db.items item.id
      { d' with cached := true, cacheIndex := (db.cache.length : Int) }).lookup
      item.id = some { d' with cached := true, cacheIndex := (db.cache.length : Int) } := by
    have hmm : (item.id, { d' with cached := true, cacheIndex := (db.cache.length : Int) }) ∈ assocSet db.items item.id { d' with cached := true, cacheIndex := (db.cache.length : Int) } := by
      rw [hset]
      exact List.mem_append.mpr (Or.inr (List.mem_cons_self _ _))
    exact lookup_of_mem_nodup hnodup' hmm
  refine ⟨⟨?_, ?_, ?_, ?_, h5, h6, h7, ?_⟩, hlk'⟩
  · exact hnodup'
  · show ((assocSet db.items item.id
      { d' with cached := true, cacheIndex := (db.cache.length : Int) }).map
        (fun p => p.2.block)).Nodup
    rw [hblks]; exact h2
  · show (assocSet db.items item.id
      { d' with cached := true, cacheIndex := (db.cache.length : Int) }).length =
      db.blocks
    rw [hlen]; exact h3
  · show (db.cache ++ [item]).length ≤ db.blocks
    rw [List.length_append]
    simp only [List.length_cons, List.length_nil]
    omega
  · intro p hp
    rw [hset] at hp
    have hpcases : p = (item.id, { d' with cached := true, cacheIndex := (db.cache.length : Int) }) ∨ (p ∈ db.items ∧ p.1 ≠ item.id) := by
      rcases List.mem_append.mp hp with hl' | hr'
      · refine Or.inr ⟨by rw [hsplit]; exact List.mem_append.mpr (Or.inl hl'), ?_⟩
        intro he
        exact hni1 (he ▸ List.mem_map_of_mem Prod.fst hl')
      · rcases List.mem_cons.mp hr' with hm | hm
        · exact Or.inl hm
        · refine Or.inr ⟨by
            rw [hsplit]
            exact List.mem_append.mpr (Or.inr (List.mem_cons.mpr (Or.inr hm))), ?_⟩
          intro he
          exact hni2 (he ▸ List.mem_map_of_mem Prod.fst hm)
    rcases hpcases with hpd | ⟨hpold, hpne⟩
    · subst hpd
      refine ⟨?_, ?_, ?_, ?_⟩
      · show d'.block < db.blocks
        exact hblt
      · show true = true ↔ d'.block < (db.cache ++ [item]).length
        rw [List.length_append, hb]
        simp
      · intro _
        constructor
        · show (db.cache.length : Int) = (d'.block : Int)
          rw [hb]
        · show ((db.cache ++ [item]).get? d'.block).map Item.id = some item.id
          rw [hb, List.get?_append_right (le_refl _), Nat.sub_self]
          rfl
      · apply diskIdOKB_intro
        intro r hr
        exact diskIdOKB_spec hok.2.2.2 r hr
    · have hpok := h8 p hpold
      have hpbne : p.2.block ≠ d'.block := by
        intro he
        have : p = (item.id, d') := block_eq_of_nodup h2 hpold hmem he
        rw [this] at hpne
        exact hpne rfl
      refine ⟨hpok.1, ?_, ?_, ?_⟩
      · show p.2.cached = true ↔ p.2.block < (db.cache ++ [item]).length
        rw [List.length_append]
        simp only [List.length_cons, List.length_nil]
        have := hpok.2.1
        rw [hb] at hpbne
        constructor
        · intro hc'
          have := this.mp hc'
          omega
        · intro hlt
          exact this.mpr (by omega)
      · intro hc'
        obtain ⟨m1, m2⟩ := hpok.2.2.1 hc'
        refine ⟨m1, ?_⟩
        show ((db.cache ++ [item]).get? p.2.block).map Item.id = some p.1
        rw [List.get?_append (hpok.2.1.mp hc')]
        exact m2
      · apply diskIdOKB_intro
        intro r hr
        exact diskIdOKB_spec hpok.2.2.2 r hr

theorem lookup_map_setpair_ne {l : List (String × ItemData)} {k id : String}
    {x : ItemData} (hne : id ≠ k) :
    (l.map fun p => if p.1 = k then (k, x) else p).lookup id = l.lookup id := by
  induction l with
  | nil => rfl
  | cons q rest ih =>
    by_cases hq : q.1 = k
    · rw [List.map_cons, if_pos hq]
      rw [lookup_cons_ne hne, lookup_cons_ne (by rw [hq]; exact hne)]
      exact ih
    · rw [List.map_cons, if_neg hq]
      by_cases hid : id = q.1
      · obtain ⟨a, b⟩ := q
        simp only at hid
        subst hid
        rw [lookup_cons_self, lookup_cons_self]
      · rw [lookup_cons_ne hid, lookup_cons_ne hid]
        exact ih

theorem lookup_append_singleton_ne {l : List (String × ItemData)} {k id : String}
    {x : ItemData} (hne : id ≠ k) :
    (l ++ [(k, x)]).lookup id = l.lookup id := by
  induction l with
  | nil =>
    rw [List.nil_append]
    rw [show (List.lookup id [(k, x)]) = List.lookup id [] from lookup_cons_ne hne]
  | cons q rest ih =>
    by_cases hid : id = q.1
    · obtain ⟨a, b⟩ := q
      simp only at hid
      subst hid
      rw [List.cons_append, lookup_cons_self, lookup_cons_self]
    · rw [List.cons_append, lookup_cons_ne hid, lookup_cons_ne hid]
      exact ih

theorem lookup_assocSet_ne {l : List (String × ItemData)} {k id : String}
    {x : ItemData} (hne : id ≠ k) :
    (assocSet l k x).lookup id = l.lookup id := by
  unfold assocSet
  by_cases hp : (l.lookup k).isSome
  · rw [if_pos hp]
    exact lookup_map_setpair_ne hne
  · rw [if_neg hp]
    exact lookup_append_singleton_ne hne

theorem lookup_append_singleton_self {l : List (String × ItemData)} {k : String}
    {x : ItemData} (hl : l.lookup k = none) :
    (l ++ [(k, x)]).lookup k = some x := by
  induction l with
  | nil => exact lookup_cons_self
  | cons q rest ih =>
    have hne : k ≠ q.1 := by
      intro he
      obtain ⟨a, b⟩ := q
      simp only at he
      subst he
      rw [lookup_cons_self] at hl
      cases hl
    rw [List.cons_append, lookup_cons_ne hne]
    exact ih (by rw [lookup_cons_ne hne] at hl; exact hl)

theorem lookup_assocSet_self {l : List (String × ItemData)} {k : String}
    {x : ItemData} (hn : (l.map Prod.fst).Nodup) :
    (assocSet l k x).lookup k = some x := by
  match hl : l.lookup k with
  | some dold =>
    obtain ⟨l1, l2, hsplit, hset, hni1, hni2⟩ := assocSet_present_eq x hn hl
    have hkeys : (assocSet l k x).map Prod.fst = l.map Prod.fst := by
      rw [hset, hsplit]; simp
    apply lookup_of_mem_nodup (p := (k, x)) (by rw [hkeys]; exact hn)
    rw [hset]
    exact List.mem_append.mpr (Or.inr (List.mem_cons_self _ _))
  | none =>
    rw [assocSet_absent_eq x hl]
    exact lookup_append_singleton_self hl

theorem assocSet_same {l : List (String × ItemData)} {id : String} {d : ItemData}
    (hn : (l.map Prod.fst).Nodup) (hl : l.lookup id = some d) :
    assocSet l id d = l := by
  obtain ⟨l1, l2, hsplit, hset, -, -⟩ := assocSet_present_eq d hn hl
  rw [hset, ← hsplit]

theorem resizeCachePass_fields {bs : Nat} :
    ∀ (l : List Item) (db db' : Database), resizeCachePass bs db l = some db' →
    db'.items = db.items ∧ db'.cache = db.cache := by
  intro l
  induction l with
  | nil =>
    intro db db' h
    rw [show resizeCachePass bs db [] = some db from rfl] at h
    cases h
    exact ⟨rfl, rfl⟩
  | cons item rest ih =>
    intro db db' h
    rw [show resizeCachePass bs db (item :: rest) =
      match db.items.lookup item.id with
      | none => none
      | some d => resizeCachePass bs (writeToBlock db d.block item bs) rest
      from rfl] at h
    match hlk : db.items.lookup item.id with
    | none => rw [hlk] at h; cases h
    | some d =>
      rw [hlk] at h
      have := ih _ _ h
      unfold writeToBlock at this
      exact this

theorem resizePopLoop_track :
    ∀ (fuel : Nat) (db db' : Database),
    resizePopLoop fuel db = some db' →
    (db.items.map Prod.fst).Nodup →
    (db'.items.map Prod.fst).Nodup ∧
    db'.cache.length ≤ db.cache.length ∧
    (∀ id d', db'.items.lookup id = some d' →
      ∃ d, db.items.lookup id = some d ∧ d'.block = d.block) := by
  intro fuel
  induction fuel with
  | zero =>
    intro db db' h hn
    rw [show resizePopLoop 0 db = some db from rfl] at h
    cases h
    exact ⟨hn, le_refl _, fun id d' h' => ⟨d', h', rfl⟩⟩
  | succ fuel ih =>
    intro db db' h hn
    rw [show resizePopLoop (fuel + 1) db =
      if db.maxCacheSize < db.blockSize * db.cache.length then
        match db.cache.getLast? with
        | none => none
        | some item =>
          match db.items.lookup item.id with
          | none => none
          | some d =>
            resizePopLoop fuel
              { db with
                cache := db.cache.dropLast
                items := assocSet db.items item.id
                  { d with cached := false, cacheIndex := -1 } }
      else some db from rfl] at h
    by_cases hguard : db.maxCacheSize < db.blockSize * db.cache.length
    · rw [if_pos hguard] at h
      match hlast : db.cache.getLast? with
      | none => rw [hlast] at h; cases h
      | some item =>
        simp only [hlast] at h
        match hlk : db.items.lookup item.id with
        | none => simp only [hlk] at h; cases h
        | some d =>
          simp only [hlk] at h
          obtain ⟨l1, l2, hsplit, hset, hni1, hni2⟩ :=
            assocSet_present_eq { d with cached := false, cacheIndex := -1 } hn hlk
          have hkeys : (assocSet db.items item.id
              { d with cached := false, cacheIndex := -1 }).map Prod.fst =
              db.items.map Prod.fst := by
            rw [hset, hsplit]; simp
          obtain ⟨g1, g2, g3⟩ := ih _ db' h (by
            show (assocSet db.items item.id
              { d with cached := false, cacheIndex := -1 }).map Prod.fst |>.Nodup
            rw [hkeys]; exact hn)
          refine ⟨g1, ?_, ?_⟩
          · calc db'.cache.length ≤ db.cache.dropLast.length := g2
              _ ≤ db.cache.length := by rw [List.length_dropLast]; omega
          · intro id d' h'
            obtain ⟨d2, hd2, hb2⟩ := g3 id d' h'
            by_cases hide : id = item.id
            · have hsome : (assocSet db.items item.id
                  { d with cached := false, cacheIndex := -1 }).lookup id =
                  some { d with cached := false, cacheIndex := -1 } := by
                rw [hide]
                exact lookup_assocSet_self hn
              rw [hsome] at hd2
              have hd2' : d2 = { d with cached := false, cacheIndex := -1 } := by
                simpa using hd2.symm
              refine ⟨d, by rw [hide]; exact hlk, ?_⟩
              rw [hb2, hd2']
            · have : (assocSet db.items item.id
                  { d with cached := false, cacheIndex := -1 }).lookup id =
                  db.items.lookup id := lookup_assocSet_ne hide
              rw [this] at hd2
              exact ⟨d2, hd2, hb2⟩
    · rw [if_neg hguard] at h
      cases h
      exact ⟨hn, le_refl _, fun id d' h' => ⟨d', h', rfl⟩⟩

theorem resizeTarget_items (s : Database) (bs : Nat) :
    (resizeTarget s bs).items = s.items ∧ (resizeTarget s bs).cache = s.cache := by
  unfold resizeTarget
  by_cases h1 : s.cache.length < s.blocks
  · rw [if_pos h1]
    by_cases h2 : bs ≤ s.blockSize
    · rw [show (let moved := { s with
          fileData := (List.range s.fileData.length).zipWith
            (fun i c => if s.cache.length ≤ i ∧ i < s.blocks then
                resizeMoveBlockData s.blockSize bs c else c)
            s.fileData
          fileLen := max s.fileLen (headerLength + s.blocks * bs) }
        if bs ≤ s.blockSize then
          truncateFile moved (headerLength + s.blocks * bs) s.blocks
        else moved) = truncateFile { s with
          fileData := (List.range s.fileData.length).zipWith
            (fun i c => if s.cache.length ≤ i ∧ i < s.blocks then
                resizeMoveBlockData s.blockSize bs c else c)
            s.fileData
          fileLen := max s.fileLen (headerLength + s.blocks * bs) }
          (headerLength + s.blocks * bs) s.blocks from by rw [if_pos h2]]
      exact ⟨rfl, rfl⟩
    · rw [show (let moved := { s with
          fileData := (List.range s.fileData.length).zipWith
            (fun i c => if s.cache.length ≤ i ∧ i < s.blocks then
                resizeMoveBlockData s.blockSize bs c else c)
            s.fileData
          fileLen := max s.fileLen (headerLength + s.blocks * bs) }
        if bs ≤ s.blockSize then
          truncateFile moved (headerLength + s.blocks * bs) s.blocks
        else moved) = { s with
          fileData := (List.range s.fileData.length).zipWith
            (fun i c => if s.cache.length ≤ i ∧ i < s.blocks then
                resizeMoveBlockData s.blockSize bs c else c)
            s.fileData
          fileLen := max s.fileLen (headerLength + s.blocks * bs) } from by
        rw [if_neg h2]]
      exact ⟨rfl, rfl⟩
  · rw [if_neg h1]
    exact ⟨rfl, rfl⟩

theorem resize_track {db db' : Database} {bs : Nat}
    (hn : (db.items.map Prod.fst).Nodup) (h : resize db bs = some db') :
    db'.cache.length ≤ db.cache.length ∧
    (∀ id d', db'.items.lookup id = some d' →
      ∃ d, db.items.lookup id = some d ∧ d'.block = d.block) := by
  by_cases heq : bs = db.blockSize
  · unfold resize at h
    rw [if_pos heq] at h
    cases h
    exact ⟨le_refl _, fun id d' h' => ⟨d', h', rfl⟩⟩
  · rw [resize_red heq] at h
    match hcp : resizeCachePass bs (resizeTarget db bs) (resizeTarget db bs).cache with
    | none => rw [hcp] at h; cases h
    | some db2 =>
      rw [hcp] at h
      obtain ⟨hti, htc⟩ := resizeTarget_items db bs
      have hrcp := resizeCachePass_fields _ _ _ hcp
      obtain ⟨g1, g2, g3⟩ := resizePopLoop_track _ _ db' h (by
        show (db2.items.map Prod.fst).Nodup
        rw [hrcp.1, hti]
        exact hn)
      constructor
      · calc db'.cache.length ≤ db2.cache.length := g2
          _ = db.cache.length := by rw [hrcp.2, htc]
      · intro id d' h'
        obtain ⟨d2, hd2, hb2⟩ := g3 id d' h'
        rw [show db2.items = db.items from by rw [hrcp.1, hti]] at hd2
        exact ⟨d2, hd2, hb2⟩

theorem stateInv_blockSize {s : Database} (bs : Nat) (hS : StateInv s) :
    StateInv { s with blockSize := bs } := hS

theorem appendNew_inv {s : Database} {id : String}
    (hS : StateInv s) (hnone : s.items.lookup id = none) :
    StateInv { s with
      blocks := s.blocks + 1
      items := assocSet s.items id
        { block := s.blocks, cached := false, cacheIndex := -1 } } := by
  obtain ⟨h1, h2, h3, h4, h5, h6, h7, h8⟩ := hS
  have hfresh : id ∉ s.items.map Prod.fst := lookup_eq_none_iff.mp hnone
  rw [assocSet_absent_eq _ hnone]
  refine ⟨?_, ?_, ?_, ?_, h5, h6, ?_, ?_⟩
  · show ((s.items ++ [(id, ({ block := s.blocks, cached := false, cacheIndex := -1 } : ItemData))]).map Prod.fst).Nodup
    rw [List.map_append]
    rw [List.nodup_append]
    refine ⟨h1, by simp, ?_⟩
    intro a ha hb
    rw [List.mem_map] at hb
    obtain ⟨q, hq, hqe⟩ := hb
    rw [List.mem_singleton] at hq
    subst hq
    simp only at hqe
    subst hqe
    exact hfresh ha
  · show ((s.items ++ [(id, ({ block := s.blocks, cached := false, cacheIndex := -1 } : ItemData))]).map (fun p => p.2.block)).Nodup
    rw [List.map_append]
    rw [List.nodup_append]
    refine ⟨h2, by simp, ?_⟩
    intro a ha hb
    rw [List.mem_map] at hb ha
    obtain ⟨q, hq, hqe⟩ := hb
    rw [List.mem_singleton] at hq
    subst hq
    simp only at hqe
    subst hqe
    obtain ⟨q', hq', hqe'⟩ := ha
    have := (h8 q' hq').1
    omega
  · show (s.items ++ [(id, ({ block := s.blocks, cached := false, cacheIndex := -1 } : ItemData))]).length = s.blocks + 1
    rw [List.length_append]
    simp only [List.length_cons, List.length_nil]
    omega
  · show s.cache.length ≤ s.blocks + 1
    omega
  · show s.fileData.length ≤ s.blocks + 1
    omega
  · intro p hp
    rcases List.mem_append.mp hp with hold | hnew
    · obtain ⟨k1, k2, k3, k4⟩ := h8 p hold
      refine ⟨?_, k2, k3, ?_⟩
      · show p.2.block < s.blocks + 1
        omega
      · apply diskIdOKB_intro
        intro r hr
        exact diskIdOKB_spec k4 r hr
    · rw [List.mem_singleton] at hnew
      subst hnew
      refine ⟨?_, ?_, ?_, ?_⟩
      · show s.blocks < s.blocks + 1
        omega
      · show false = true ↔ s.blocks < s.cache.length
        simp
        omega
      · intro hcf
        cases hcf
      · apply diskIdOKB_intro
        intro r hr
        rw [show s.fileData.get? s.blocks = none from List.get?_len_le (by omega)] at hr
        cases hr

theorem insert_resized_inv {dbB : Database} {item : Item} {bC block : Nat}
    {s' : Database} {d0 : ItemData} (hSB : StateInv dbB)
    (hlk : dbB.items.lookup item.id = some d0)
    (hb0 : d0.block = block) (hbc : block ≤ bC)
    (h : (match (if dbB.blockSize < item.encLen then
          (if 1 < dbB.blocks then resize dbB (nextPow2 item.encLen)
           else some { dbB with blockSize := nextPow2 item.encLen })
        else some dbB) with
      | none => none
      | some db1 =>
        match db1.items.lookup item.id with
        | none => none
        | some d' =>
          some (writeToBlock
            (if d'.cached then
              { db1 with cache := db1.cache.set d'.cacheIndex.toNat item }
            else if bC ≤ db1.cache.length ∧
                db1.blockSize * (db1.cache.length + 1) ≤ db1.maxCacheSize then
              { db1 with
                items := assocSet db1.items item.id
                  { d' with cached := true, cacheIndex := (db1.cache.length : Int) }
                cache := db1.cache ++ [item] }
            else db1) block item
            (if d'.cached then
              { db1 with cache := db1.cache.set d'.cacheIndex.toNat item }
            else if bC ≤ db1.cache.length ∧
                db1.blockSize * (db1.cache.length + 1) ≤ db1.maxCacheSize then
              { db1 with
                items := assocSet db1.items item.id
                  { d' with cached := true, cacheIndex := (db1.cache.length : Int) }
                cache := db1.cache ++ [item] }
            else db1).blockSize)) = some s') :
    StateInv s' := by
  match hres : (if dbB.blockSize < item.encLen then
      (if 1 < dbB.blocks then resize dbB (nextPow2 item.encLen)
       else some { dbB with blockSize := nextPow2 item.encLen })
    else some dbB) with
  | none =>
    simp only [hres] at h
    cases h
  | some db1 =>
    simp only [hres] at h
    have hS1 : StateInv db1 := by
      by_cases hg1 : dbB.blockSize < item.encLen
      · rw [if_pos hg1] at hres
        by_cases hg2 : 1 < dbB.blocks
        · rw [if_pos hg2] at hres
          exact resize_stateInv hSB hres
        · rw [if_neg hg2] at hres
          cases hres
          exact stateInv_blockSize _ hSB
      · rw [if_neg hg1] at hres
        cases hres
        exact hSB
    have htrack : ∀ d', db1.items.lookup item.id = some d' → d'.block = block := by
      intro d' hd'
      by_cases hg1 : dbB.blockSize < item.encLen
      · rw [if_pos hg1] at hres
        by_cases hg2 : 1 < dbB.blocks
        · rw [if_pos hg2] at hres
          obtain ⟨-, g3⟩ := resize_track hSB.1 hres
          obtain ⟨d2, hd2, hbe⟩ := g3 item.id d' hd'
          rw [hlk] at hd2
          have : d2 = d0 := by simpa using hd2.symm
          rw [hbe, this, hb0]
        · rw [if_neg hg2] at hres
          cases hres
          have : ({ dbB with blockSize := nextPow2 item.encLen } : Database).items.lookup
              item.id = dbB.items.lookup item.id := rfl
          rw [this, hlk] at hd'
          have hde : d' = d0 := by simpa using hd'.symm
          rw [hde, hb0]
      · rw [if_neg hg1] at hres
        cases hres
        rw [hlk] at hd'
        have hde : d' = d0 := by simpa using hd'.symm
        rw [hde, hb0]
    match hd' : db1.items.lookup item.id with
    | none =>
      simp only [hd'] at h
      cases h
    | some d' =>
      simp only [hd'] at h
      have hblk : d'.block = block := htrack d' hd'
      by_cases hc : d'.cached = true
      · rw [if_pos hc] at h
        rw [← hblk] at h
        cases h
        exact writeToBlock_self_inv (cacheSet_self_inv hS1 hd' hc) hd' _
      · rw [if_neg hc] at h
        have hcf : d'.cached = false := by
          cases hcv : d'.cached
          · rfl
          · exact absurd hcv hc
        by_cases hpb : bC ≤ db1.cache.length ∧
            db1.blockSize * (db1.cache.length + 1) ≤ db1.maxCacheSize
        · rw [if_pos hpb] at h
          have hbeq : d'.block = db1.cache.length := by
            have hmem : (item.id, d') ∈ db1.items := lookup_mem hd'
            have hok := hS1.2.2.2.2.2.2.2 _ hmem
            have hnc : ¬d'.block < db1.cache.length := by
              intro hlt
              rw [hok.2.1.mpr hlt] at hcf
              cases hcf
            omega
          obtain ⟨hSI2, hlk2⟩ := promote_self_inv hS1 hd' hcf hbeq
          rw [← hblk] at h
          cases h
          have := writeToBlock_self_inv hSI2 hlk2 ({ db1 with
            items := assocSet db1.items item.id
              { d' with cached := true, cacheIndex := (db1.cache.length : Int) }
            cache := db1.cache ++ [item] } : Database).blockSize
          rw [show ({ d' with cached := true, cacheIndex := (db1.cache.length : Int) } : ItemData).block = d'.block from rfl] at this
          exact this
        · rw [if_neg hpb] at h
          rw [← hblk] at h
          cases h
          exact writeToBlock_self_inv hS1 hd' _

theorem insert_stateInv {s s' : Database} {freshId : String} {item0 : Item}
    (hS : StateInv s)
    (hfresh : item0.id = "" → freshId ∉ s.items.map Prod.fst ∧ freshId ≠ "")
    (h : insert s freshId item0 = some s') : StateInv s' := by
  unfold insert at h
  by_cases hid : item0.id = ""
  · have hcond : ¬(item0.id ≠ "") := by simp [hid]
    simp only [if_neg hcond] at h
    obtain ⟨hfr1, -⟩ := hfresh hid
    have hnone : s.items.lookup freshId = none := lookup_eq_none_iff.mpr hfr1
    exact @insert_resized_inv
      { s with blocks := s.blocks + 1, items := assocSet s.items freshId { block := s.blocks, cached := false, cacheIndex := -1 } }
      { item0 with id := freshId } s.blocks s.blocks _
      { block := s.blocks, cached := false, cacheIndex := -1 }
      (appendNew_inv hS hnone)
      (lookup_assocSet_self hS.1) rfl (le_refl _) h
  · have hcond : item0.id ≠ "" := hid
    simp only [if_pos hcond] at h
    match hex : s.items.lookup item0.id with
    | some d00 =>
      simp only [hex] at h
      have hmem : (item0.id, d00) ∈ s.items := lookup_mem hex
      have hblt : d00.block < s.blocks := (hS.2.2.2.2.2.2.2 _ hmem).1
      exact @insert_resized_inv
        { s with items := assocSet s.items item0.id d00 }
        item0 s.blocks d00.block _ d00
        (by
          show StateInv { s with items := assocSet s.items item0.id d00 }
          rw [assocSet_same hS.1 hex]
          exact hS)
        (lookup_assocSet_self hS.1) rfl (by omega) h
    | none =>
      simp only [hex] at h
      exact @insert_resized_inv
        { s with blocks := s.blocks + 1, items := assocSet s.items item0.id { block := s.blocks, cached := false, cacheIndex := -1 } }
        item0 s.blocks s.blocks _
        { block := s.blocks, cached := false, cacheIndex := -1 }
        (appendNew_inv hS hex)
        (lookup_assocSet_self hS.1) rfl (le_refl _) h

/-! ## C1 — `removeItem` marks and the scan closure -/

theorem stateInv_marked {s : Database} (hS : StateInv s) : MarkedInv s := by
  obtain ⟨h1, h2, h3, h4, h5, h6, h7, h8⟩ := hS
  refine ⟨h1, h2, ?_, h4, ?_, ?_, ?_, ?_, h7, h8⟩
  · rw [h5]
    simpa using h3
  · rw [h5]
    exact List.Pairwise.nil
  · rw [h5]
    intro x hx
    cases hx
  · rw [h6, h5]
    rfl
  · rw [h5]
    intro p _ hx
    cases hx

theorem length_filter_ne {l : List (String × ItemData)} {id : String}
    (hn : (l.map Prod.fst).Nodup) (hmem : id ∈ l.map Prod.fst) :
    (l.filter fun p => p.1 ≠ id).length + 1 = l.length := by
  induction l with
  | nil => cases hmem
  | cons q rest ih =>
    rw [List.map_cons, List.nodup_cons] at hn
    by_cases hq : q.1 = id
    · have hrest : rest.filter (fun p => decide (p.1 ≠ id)) = rest := by
        rw [List.filter_eq_self]
        intro p hp
        simp only [decide_eq_true_eq]
        intro he
        exact hn.1 (by rw [← hq] at he; exact he ▸ List.mem_map_of_mem Prod.fst hp)
      rw [show (q :: rest).filter (fun p => decide (p.1 ≠ id)) =
          rest.filter (fun p => decide (p.1 ≠ id)) from by simp [hq]]
      rw [hrest]
      rfl
    · rw [show (q :: rest).filter (fun p => decide (p.1 ≠ id)) =
          q :: rest.filter (fun p => decide (p.1 ≠ id)) from by simp [hq]]
      have hmem' : id ∈ rest.map Prod.fst := by
        rw [List.map_cons] at hmem
        rcases List.mem_cons.mp hmem with he | hm
        · exact absurd he.symm hq
        · exact hm
      have := ih hn.2 hmem'
      simp only [List.length_cons]
      omega

theorem removeItem_marked {db db' : Database} (hM : MarkedInv db) {id : String}
    (h : removeItem db id = some db') : MarkedInv db' := by
  unfold removeItem at h
  match hlk : db.items.lookup id with
  | none =>
    simp only [hlk] at h
    cases h
  | some d =>
    simp only [hlk] at h
    obtain ⟨m1, m2, m3, m4, m5, m6, m7, m8, m9, m10⟩ := hM
    have hmem : (id, d) ∈ db.items := lookup_mem hlk
    have hok := m10 _ hmem
    have hbh : d.block ∉ db.blockHoles := m8 _ hmem
    have hkeymem : id ∈ db.items.map Prod.fst := List.mem_map_of_mem Prod.fst hmem
    have hfsub : ∀ p, p ∈ db.items.filter (fun p => p.1 ≠ id) →
        p ∈ db.items ∧ p.1 ≠ id := by
      intro p hp
      have := List.mem_filter.mp hp
      exact ⟨this.1, by simpa using this.2⟩
    have hfblock : ∀ p, p ∈ db.items.filter (fun p => p.1 ≠ id) →
        p.2.block ≠ d.block := by
      intro p hp he
      obtain ⟨hpm, hpne⟩ := hfsub p hp
      have : p = (id, d) := block_eq_of_nodup m2 hpm hmem he
      rw [this] at hpne
      exact hpne rfl
    have hcore : ∀ (db2 : Database),
        db2.items = db.items.filter (fun p => p.1 ≠ id) →
        db2.cache = db.cache → db2.blocks = db.blocks →
        db2.fileData = db.fileData →
        db2.blockHoles = holeInsert db.blockHoles d.block →
        db2.cacheHoles = db2.blockHoles.filter (fun x => x < db2.cache.length) →
        MarkedInv db2 := by
      intro db2 e1 e2 e3 e4 e5 e6
      refine ⟨?_, ?_, ?_, ?_, ?_, ?_, e6, ?_, ?_, ?_⟩
      · rw [e1]
        exact List.Nodup.sublist ((List.filter_sublist db.items).map Prod.fst) m1
      · show (db2.items.map fun p => p.2.block).Nodup
        rw [e1]
        exact List.Nodup.sublist ((List.filter_sublist db.items).map _) m2
      · rw [e1, e3, e5, holeInsert_length hbh]
        have := length_filter_ne m1 hkeymem
        omega
      · rw [e2, e3]
        exact m4
      · rw [e5]
        exact holeInsert_pairwise m5 hbh
      · rw [e5, e3]
        intro x hx
        rcases mem_holeInsert.mp hx with he | hm
        · rw [he]
          exact hok.1
        · exact m6 x hm
      · rw [e1, e5]
        intro p hp hin
        rcases mem_holeInsert.mp hin with he | hm
        · exact hfblock p hp he
        · exact m8 p (hfsub p hp).1 hm
      · rw [e4, e3]
        exact m9
      · intro p hp
        rw [e1] at hp
        obtain ⟨k1, k2, k3, k4⟩ := m10 p (hfsub p hp).1
        refine ⟨by rw [e3]; exact k1, by rw [e2]; exact k2, ?_, ?_⟩
        · intro hc
          obtain ⟨g1, g2⟩ := k3 hc
          exact ⟨g1, by rw [e2]; exact g2⟩
        · apply diskIdOKB_intro
          intro r hr
          rw [e4] at hr
          exact diskIdOKB_spec k4 r hr
    by_cases hc : d.cached = true
    · rw [if_pos hc] at h
      cases h
      have hci : d.cacheIndex.toNat = d.block := by
        rw [(hok.2.2.1 hc).1]
        simp
      have hblt : d.block < db.cache.length := hok.2.1.mp hc
      apply hcore
      · rfl
      · rfl
      · rfl
      · rfl
      · rfl
      · show holeInsert db.cacheHoles d.cacheIndex.toNat =
          (holeInsert db.blockHoles d.block).filter (fun x => x < db.cache.length)
        rw [hci, m7, holeInsert_filter_lt m5, if_pos hblt]
    · rw [if_neg hc] at h
      cases h
      have hblt : ¬d.block < db.cache.length := by
        intro hlt
        rw [hok.2.1.mpr hlt] at hc
        exact hc rfl
      apply hcore
      · rfl
      · rfl
      · rfl
      · rfl
      · rfl
      · show db.cacheHoles =
          (holeInsert db.blockHoles d.block).filter (fun x => x < db.cache.length)
        rw [m7, holeInsert_filter_lt m5, if_neg hblt]

theorem iterateCached_closure {σ : Type} {db : Database}
    {handler : σ → Item → Option (σ × Bool)} (P : σ → Prop)
    (hstep : ∀ st item st' c, P st → handler st item = some (st', c) → P st') :
    ∀ (l : List (String × ItemData)) (st : σ) (res : σ × Bool),
    iterateCached db handler st l = some res → P st → P res.1 := by
  intro l
  induction l with
  | nil =>
    intro st res h hP
    rw [show iterateCached db handler st [] = some (st, false) from rfl] at h
    cases h
    exact hP
  | cons p rest ih =>
    intro st res h hP
    obtain ⟨pid, pd⟩ := p
    by_cases hc : pd.cached = true
    · simp only [iterateCached, hc, if_true] at h
      match hg : cacheGet db pd.cacheIndex with
      | none => rw [hg] at h; cases h
      | some item =>
        simp only [hg] at h
        match hh : handler st item with
        | none => simp only [hh] at h; cases h
        | some (st', cont) =>
          simp only [hh] at h
          have hP' : P st' := hstep st item st' cont hP hh
          by_cases hcont : cont = true
          · rw [hcont, if_pos rfl] at h
            exact ih st' res h hP'
          · have : cont = false := by
              cases hcv : cont
              · rfl
              · exact absurd hcv hcont
            rw [this] at h
            simp only [Bool.false_eq_true, if_false] at h
            cases h
            exact hP'
    · simp only [iterateCached, hc] at h
      exact ih st res h hP

theorem oocAux_closure {σ : Type} {db : Database}
    {handler : σ → Item → Option (σ × Bool)} (P : σ → Prop)
    (hstep : ∀ st item st' c, P st → handler st item = some (st', c) → P st') :
    ∀ (rem index : Nat) (st : σ) (res : σ × Bool),
    oocAux db handler rem index st = some res → P st → P res.1 := by
  intro rem
  induction rem with
  | zero =>
    intro index st res h hP
    rw [show oocAux db handler 0 index st = some (st, true) from rfl] at h
    cases h
    exact hP
  | succ rem ih =>
    intro index st res h hP
    simp only [oocAux] at h
    match hr : readFromBlock db index with
    | none => rw [hr] at h; cases h
    | some item =>
      simp only [hr] at h
      match hh : handler st item with
      | none => simp only [hh] at h; cases h
      | some (st', cont) =>
        simp only [hh] at h
        have hP' : P st' := hstep st item st' cont hP hh
        by_cases hcont : cont = true
        · rw [hcont, if_pos rfl] at h
          exact ih (index + 1) st' res h hP'
        · have : cont = false := by
            cases hcv : cont
            · rfl
            · exact absurd hcv hcont
          rw [this] at h
          simp only [Bool.false_eq_true, if_false] at h
          cases h
          exact hP'

theorem iterate_closure {σ : Type} {db : Database}
    {handler : σ → Item → Option (σ × Bool)} (P : σ → Prop)
    (hstep : ∀ st item st' c, P st → handler st item = some (st', c) → P st')
    {st : σ} {res : σ × Bool}
    (h : iterate db handler st = some res) (hP : P st) : P res.1 := by
  unfold iterate at h
  match hic : iterateCached db handler st db.items with
  | none => rw [hic] at h; cases h
  | some (st1, stopped) =>
    simp only [hic] at h
    have hP1 : P st1 := iterateCached_closure P hstep db.items st (st1, stopped) hic hP
    by_cases hlt : db.cache.length < db.blocks
    · rw [if_pos hlt] at h
      exact oocAux_closure P hstep _ _ st1 res h hP1
    · rw [if_neg hlt] at h
      cases h
      exact hP1

theorem foldlM_closure {α : Type} (P : Database × Nat → Prop)
    (f : Database × Nat → α → Option (Database × Nat))
    (hstep : ∀ st x st', P st → f st x = some st' → P st') :
    ∀ (l : List α) (st : Database × Nat) (res : Database × Nat),
    l.foldlM f st = some res → P st → P res := by
  intro l
  induction l with
  | nil =>
    intro st res h hP
    rw [show [].foldlM f st = some st from rfl] at h
    cases h
    exact hP
  | cons x rest ih =>
    intro st res h hP
    rw [show (x :: rest).foldlM f st = (f st x).bind fun st' => rest.foldlM f st'
      from rfl] at h
    match hf : f st x with
    | none => rw [hf] at h; cases h
    | some st' =>
      rw [hf] at h
      simp only [Option.some_bind] at h
      exact ih st' res h (hstep st x st' hP hf)

theorem remove_trailer {marked : Option (Database × Nat)} {n : Nat}
    {s s' : Database} (hS : StateInv s)
    (h : (match marked with
      | none => none
      | some (db1, n1) =>
        if 0 < n1 then (fillHoles db1).map (fun db2 => (n1, db2))
        else some (n1, db1)) = some (n, s'))
    (hm : ∀ db1 n1, marked = some (db1, n1) → MarkedInv db1 ∧ (n1 = 0 → db1 = s)) :
    StateInv s' ∨ ∃ db1, MarkedInv db1 ∧ fillHoles db1 = some s' := by
  match hmk : marked with
  | none => simp at h
  | some (db1, n1) =>
    simp only [] at h
    obtain ⟨hM, hz⟩ := hm db1 n1 rfl
    by_cases hn1 : 0 < n1
    · rw [if_pos hn1] at h
      right
      obtain ⟨db2, hdb2, heq⟩ := Option.map_eq_some'.mp h
      refine ⟨db1, hM, ?_⟩
      rw [hdb2]
      have : db2 = s' := by
        have := heq
        simp only [Prod.mk.injEq] at this
        exact this.2
      rw [this]
    · rw [if_neg hn1] at h
      left
      have hn0 : n1 = 0 := by omega
      have hds : db1 = s := hz hn0
      have : db1 = s' := by
        simp only [Option.some.injEq, Prod.mk.injEq] at h
        exact h.2
      rw [← this, hds]
      exact hS

theorem remove_marked {s : Database} {q : Query} {opts : RemoveOptions}
    {n : Nat} {s' : Database} (hS : StateInv s)
    (h : remove s q opts = some (n, s')) :
    StateInv s' ∨ ∃ db1, MarkedInv db1 ∧ fillHoles db1 = some s' := by
  unfold remove at h
  simp only [] at h
  have hstep : ∀ (st : Database × Nat) (item : Item) (st' : Database × Nat)
      (c : Bool),
      (MarkedInv st.1 ∧ (st.2 = 0 → st.1 = s)) →
      (if matchesQuery item q then
        match removeItem st.1 item.id with
        | none => none
        | some db1 =>
          some ((db1, st.2 + 1),
            decide (st.2 + 1 < opts.limit.getD jsMaxValue))
      else some (st, true)) = some (st', c) →
      MarkedInv st'.1 ∧ (st'.2 = 0 → st'.1 = s) := by
    intro st item st' c hP hh
    by_cases hmq : matchesQuery item q = true
    · rw [if_pos hmq] at hh
      match hri : removeItem st.1 item.id with
      | none => rw [hri] at hh; cases hh
      | some db2 =>
        simp only [hri, Option.some.injEq, Prod.mk.injEq] at hh
        have hst' : st' = (db2, st.2 + 1) := hh.1.symm
        rw [hst']
        refine ⟨removeItem_marked hP.1 hri, ?_⟩
        intro hzero
        simp at hzero
    · rw [if_neg hmq] at hh
      simp only [Option.some.injEq, Prod.mk.injEq] at hh
      rw [← hh.1]
      exact hP
  match hsort : opts.sort with
  | none =>
    simp only [hsort] at h
    apply remove_trailer hS h
    intro db1 n1 hbig
    obtain ⟨x, hit, heq⟩ := Option.map_eq_some'.mp hbig
    have hP := iterate_closure
      (fun st : Database × Nat => MarkedInv st.1 ∧ (st.2 = 0 → st.1 = s))
      hstep hit ⟨stateInv_marked hS, fun _ => rfl⟩
    rw [heq] at hP
    exact hP
  | some cmp =>
    simp only [hsort] at h
    apply remove_trailer hS h
    intro db1 n1 hbig
    match hf : find s q { limit := some (opts.limit.getD jsMaxValue), sort := some cmp } with
    | none => rw [hf] at hbig; cases hbig
    | some results =>
      simp only [hf] at hbig
      have hP := foldlM_closure
        (fun st : Database × Nat => MarkedInv st.1 ∧ (st.2 = 0 → st.1 = s))
        (fun st r => (removeItem st.1 r.id).map fun db2 => (db2, st.2 + 1))
        ?_ results (s, 0) (db1, n1) hbig ⟨stateInv_marked hS, fun _ => rfl⟩
      · exact hP
      · intro st x st' hP hf'
        obtain ⟨db2, hri, heq⟩ := Option.map_eq_some'.mp hf'
        rw [← heq]
        refine ⟨removeItem_marked hP.1 hri, ?_⟩
        intro hzero
        simp at hzero

/-! ## C1 — pigeonhole helpers and the first phase of `fillHoles` -/

theorem nodup_eq_range {l : List Nat} {T : Nat} (hn : l.Nodup)
    (hlen : l.length = T) (hcov : ∀ b, b < T → b ∈ l) :
    l.toFinset = Finset.range T := by
  have hsub : Finset.range T ⊆ l.toFinset := by
    intro b hb
    rw [List.mem_toFinset]
    exact hcov b (Finset.mem_range.mp hb)
  symm
  apply Finset.eq_of_subset_of_card_le hsub
  rw [List.toFinset_card_of_nodup hn, Finset.card_range, hlen]

theorem nodup_cover_all_lt {l : List Nat} {T : Nat} (hn : l.Nodup)
    (hlen : l.length = T) (hcov : ∀ b, b < T → b ∈ l) :
    ∀ x ∈ l, x < T := by
  intro x hx
  have := nodup_eq_range hn hlen hcov
  have hmem : x ∈ l.toFinset := List.mem_toFinset.mpr hx
  rw [this, Finset.mem_range] at hmem
  exact hmem

theorem nodup_lt_mem {l : List Nat} {T : Nat} (hn : l.Nodup)
    (hlen : l.length = T) (hall : ∀ x ∈ l, x < T) :
    ∀ b, b < T → b ∈ l := by
  intro b hb
  have hsub : l.toFinset ⊆ Finset.range T := by
    intro x hx
    rw [List.mem_toFinset] at hx
    rw [Finset.mem_range]
    exact hall x hx
  have heq : l.toFinset = Finset.range T :=
    Finset.eq_of_subset_of_card_le hsub
      (by rw [List.toFinset_card_of_nodup hn, Finset.card_range, hlen])
  rw [← List.mem_toFinset, heq, Finset.mem_range]
  exact hb

theorem desc_head_max {f : Int} {fs : List Int}
    (h : (f :: fs).Pairwise (· > ·)) : ∀ y ∈ f :: fs, y ≤ f := by
  intro y hy
  rcases List.mem_cons.mp hy with he | hm
  · rw [he]
  · have := (List.pairwise_cons.mp h).1 y hm
    omega

theorem desc_filter_prefix {l : List Int} (T : Nat)
    (hd : l.Pairwise (· > ·)) :
    ∃ l2, l = l.filter (fun a => (T : Int) ≤ a) ++ l2 ∧
      ∀ a ∈ l2, a < (T : Int) := by
  induction l with
  | nil => exact ⟨[], rfl, fun a ha => absurd ha (List.not_mem_nil a)⟩
  | cons x l ih =>
    by_cases hx : (T : Int) ≤ x
    · obtain ⟨l2, he, hlt⟩ := ih (List.pairwise_cons.mp hd).2
      refine ⟨l2, ?_, hlt⟩
      rw [show (x :: l).filter (fun a => decide ((T : Int) ≤ a)) =
        x :: l.filter (fun a => decide ((T : Int) ≤ a)) from by simp [hx]]
      rw [List.cons_append, ← he]
    · have hall : ∀ a ∈ l, a < (T : Int) := by
        intro a ha
        have := (List.pairwise_cons.mp hd).1 a ha
        omega
      have hfl : (x :: l).filter (fun a => decide ((T : Int) ≤ a)) = [] := by
        rw [List.filter_eq_nil_iff]
        intro a ha
        simp only [decide_eq_true_eq]
        rcases List.mem_cons.mp ha with he | hm
        · rw [he]; omega
        · have := hall a hm; omega
      exact ⟨x :: l, by rw [hfl]; rfl, by
        intro a ha
        rcases List.mem_cons.mp ha with he | hm
        · rw [he]; omega
        · exact hall a hm⟩

theorem map_congr_mem {α β : Type} {l : List α} {f g : α → β}
    (h : ∀ a ∈ l, f a = g a) : l.map f = l.map g := by
  induction l with
  | nil => rfl
  | cons x rest ih =>
    rw [List.map_cons, List.map_cons, h x (List.mem_cons_self _ _),
      ih (fun a ha => h a (List.mem_cons_of_mem _ ha))]

theorem lookup_isSome_iff {l : List (String × ItemData)} {k : String} :
    (l.lookup k).isSome ↔ k ∈ l.map Prod.fst := by
  constructor
  · intro h
    by_contra hk
    rw [lookup_eq_none_iff.mpr hk] at h
    cases h
  · intro hk
    match hl : l.lookup k with
    | some d => rfl
    | none => exact absurd (lookup_eq_none_iff.mp hl) (by simpa using hk)

theorem assocSet_keys {l : List (String × ItemData)} {k : String} {d : ItemData}
    (hs : (l.lookup k).isSome) :
    (assocSet l k d).map Prod.fst = l.map Prod.fst := by
  unfold assocSet
  rw [if_pos hs, List.map_map]
  apply map_congr_mem
  intro p _
  by_cases hp : p.1 = k
  · simp only [Function.comp_apply, if_pos hp]
    rw [← hp]
  · simp only [Function.comp_apply, if_neg hp]

theorem assocSet_of_present {l : List (String × ItemData)} {k : String}
    {d : ItemData} (hs : (l.lookup k).isSome) :
    assocSet l k d = l.map fun p => if p.1 = k then (k, d) else p := by
  unfold assocSet
  rw [if_pos hs]

theorem assocSet_assocSet {l : List (String × ItemData)} {k : String}
    {dx dy : ItemData} (hs : (l.lookup k).isSome) :
    assocSet (assocSet l k dx) k dy = assocSet l k dy := by
  have hs2 : ((assocSet l k dx).lookup k).isSome := by
    rw [lookup_isSome_iff, assocSet_keys hs]
    exact lookup_isSome_iff.mp hs
  rw [assocSet_of_present hs2, assocSet_of_present (d := dx) hs,
    assocSet_of_present (d := dy) hs, List.map_map]
  apply map_congr_mem
  intro p _
  by_cases hp : p.1 = k
  · simp [Function.comp, hp]
  · simp [Function.comp, hp]

theorem fillHolesPhase1_nil_fs :
    ∀ (hs : List Nat) (db : Database) (ch : List Nat),
    fillHolesPhase1 db hs [] ch = some (db, ch) := by
  intro hs
  induction hs with
  | nil => intro db ch; rfl
  | cons h hs ih =>
    intro db ch
    rw [show fillHolesPhase1 db (h :: hs) [] ch = fillHolesPhase1 db hs [] ch
      from rfl]
    exact ih db ch

theorem fillHolesPhase1_noop :
    ∀ (hs : List Nat) (fs : List Int) (db : Database) (ch : List Nat),
    (∀ f ∈ fs, ∀ x ∈ hs, ¬(f ≠ 0 ∧ (x : Int) < f)) →
    fillHolesPhase1 db hs fs ch = some (db, ch) := by
  intro hs
  induction hs with
  | nil => intro fs db ch _; rfl
  | cons h hs ih =>
    intro fs db ch hno
    match fs with
    | [] => exact fillHolesPhase1_nil_fs _ db ch
    | f :: fs =>
      rw [show fillHolesPhase1 db (h :: hs) (f :: fs) ch =
        if f ≠ 0 ∧ (h : Int) < f then
          match moveBlock db f h with
          | none => none
          | some (db1, item) =>
            match db1.items.lookup item.id with
            | none => none
            | some d =>
              if ¬d.cached ∧ ch ≠ [] then
                match ch with
                | hole :: chRest =>
                  fillHolesPhase1
                    { db1 with
                      items := assocSet db1.items item.id
                        { d with cached := true, cacheIndex := (hole : Int) }
                      cache := db1.cache.set hole item }
                    hs fs chRest
                | [] => none
              else fillHolesPhase1 db1 hs fs ch
        else fillHolesPhase1 db hs fs ch from rfl]
      rw [if_neg (hno f (List.mem_cons_self _ _) h (List.mem_cons_self _ _))]
      exact ih fs db ch (fun f' hf' x hx =>
        hno f' (List.mem_cons_of_mem _ hf') x (List.mem_cons_of_mem _ hx))

theorem nodup_replace_mid {α : Type} {l1 l2 : List α} {a b : α}
    (hn : (l1 ++ a :: l2).Nodup) (hb : b ∉ l1 ++ a :: l2) :
    (l1 ++ b :: l2).Nodup := by
  rw [List.nodup_middle, List.nodup_cons] at hn ⊢
  refine ⟨?_, hn.2⟩
  intro hmem
  apply hb
  rcases List.mem_append.mp hmem with h | h
  · exact List.mem_append.mpr (Or.inl h)
  · exact List.mem_append.mpr (Or.inr (List.mem_cons_of_mem _ h))

theorem assocSet_mem_iff {l : List (String × ItemData)} {k : String}
    {dold dNew : ItemData} (hn : (l.map Prod.fst).Nodup)
    (hl : l.lookup k = some dold) :
    ∀ q, q ∈ assocSet l k dNew ↔ (q = (k, dNew) ∨ (q ∈ l ∧ q.1 ≠ k)) := by
  obtain ⟨l1, l2, hsplit, hset, hni1, hni2⟩ := assocSet_present_eq dNew hn hl
  intro q
  constructor
  · intro hq
    rw [hset] at hq
    rcases List.mem_append.mp hq with hl' | hr'
    · refine Or.inr ⟨by rw [hsplit]; exact List.mem_append.mpr (Or.inl hl'), ?_⟩
      intro he
      exact hni1 (he ▸ List.mem_map_of_mem Prod.fst hl')
    · rcases List.mem_cons.mp hr' with hm | hm
      · exact Or.inl hm
      · refine Or.inr ⟨by
          rw [hsplit]
          exact List.mem_append.mpr (Or.inr (List.mem_cons.mpr (Or.inr hm))), ?_⟩
        intro he
        exact hni2 (he ▸ List.mem_map_of_mem Prod.fst hm)
  · intro hq
    rcases hq with he | ⟨hm, hne⟩
    · rw [hset, he]
      exact List.mem_append.mpr (Or.inr (List.mem_cons_self _ _))
    · rw [hsplit] at hm
      rw [hset]
      rcases List.mem_append.mp hm with hl' | hr'
      · exact List.mem_append.mpr (Or.inl hl')
      · rcases List.mem_cons.mp hr' with hmid | hm2
        · rw [hmid] at hne
          exact absurd rfl hne
        · exact List.mem_append.mpr (Or.inr (List.mem_cons.mpr (Or.inr hm2)))

theorem assocSet_blocks_split {l : List (String × ItemData)} {k : String}
    {dold dNew : ItemData} (hn : (l.map Prod.fst).Nodup)
    (hl : l.lookup k = some dold) :
    ∃ m1 m2, l.map (fun p => p.2.block) = m1 ++ dold.block :: m2 ∧
      (assocSet l k dNew).map (fun p => p.2.block) = m1 ++ dNew.block :: m2 ∧
      (assocSet l k dNew).map Prod.fst = l.map Prod.fst ∧
      (assocSet l k dNew).length = l.length := by
  obtain ⟨l1, l2, hsplit, hset, hni1, hni2⟩ := assocSet_present_eq dNew hn hl
  refine ⟨l1.map (fun p => p.2.block), l2.map (fun p => p.2.block),
    by rw [hsplit]; simp, by rw [hset]; simp, by rw [hset, hsplit]; simp,
    by rw [hset, hsplit]; simp⟩

theorem key_eq_of_nodup {l : List (String × ItemData)}
    (hn : (l.map Prod.fst).Nodup) {p q : String × ItemData}
    (hp : p ∈ l) (hq : q ∈ l) (he : p.1 = q.1) : p = q :=
  List.inj_on_of_nodup_map hn hp hq he

theorem p1_move_cached (T C B : Nat) (ch0 : List Nat) {db : Database} {h0 : Nat}
    {hs : List Nat} {f : Int} {fs' : List Int} {ch : List Nat}
    {disp : List (Nat × Nat)} {p : String × ItemData} {item : Item} {L : Nat}
    (hI : P1Inv T C B ch0 db (h0 :: hs) (f :: fs') ch disp)
    (hp : p ∈ db.items) (hpf : ((p.2.block : Nat) : Int) = f)
    (hfT : T ≤ p.2.block) (h0T : h0 < T) (h0f : (h0 : Int) < f)
    (hitem : item.id = p.1) (hcached : p.2.cached = true) :
    P1Inv T C B ch0
      { db with
        items := assocSet db.items p.1 { p.2 with block := h0 }
        fileData := listSetPad db.fileData h0 (some item)
        fileLen := L }
      hs fs' ch (disp ++ [(h0, p.2.block)]) := by
  have hnotdisp : p.2.block ∉ disp.map Prod.fst := by
    intro hmem
    obtain ⟨pr, hpr, he⟩ := List.mem_map.mp hmem
    have := (hI.disp_blk pr hpr).1
    omega
  have hmain := hI.entry_main p hp hnotdisp
  have hfC : p.2.block < C := hmain.1.mp hcached
  obtain ⟨hci, hcget⟩ := hmain.2.1 hcached
  have hlk : db.items.lookup p.1 = some p.2 := lookup_of_mem_nodup hI.ids_nodup hp
  obtain ⟨m1, m2, hbsplit, hbset, hkeys, hlen⟩ :=
    @assocSet_blocks_split _ _ _ { p.2 with block := h0 } hI.ids_nodup hlk
  have hmem_iff := @assocSet_mem_iff _ _ _ { p.2 with block := h0 }
    hI.ids_nodup hlk
  have h0new : h0 ∉ db.items.map (fun q => q.2.block) := by
    intro hmem
    obtain ⟨q, hq, he⟩ := List.mem_map.mp hmem
    exact hI.hs_not_live q hq (he ▸ List.mem_cons_self _ _)
  have hblocksND : ((assocSet db.items p.1 { p.2 with block := h0 }).map
      (fun q => q.2.block)).Nodup := by
    rw [hbset]
    apply nodup_replace_mid (a := p.2.block)
    · rw [← hbsplit]
      exact hI.blocks_nodup
    · rw [show (({ p.2 with block := h0 } : ItemData)).block = h0 from rfl,
        ← hbsplit]
      exact h0new
  have hhs_gt : ∀ x ∈ hs, h0 < x := (List.pairwise_cons.mp hI.hs_sorted).1
  have hfs_lt : ∀ g ∈ fs', g < f := (List.pairwise_cons.mp hI.fs_desc).1
  have hqne : ∀ q ∈ db.items, q ≠ p → q.1 ≠ p.1 := by
    intro q hq hne he
    exact hne (key_eq_of_nodup hI.ids_nodup hq hp he)
  have hqmem : ∀ q ∈ db.items, q ≠ p →
      q ∈ assocSet db.items p.1 { p.2 with block := h0 } := by
    intro q hq hne
    exact (hmem_iff q).mpr (Or.inr ⟨hq, hqne q hq hne⟩)
  have hh0C : h0 < C := by omega
  have hmoved : (p.1, ({ p.2 with block := h0 } : ItemData)) ∈
      assocSet db.items p.1 { p.2 with block := h0 } :=
    (hmem_iff _).mpr (Or.inl rfl)
  have hdok_new : ∀ q ∈ db.items, q.2.block ≠ h0 →
      diskIdOKB { db with
        items := assocSet db.items p.1 { p.2 with block := h0 }
        fileData := listSetPad db.fileData h0 (some item)
        fileLen := L } q = diskIdOKB db q := by
    intro q hq hne
    unfold diskIdOKB
    simp only
    rw [listSetPad_get_ne hne]
    by_cases hlo : q.2.block < db.fileData.length
    · rw [if_pos hlo]
    · rw [if_neg hlo]
      rw [List.get?_len_le (by omega)]
      by_cases hmid : q.2.block < h0
      · rw [if_pos hmid]
      · rw [if_neg hmid]
  have hdisp_blk_lt : ∀ pr ∈ disp, pr.1 < h0 :=
    fun pr hpr => hI.disp_lt_hs pr hpr h0 (List.mem_cons_self _ _)
  have hdisp_slot_gt : ∀ pr ∈ disp, p.2.block < pr.2 := by
    intro pr hpr
    have := hI.disp_lt_fs pr hpr f (List.mem_cons_self _ _)
    omega
  refine {
    blocks_eq := hI.blocks_eq
    cache_len := hI.cache_len
    ch0_eq := hI.ch0_eq
    ch0_nodup := hI.ch0_nodup
    cle := hI.cle
    tle := hI.tle
    fdlen := ?_
    ids_nodup := ?_
    blocks_nodup := hblocksND
    items_len := ?_
    blocks_lt := ?_
    hs_sorted := (List.pairwise_cons.mp hI.hs_sorted).2
    hs_lt := fun x hx => hI.hs_lt x (List.mem_cons_of_mem _ hx)
    hs_ch0 := fun x hx => hI.hs_ch0 x (List.mem_cons_of_mem _ hx)
    hs_not_live := ?_
    cover := ?_
    fs_desc := (List.pairwise_cons.mp hI.fs_desc).2
    fs_live := ?_
    fs_top := ?_
    ch_eq := ?_
    ch0_rem := hI.ch0_rem
    disp_blk := ?_
    disp_slot := ?_
    disp_slot_free := ?_
    disp_lt_fs := ?_
    disp_lt_hs := ?_
    disp_blocks_asc := ?_
    disp_slots_desc := ?_
    disp_live := ?_
    live_free_hi := ?_
    slot_cover := ?_
    entry_disp := ?_
    entry_main := ?_ }
  · show (listSetPad db.fileData h0 (some item)).length ≤ B
    rw [listSetPad_length]
    have := hI.fdlen
    have := hI.tle
    omega
  · show ((assocSet db.items p.1 { p.2 with block := h0 }).map Prod.fst).Nodup
    rw [hkeys]
    exact hI.ids_nodup
  · show (assocSet db.items p.1 { p.2 with block := h0 }).length = T
    rw [hlen]
    exact hI.items_len
  · intro q hq
    rcases (hmem_iff q).mp hq with he | ⟨hold, -⟩
    · rw [he]
      show h0 < B
      have := hI.tle
      omega
    · exact hI.blocks_lt q hold
  · intro q hq
    rcases (hmem_iff q).mp hq with he | ⟨hold, -⟩
    · rw [he]
      intro hmem
      have := hhs_gt h0 hmem
      omega
    · exact fun hmem => hI.hs_not_live q hold (List.mem_cons_of_mem _ hmem)
  · intro b hb
    rcases hI.cover b hb with ⟨q, hq, hqb⟩ | hhole
    · left
      have hqp : q ≠ p := by
        intro he
        rw [he] at hqb
        omega
      exact ⟨q, hqmem q hq hqp, hqb⟩
    · rcases List.mem_cons.mp hhole with he | hm
      · left
        exact ⟨(p.1, { p.2 with block := h0 }), hmoved, he.symm⟩
      · right
        exact hm
  · intro g hg
    rcases hI.fs_live g (List.mem_cons_of_mem _ hg) with he | ⟨hge, q, hq, hqg⟩
    · exact Or.inl he
    · right
      refine ⟨hge, ?_⟩
      have hgf : g < f := hfs_lt g hg
      have hqp : q ≠ p := by
        intro he
        rw [he] at hqg
        rw [hqg] at hpf
        omega
      exact ⟨q, hqmem q hq hqp, hqg⟩
  · intro q hq hT
    rcases (hmem_iff q).mp hq with he | ⟨hold, hne⟩
    · exfalso
      rw [he] at hT
      have hT' : T ≤ h0 := hT
      omega
    · have := hI.fs_top q hold hT
      rcases List.mem_cons.mp this with he | hm
      · exfalso
        have hqp : q = p := by
          apply block_eq_of_nodup hI.blocks_nodup hold hp
          have hcast : ((q.2.block : Nat) : Int) = ((p.2.block : Nat) : Int) := by
            rw [hpf, he]
          exact_mod_cast hcast
        exact hne (by rw [hqp])
      · exact hm
  · show ch = (disp ++ [(h0, p.2.block)]).map Prod.fst ++
      hs.filter (fun x => x < C)
    rw [hI.ch_eq]
    rw [show (h0 :: hs).filter (fun x => x < C) =
      h0 :: hs.filter (fun x => x < C) from by simp [hh0C]]
    rw [List.map_append]
    rw [show ([(h0, p.2.block)].map Prod.fst) = [h0] from rfl]
    rw [List.append_assoc]
    rfl
  · intro pr hpr
    rcases List.mem_append.mp hpr with hold | hnew
    · exact hI.disp_blk pr hold
    · rw [List.mem_singleton.mp hnew]
      exact ⟨h0T, hh0C⟩
  · intro pr hpr
    rcases List.mem_append.mp hpr with hold | hnew
    · exact hI.disp_slot pr hold
    · rw [List.mem_singleton.mp hnew]
      exact ⟨hfT, hfC⟩
  · intro pr hpr
    rcases List.mem_append.mp hpr with hold | hnew
    · exact hI.disp_slot_free pr hold
    · rw [List.mem_singleton.mp hnew]
      exact hI.live_free_hi p hp hfT
  · intro pr hpr g hg
    rcases List.mem_append.mp hpr with hold | hnew
    · exact hI.disp_lt_fs pr hold g (List.mem_cons_of_mem _ hg)
    · rw [List.mem_singleton.mp hnew]
      show g < ((p.2.block : Nat) : Int)
      rw [hpf]
      exact hfs_lt g hg
  · intro pr hpr x hx
    rcases List.mem_append.mp hpr with hold | hnew
    · exact hI.disp_lt_hs pr hold x (List.mem_cons_of_mem _ hx)
    · rw [List.mem_singleton.mp hnew]
      exact hhs_gt x hx
  · rw [List.map_append]
    rw [List.pairwise_append]
    refine ⟨hI.disp_blocks_asc, by simp, ?_⟩
    intro a ha b hb
    rw [show ([(h0, p.2.block)].map Prod.fst) = [h0] from rfl] at hb
    rw [List.mem_singleton.mp hb]
    obtain ⟨pr, hpr, he⟩ := List.mem_map.mp ha
    have := hdisp_blk_lt pr hpr
    omega
  · rw [List.map_append]
    rw [List.pairwise_append]
    refine ⟨hI.disp_slots_desc, by simp, ?_⟩
    intro a ha b hb
    rw [show ([(h0, p.2.block)].map Prod.snd) = [p.2.block] from rfl] at hb
    rw [List.mem_singleton.mp hb]
    obtain ⟨pr, hpr, he⟩ := List.mem_map.mp ha
    have := hdisp_slot_gt pr hpr
    omega
  · intro pr hpr
    rcases List.mem_append.mp hpr with hold | hnew
    · obtain ⟨q, hq, hqb⟩ := hI.disp_live pr hold
      have hqp : q ≠ p := by
        intro he
        rw [he] at hqb
        have := (hI.disp_blk pr hold).1
        omega
      exact ⟨q, hqmem q hq hqp, hqb⟩
    · rw [List.mem_singleton.mp hnew]
      exact ⟨(p.1, { p.2 with block := h0 }), hmoved, rfl⟩
  · intro q hq hT
    rcases (hmem_iff q).mp hq with he | ⟨hold, -⟩
    · exfalso
      rw [he] at hT
      have hT' : T ≤ h0 := hT
      omega
    · exact hI.live_free_hi q hold hT
  · intro x hT hC
    rcases hI.slot_cover x hT hC with hch0 | hsl | ⟨q, hq, hqb⟩
    · exact Or.inl hch0
    · right
      left
      rw [List.map_append]
      exact List.mem_append.mpr (Or.inl hsl)
    · by_cases hqp : q = p
      · right
        left
        rw [List.map_append]
        refine List.mem_append.mpr (Or.inr ?_)
        rw [show ([(h0, p.2.block)].map Prod.snd) = [p.2.block] from rfl]
        rw [List.mem_singleton]
        rw [hqp] at hqb
        exact hqb.symm
      · right
        right
        exact ⟨q, hqmem q hq hqp, hqb⟩
  · intro q hq sl hpair
    rcases (hmem_iff q).mp hq with he | ⟨hold, hne⟩
    · have hqb : q.2.block = h0 := by rw [he]
      rcases List.mem_append.mp hpair with holdp | hnewp
      · exfalso
        have := hdisp_blk_lt (q.2.block, sl) holdp
        simp only at this
        omega
      · have hps : (q.2.block, sl) = (h0, p.2.block) := List.mem_singleton.mp hnewp
        have hsl : sl = p.2.block := by
          have := congrArg Prod.snd hps
          simpa using this
        subst hsl
        refine ⟨?_, ?_, ?_, ?_⟩
        · rw [he]
          exact hcached
        · rw [he]
          show p.2.cacheIndex = ((p.2.block : Nat) : Int)
          exact hci
        · rw [he]
          show (db.cache.get? p.2.block).map Item.id = some p.1
          exact hcget
        · rw [he]
          apply diskIdOKB_intro
          intro r hr
          have hr' : (listSetPad db.fileData h0 (some item)).get? h0 =
              some (some r) := hr
          rw [listSetPad_get_self] at hr'
          have : item = r := by simpa using hr'
          rw [← this, hitem]
    · have hqnep : q ≠ p := fun he2 => hne (by rw [he2])
      rcases List.mem_append.mp hpair with holdp | hnewp
      · obtain ⟨c1, c2, c3, c4⟩ := hI.entry_disp q hold sl holdp
        refine ⟨c1, c2, ?_, ?_⟩
        · show (db.cache.get? sl).map Item.id = some q.1
          exact c3
        · rw [hdok_new q hold ?_]
          · exact c4
          · have := hdisp_blk_lt (q.2.block, sl) holdp
            simp only at this
            omega
      · exfalso
        have hps : (q.2.block, sl) = (h0, p.2.block) := List.mem_singleton.mp hnewp
        have hqb : q.2.block = h0 := by
          have := congrArg Prod.fst hps
          simpa using this
        exact h0new (hqb ▸ List.mem_map_of_mem _ hold)
  · intro q hq hnd
    rcases (hmem_iff q).mp hq with he | ⟨hold, hne⟩
    · exfalso
      apply hnd
      rw [he, List.map_append]
      refine List.mem_append.mpr (Or.inr ?_)
      rw [show ([(h0, p.2.block)].map Prod.fst) = [h0] from rfl]
      exact List.mem_singleton.mpr rfl
    · have hnd1 : q.2.block ∉ disp.map Prod.fst := by
        intro hmem
        exact hnd (by rw [List.map_append]; exact List.mem_append.mpr (Or.inl hmem))
      have hnd2 : q.2.block ≠ h0 := by
        intro he2
        apply hnd
        rw [List.map_append, he2]
        refine List.mem_append.mpr (Or.inr ?_)
        rw [show ([(h0, p.2.block)].map Prod.fst) = [h0] from rfl]
        exact List.mem_singleton.mpr rfl
      obtain ⟨hiff, hal, hdok⟩ := hI.entry_main q hold hnd1
      refine ⟨hiff, ?_, ?_⟩
      · intro hc
        obtain ⟨a1, a2⟩ := hal hc
        exact ⟨a1, a2⟩
      · rw [hdok_new q hold hnd2]
        exact hdok

theorem p1_move_uncached_consume (T C B : Nat) (ch0 : List Nat) {db : Database}
    {h0 : Nat} {hs : List Nat} {f : Int} {fs' : List Int} {ch : List Nat}
    {disp : List (Nat × Nat)} {p : String × ItemData} {item : Item} {L : Nat}
    (hI : P1Inv T C B ch0 db (h0 :: hs) (f :: fs') ch disp)
    (hp : p ∈ db.items) (hpf : ((p.2.block : Nat) : Int) = f)
    (hfT : T ≤ p.2.block) (h0T : h0 < T) (h0f : (h0 : Int) < f)
    (hitem : item.id = p.1) (huncached : p.2.cached = false) (hh0C : h0 < C) :
    P1Inv T C B ch0
      { db with
        items := assocSet db.items p.1
          { p.2 with block := h0, cached := true, cacheIndex := ((h0 : Nat) : Int) }
        cache := db.cache.set h0 item
        fileData := listSetPad db.fileData h0 (some item)
        fileLen := L }
      hs fs' (hs.filter (fun x => x < C)) disp := by
  have hnotdisp : p.2.block ∉ disp.map Prod.fst := by
    intro hmem
    obtain ⟨pr, hpr, he⟩ := List.mem_map.mp hmem
    have := (hI.disp_blk pr hpr).1
    omega
  have hmain := hI.entry_main p hp hnotdisp
  have hCp : C ≤ p.2.block := by
    rcases Nat.lt_or_ge p.2.block C with h | h
    · have := hmain.1.mpr h
      rw [huncached] at this
      simp at this
    · exact h
  have hdisp : disp = [] := by
    cases disp with
    | nil => rfl
    | cons pr rest =>
      exfalso
      have h1 := hI.disp_lt_fs pr (List.mem_cons_self _ _) f (List.mem_cons_self _ _)
      have h2 := (hI.disp_slot pr (List.mem_cons_self _ _)).2
      omega
  subst hdisp
  have hlk : db.items.lookup p.1 = some p.2 := lookup_of_mem_nodup hI.ids_nodup hp
  obtain ⟨m1, m2, hbsplit, hbset, hkeys, hlen⟩ :=
    @assocSet_blocks_split _ _ _
      { p.2 with block := h0, cached := true, cacheIndex := ((h0 : Nat) : Int) }
      hI.ids_nodup hlk
  have hmem_iff := @assocSet_mem_iff _ _ _
    { p.2 with block := h0, cached := true, cacheIndex := ((h0 : Nat) : Int) }
    hI.ids_nodup hlk
  have h0new : h0 ∉ db.items.map (fun q => q.2.block) := by
    intro hmem
    obtain ⟨q, hq, he⟩ := List.mem_map.mp hmem
    exact hI.hs_not_live q hq (he ▸ List.mem_cons_self _ _)
  have hblocksND : ((assocSet db.items p.1
      { p.2 with block := h0, cached := true, cacheIndex := ((h0 : Nat) : Int) }).map
      (fun q => q.2.block)).Nodup := by
    rw [hbset]
    apply nodup_replace_mid (a := p.2.block)
    · rw [← hbsplit]
      exact hI.blocks_nodup
    · rw [show (({ p.2 with block := h0, cached := true, cacheIndex := ((h0 : Nat) : Int) } : ItemData)).block = h0 from rfl, ← hbsplit]
      exact h0new
  have hhs_gt : ∀ x ∈ hs, h0 < x := (List.pairwise_cons.mp hI.hs_sorted).1
  have hfs_lt : ∀ g ∈ fs', g < f := (List.pairwise_cons.mp hI.fs_desc).1
  have hqne : ∀ q ∈ db.items, q ≠ p → q.1 ≠ p.1 := by
    intro q hq hne he
    exact hne (key_eq_of_nodup hI.ids_nodup hq hp he)
  have hqmem : ∀ q ∈ db.items, q ≠ p →
      q ∈ assocSet db.items p.1
        { p.2 with block := h0, cached := true, cacheIndex := ((h0 : Nat) : Int) } := by
    intro q hq hne
    exact (hmem_iff q).mpr (Or.inr ⟨hq, hqne q hq hne⟩)
  have hmoved : (p.1, ({ p.2 with block := h0, cached := true, cacheIndex := ((h0 : Nat) : Int) } : ItemData)) ∈
      assocSet db.items p.1
        { p.2 with block := h0, cached := true, cacheIndex := ((h0 : Nat) : Int) } :=
    (hmem_iff _).mpr (Or.inl rfl)
  have hdok_new : ∀ q ∈ db.items, q.2.block ≠ h0 →
      diskIdOKB { db with
        items := assocSet db.items p.1
          { p.2 with block := h0, cached := true, cacheIndex := ((h0 : Nat) : Int) }
        cache := db.cache.set h0 item
        fileData := listSetPad db.fileData h0 (some item)
        fileLen := L } q = diskIdOKB db q := by
    intro q hq hne
    unfold diskIdOKB
    simp only
    rw [listSetPad_get_ne hne]
    by_cases hlo : q.2.block < db.fileData.length
    · rw [if_pos hlo]
    · rw [if_neg hlo]
      rw [List.get?_len_le (by omega)]
      by_cases hmid : q.2.block < h0
      · rw [if_pos hmid]
      · rw [if_neg hmid]
  have hch : ch = h0 :: hs.filter (fun x => x < C) := by
    rw [hI.ch_eq]
    simp [hh0C]
  refine {
    blocks_eq := hI.blocks_eq
    cache_len := ?_
    ch0_eq := hI.ch0_eq
    ch0_nodup := hI.ch0_nodup
    cle := hI.cle
    tle := hI.tle
    fdlen := ?_
    ids_nodup := ?_
    blocks_nodup := hblocksND
    items_len := ?_
    blocks_lt := ?_
    hs_sorted := (List.pairwise_cons.mp hI.hs_sorted).2
    hs_lt := fun x hx => hI.hs_lt x (List.mem_cons_of_mem _ hx)
    hs_ch0 := fun x hx => hI.hs_ch0 x (List.mem_cons_of_mem _ hx)
    hs_not_live := ?_
    cover := ?_
    fs_desc := (List.pairwise_cons.mp hI.fs_desc).2
    fs_live := ?_
    fs_top := ?_
    ch_eq := ?_
    ch0_rem := ?_
    disp_blk := ?_
    disp_slot := ?_
    disp_slot_free := ?_
    disp_lt_fs := ?_
    disp_lt_hs := ?_
    disp_blocks_asc := ?_
    disp_slots_desc := ?_
    disp_live := ?_
    live_free_hi := ?_
    slot_cover := ?_
    entry_disp := ?_
    entry_main := ?_ }
  · show (db.cache.set h0 item).length = C
    rw [List.length_set]
    exact hI.cache_len
  · show (listSetPad db.fileData h0 (some item)).length ≤ B
    rw [listSetPad_length]
    have := hI.fdlen
    have := hI.tle
    omega
  · show ((assocSet db.items p.1 { p.2 with block := h0, cached := true, cacheIndex := ((h0 : Nat) : Int) }).map Prod.fst).Nodup
    rw [hkeys]
    exact hI.ids_nodup
  · show (assocSet db.items p.1 { p.2 with block := h0, cached := true, cacheIndex := ((h0 : Nat) : Int) }).length = T
    rw [hlen]
    exact hI.items_len
  · intro q hq
    rcases (hmem_iff q).mp hq with he | ⟨hold, -⟩
    · rw [he]
      show h0 < B
      have := hI.tle
      omega
    · exact hI.blocks_lt q hold
  · intro q hq
    rcases (hmem_iff q).mp hq with he | ⟨hold, -⟩
    · rw [he]
      intro hmem
      have := hhs_gt h0 hmem
      omega
    · exact fun hmem => hI.hs_not_live q hold (List.mem_cons_of_mem _ hmem)
  · intro b hb
    rcases hI.cover b hb with ⟨q, hq, hqb⟩ | hhole
    · left
      have hqp : q ≠ p := by
        intro he
        rw [he] at hqb
        omega
      exact ⟨q, hqmem q hq hqp, hqb⟩
    · rcases List.mem_cons.mp hhole with he | hm
      · left
        exact ⟨(p.1, { p.2 with block := h0, cached := true, cacheIndex := ((h0 : Nat) : Int) }), hmoved, he.symm⟩
      · right
        exact hm
  · intro g hg
    rcases hI.fs_live g (List.mem_cons_of_mem _ hg) with he | ⟨hge, q, hq, hqg⟩
    · exact Or.inl he
    · right
      refine ⟨hge, ?_⟩
      have hgf : g < f := hfs_lt g hg
      have hqp : q ≠ p := by
        intro he
        rw [he] at hqg
        rw [hqg] at hpf
        omega
      exact ⟨q, hqmem q hq hqp, hqg⟩
  · intro q hq hT
    rcases (hmem_iff q).mp hq with he | ⟨hold, hne⟩
    · exfalso
      rw [he] at hT
      have hT' : T ≤ h0 := hT
      omega
    · have := hI.fs_top q hold hT
      rcases List.mem_cons.mp this with he | hm
      · exfalso
        have hqp : q = p := by
          apply block_eq_of_nodup hI.blocks_nodup hold hp
          have hcast : ((q.2.block : Nat) : Int) = ((p.2.block : Nat) : Int) := by
            rw [hpf, he]
          exact_mod_cast hcast
        exact hne (by rw [hqp])
      · exact hm
  · show hs.filter (fun x => x < C) =
      List.map Prod.fst [] ++ hs.filter (fun x => x < C)
    simp
  · intro x hx hT hC
    have := hI.ch0_rem x hx hT hC
    rw [hch] at this
    rcases List.mem_cons.mp this with he | hm
    · exfalso
      rw [he] at hT
      omega
    · exact hm
  · intro pr hpr
    exact absurd hpr (List.not_mem_nil _)
  · intro pr hpr
    exact absurd hpr (List.not_mem_nil _)
  · intro pr hpr
    exact absurd hpr (List.not_mem_nil _)
  · intro pr hpr
    exact absurd hpr (List.not_mem_nil _)
  · intro pr hpr
    exact absurd hpr (List.not_mem_nil _)
  · simp
  · simp
  · intro pr hpr
    exact absurd hpr (List.not_mem_nil _)
  · intro q hq hT
    rcases (hmem_iff q).mp hq with he | ⟨hold, -⟩
    · exfalso
      rw [he] at hT
      have hT' : T ≤ h0 := hT
      omega
    · exact hI.live_free_hi q hold hT
  · intro x hT hC
    rcases hI.slot_cover x hT hC with hch0 | hsl | ⟨q, hq, hqb⟩
    · exact Or.inl hch0
    · exact absurd hsl (by simp)
    · have hqp : q ≠ p := by
        intro he
        rw [he] at hqb
        omega
      exact Or.inr (Or.inr ⟨q, hqmem q hq hqp, hqb⟩)
  · intro q hq sl hpair
    exact absurd hpair (List.not_mem_nil _)
  · rintro q hq -
    rcases (hmem_iff q).mp hq with he | ⟨hold, hne⟩
    · refine ⟨⟨fun _ => ?_, fun _ => ?_⟩, fun _ => ⟨?_, ?_⟩, ?_⟩
      · rw [he]
        exact hh0C
      · rw [he]
      · rw [he]
      · rw [he]
        show ((db.cache.set h0 item).get? h0).map Item.id = some p.1
        have hget : (db.cache.set h0 item).get? h0 = some item :=
          List.get?_set_eq_of_lt _ (by rw [hI.cache_len]; omega)
        rw [hget]
        simp [hitem]
      · rw [he]
        apply diskIdOKB_intro
        intro r hr
        have hr' : (listSetPad db.fileData h0 (some item)).get? h0 =
            some (some r) := hr
        rw [listSetPad_get_self] at hr'
        have : item = r := by simpa using hr'
        rw [← this, hitem]
    · have hqb : q.2.block ≠ h0 := by
        intro he2
        exact hI.hs_not_live q hold (he2 ▸ List.mem_cons_self _ _)
      obtain ⟨hiff, hal, hdok⟩ := hI.entry_main q hold (by simp)
      refine ⟨hiff, fun hc => ?_, ?_⟩
      · obtain ⟨a1, a2⟩ := hal hc
        refine ⟨a1, ?_⟩
        show ((db.cache.set h0 item).get? q.2.block).map Item.id = some q.1
        rw [List.get?_set_ne _ _ (fun he2 => hqb he2.symm)]
        exact a2
      · rw [hdok_new q hold hqb]
        exact hdok

theorem p1_move_uncached_noconsume (T C B : Nat) (ch0 : List Nat) {db : Database}
    {h0 : Nat} {hs : List Nat} {f : Int} {fs' : List Int} {ch : List Nat}
    {disp : List (Nat × Nat)} {p : String × ItemData} {item : Item} {L : Nat}
    (hI : P1Inv T C B ch0 db (h0 :: hs) (f :: fs') ch disp)
    (hp : p ∈ db.items) (hpf : ((p.2.block : Nat) : Int) = f)
    (hfT : T ≤ p.2.block) (h0T : h0 < T) (h0f : (h0 : Int) < f)
    (hitem : item.id = p.1) (huncached : p.2.cached = false) (hCh0 : C ≤ h0) :
    P1Inv T C B ch0
      { db with
        items := assocSet db.items p.1 { p.2 with block := h0 }
        fileData := listSetPad db.fileData h0 (some item)
        fileLen := L }
      hs fs' ch disp := by
  have hnotdisp : p.2.block ∉ disp.map Prod.fst := by
    intro hmem
    obtain ⟨pr, hpr, he⟩ := List.mem_map.mp hmem
    have := (hI.disp_blk pr hpr).1
    omega
  have hmain := hI.entry_main p hp hnotdisp
  have hCp : C ≤ p.2.block := by
    rcases Nat.lt_or_ge p.2.block C with h | h
    · have := hmain.1.mpr h
      rw [huncached] at this
      simp at this
    · exact h
  have hdisp : disp = [] := by
    cases disp with
    | nil => rfl
    | cons pr rest =>
      exfalso
      have h1 := hI.disp_lt_fs pr (List.mem_cons_self _ _) f (List.mem_cons_self _ _)
      have h2 := (hI.disp_slot pr (List.mem_cons_self _ _)).2
      omega
  subst hdisp
  have hlk : db.items.lookup p.1 = some p.2 := lookup_of_mem_nodup hI.ids_nodup hp
  obtain ⟨m1, m2, hbsplit, hbset, hkeys, hlen⟩ :=
    @assocSet_blocks_split _ _ _ { p.2 with block := h0 } hI.ids_nodup hlk
  have hmem_iff := @assocSet_mem_iff _ _ _ { p.2 with block := h0 }
    hI.ids_nodup hlk
  have h0new : h0 ∉ db.items.map (fun q => q.2.block) := by
    intro hmem
    obtain ⟨q, hq, he⟩ := List.mem_map.mp hmem
    exact hI.hs_not_live q hq (he ▸ List.mem_cons_self _ _)
  have hblocksND : ((assocSet db.items p.1 { p.2 with block := h0 }).map
      (fun q => q.2.block)).Nodup := by
    rw [hbset]
    apply nodup_replace_mid (a := p.2.block)
    · rw [← hbsplit]
      exact hI.blocks_nodup
    · rw [show (({ p.2 with block := h0 } : ItemData)).block = h0 from rfl,
        ← hbsplit]
      exact h0new
  have hhs_gt : ∀ x ∈ hs, h0 < x := (List.pairwise_cons.mp hI.hs_sorted).1
  have hfs_lt : ∀ g ∈ fs', g < f := (List.pairwise_cons.mp hI.fs_desc).1
  have hqne : ∀ q ∈ db.items, q ≠ p → q.1 ≠ p.1 := by
    intro q hq hne he
    exact hne (key_eq_of_nodup hI.ids_nodup hq hp he)
  have hqmem : ∀ q ∈ db.items, q ≠ p →
      q ∈ assocSet db.items p.1 { p.2 with block := h0 } := by
    intro q hq hne
    exact (hmem_iff q).mpr (Or.inr ⟨hq, hqne q hq hne⟩)
  have hmoved : (p.1, ({ p.2 with block := h0 } : ItemData)) ∈
      assocSet db.items p.1 { p.2 with block := h0 } :=
    (hmem_iff _).mpr (Or.inl rfl)
  have hfc : ¬(p.2.cached = true) := by
    rw [huncached]
    simp
  have hdok_new : ∀ q ∈ db.items, q.2.block ≠ h0 →
      diskIdOKB { db with
        items := assocSet db.items p.1 { p.2 with block := h0 }
        fileData := listSetPad db.fileData h0 (some item)
        fileLen := L } q = diskIdOKB db q := by
    intro q hq hne
    unfold diskIdOKB
    simp only
    rw [listSetPad_get_ne hne]
    by_cases hlo : q.2.block < db.fileData.length
    · rw [if_pos hlo]
    · rw [if_neg hlo]
      rw [List.get?_len_le (by omega)]
      by_cases hmid : q.2.block < h0
      · rw [if_pos hmid]
      · rw [if_neg hmid]
  refine {
    blocks_eq := hI.blocks_eq
    cache_len := hI.cache_len
    ch0_eq := hI.ch0_eq
    ch0_nodup := hI.ch0_nodup
    cle := hI.cle
    tle := hI.tle
    fdlen := ?_
    ids_nodup := ?_
    blocks_nodup := hblocksND
    items_len := ?_
    blocks_lt := ?_
    hs_sorted := (List.pairwise_cons.mp hI.hs_sorted).2
    hs_lt := fun x hx => hI.hs_lt x (List.mem_cons_of_mem _ hx)
    hs_ch0 := fun x hx => hI.hs_ch0 x (List.mem_cons_of_mem _ hx)
    hs_not_live := ?_
    cover := ?_
    fs_desc := (List.pairwise_cons.mp hI.fs_desc).2
    fs_live := ?_
    fs_top := ?_
    ch_eq := ?_
    ch0_rem := hI.ch0_rem
    disp_blk := ?_
    disp_slot := ?_
    disp_slot_free := ?_
    disp_lt_fs := ?_
    disp_lt_hs := ?_
    disp_blocks_asc := ?_
    disp_slots_desc := ?_
    disp_live := ?_
    live_free_hi := ?_
    slot_cover := ?_
    entry_disp := ?_
    entry_main := ?_ }
  · show (listSetPad db.fileData h0 (some item)).length ≤ B
    rw [listSetPad_length]
    have := hI.fdlen
    have := hI.tle
    omega
  · show ((assocSet db.items p.1 { p.2 with block := h0 }).map Prod.fst).Nodup
    rw [hkeys]
    exact hI.ids_nodup
  · show (assocSet db.items p.1 { p.2 with block := h0 }).length = T
    rw [hlen]
    exact hI.items_len
  · intro q hq
    rcases (hmem_iff q).mp hq with he | ⟨hold, -⟩
    · rw [he]
      show h0 < B
      have := hI.tle
      omega
    · exact hI.blocks_lt q hold
  · intro q hq
    rcases (hmem_iff q).mp hq with he | ⟨hold, -⟩
    · rw [he]
      intro hmem
      have := hhs_gt h0 hmem
      omega
    · exact fun hmem => hI.hs_not_live q hold (List.mem_cons_of_mem _ hmem)
  · intro b hb
    rcases hI.cover b hb with ⟨q, hq, hqb⟩ | hhole
    · left
      have hqp : q ≠ p := by
        intro he
        rw [he] at hqb
        omega
      exact ⟨q, hqmem q hq hqp, hqb⟩
    · rcases List.mem_cons.mp hhole with he | hm
      · left
        exact ⟨(p.1, { p.2 with block := h0 }), hmoved, he.symm⟩
      · right
        exact hm
  · intro g hg
    rcases hI.fs_live g (List.mem_cons_of_mem _ hg) with he | ⟨hge, q, hq, hqg⟩
    · exact Or.inl he
    · right
      refine ⟨hge, ?_⟩
      have hgf : g < f := hfs_lt g hg
      have hqp : q ≠ p := by
        intro he
        rw [he] at hqg
        rw [hqg] at hpf
        omega
      exact ⟨q, hqmem q hq hqp, hqg⟩
  · intro q hq hT
    rcases (hmem_iff q).mp hq with he | ⟨hold, hne⟩
    · exfalso
      rw [he] at hT
      have hT' : T ≤ h0 := hT
      omega
    · have := hI.fs_top q hold hT
      rcases List.mem_cons.mp this with he | hm
      · exfalso
        have hqp : q = p := by
          apply block_eq_of_nodup hI.blocks_nodup hold hp
          have hcast : ((q.2.block : Nat) : Int) = ((p.2.block : Nat) : Int) := by
            rw [hpf, he]
          exact_mod_cast hcast
        exact hne (by rw [hqp])
      · exact hm
  · show ch = List.map Prod.fst [] ++ hs.filter (fun x => x < C)
    rw [hI.ch_eq]
    simp [show ¬h0 < C from by omega]
  · intro pr hpr
    exact absurd hpr (List.not_mem_nil _)
  · intro pr hpr
    exact absurd hpr (List.not_mem_nil _)
  · intro pr hpr
    exact absurd hpr (List.not_mem_nil _)
  · intro pr hpr
    exact absurd hpr (List.not_mem_nil _)
  · intro pr hpr
    exact absurd hpr (List.not_mem_nil _)
  · simp
  · simp
  · intro pr hpr
    exact absurd hpr (List.not_mem_nil _)
  · intro q hq hT
    rcases (hmem_iff q).mp hq with he | ⟨hold, -⟩
    · exfalso
      rw [he] at hT
      have hT' : T ≤ h0 := hT
      omega
    · exact hI.live_free_hi q hold hT
  · intro x hT hC
    rcases hI.slot_cover x hT hC with hch0 | hsl | ⟨q, hq, hqb⟩
    · exact Or.inl hch0
    · exact absurd hsl (by simp)
    · have hqp : q ≠ p := by
        intro he
        rw [he] at hqb
        omega
      exact Or.inr (Or.inr ⟨q, hqmem q hq hqp, hqb⟩)
  · intro q hq sl hpair
    exact absurd hpair (List.not_mem_nil _)
  · rintro q hq -
    rcases (hmem_iff q).mp hq with he | ⟨hold, hne⟩
    · refine ⟨⟨fun hc => ?_, fun hlt => ?_⟩, fun hc => ?_, ?_⟩
      · exact absurd (show p.2.cached = true from by rw [he] at hc; exact hc) hfc
      · exfalso
        have : h0 < C := by
          rw [he] at hlt
          exact hlt
        omega
      · exact absurd (show p.2.cached = true from by rw [he] at hc; exact hc) hfc
      · rw [he]
        apply diskIdOKB_intro
        intro r hr
        have hr' : (listSetPad db.fileData h0 (some item)).get? h0 =
            some (some r) := hr
        rw [listSetPad_get_self] at hr'
        have : item = r := by simpa using hr'
        rw [← this, hitem]
    · have hqb : q.2.block ≠ h0 := by
        intro he2
        exact hI.hs_not_live q hold (he2 ▸ List.mem_cons_self _ _)
      obtain ⟨hiff, hal, hdok⟩ := hI.entry_main q hold (by simp)
      refine ⟨hiff, fun hc => ?_, ?_⟩
      · obtain ⟨a1, a2⟩ := hal hc
        exact ⟨a1, a2⟩
      · rw [hdok_new q hold hqb]
        exact hdok

theorem p1_terminal (T C B : Nat) (ch0 : List Nat) {db : Database}
    {hs : List Nat} {fs : List Int} {ch : List Nat} {disp : List (Nat × Nat)}
    (hI : P1Inv T C B ch0 db hs fs ch disp)
    (hcompact : ∀ p ∈ db.items, p.2.block < T) :
    P1Post T C B ch0 db (hs.filter (fun x => x < C)) disp ∧
      ch = disp.map Prod.fst ++ hs.filter (fun x => x < C) := by
  have hblocks_mem : ∀ b, b < T → b ∈ db.items.map (fun p => p.2.block) := by
    apply nodup_lt_mem hI.blocks_nodup
    · rw [List.length_map, hI.items_len]
    · intro x hx
      obtain ⟨p, hp, he⟩ := List.mem_map.mp hx
      rw [← he]
      exact hcompact p hp
  have hhsT : ∀ x ∈ hs, T ≤ x := by
    intro x hx
    by_contra h
    push_neg at h
    obtain ⟨p, hp, he⟩ := List.mem_map.mp (hblocks_mem x h)
    exact hI.hs_not_live p hp (he ▸ hx)
  refine ⟨{
    blocks_eq := hI.blocks_eq
    cache_len := hI.cache_len
    ch0_eq := hI.ch0_eq
    ch0_nodup := hI.ch0_nodup
    cle := hI.cle
    tle := hI.tle
    fdlen := hI.fdlen
    ids_nodup := hI.ids_nodup
    blocks_nodup := hI.blocks_nodup
    items_len := hI.items_len
    compact := hcompact
    disp_blk := hI.disp_blk
    disp_slot := hI.disp_slot
    disp_slot_free := hI.disp_slot_free
    disp_blocks_asc := hI.disp_blocks_asc
    disp_slots_desc := hI.disp_slots_desc
    disp_live := hI.disp_live
    slot_cover := ?_
    entry_disp := hI.entry_disp
    entry_main := hI.entry_main
    rest_sorted := List.Pairwise.sublist (List.filter_sublist _) hI.hs_sorted
    rest_hi := ?_
    rest_sub := ?_
    rest_complete := ?_ }, hI.ch_eq⟩
  · intro x hT hC
    rcases hI.slot_cover x hT hC with hch0 | hsl | ⟨q, hq, hqb⟩
    · exact Or.inl hch0
    · exact Or.inr hsl
    · exfalso
      have := hcompact q hq
      omega
  · intro x hx
    rw [List.mem_filter] at hx
    refine ⟨hhsT x hx.1, ?_⟩
    have := hx.2
    simpa using this
  · intro x hx
    rw [List.mem_filter] at hx
    exact hI.hs_ch0 x hx.1 (by simpa using hx.2)
  · intro x hx hT hC
    have := hI.ch0_rem x hx hT hC
    rw [hI.ch_eq] at this
    rcases List.mem_append.mp this with hd | hm
    · exfalso
      obtain ⟨pr, hpr, he⟩ := List.mem_map.mp hd
      have := (hI.disp_blk pr hpr).1
      omega
    · exact hm

theorem fillHolesPhase1_cons_cons (db : Database) (h : Nat) (hs : List Nat)
    (f : Int) (fs : List Int) (ch : List Nat) :
    fillHolesPhase1 db (h :: hs) (f :: fs) ch =
        if f ≠ 0 ∧ (h : Int) < f then
          match moveBlock db f h with
          | none => none
          | some (db1, item) =>
            match db1.items.lookup item.id with
            | none => none
            | some d =>
              if ¬d.cached ∧ ch ≠ [] then
                match ch with
                | hole :: chRest =>
                  fillHolesPhase1
                    { db1 with
                      items := assocSet db1.items item.id
                        { d with cached := true, cacheIndex := (hole : Int) }
                      cache := db1.cache.set hole item }
                    hs fs chRest
                | [] => none
              else fillHolesPhase1 db1 hs fs ch
        else fillHolesPhase1 db hs fs ch := rfl

theorem readFromBlock_some {db : Database} {b : Nat} {item : Item}
    (h : readFromBlock db b = some item) :
    db.fileData.get? b = some (some item) := by
  unfold readFromBlock at h
  cases hg : db.fileData.get? b with
  | none =>
    simp only [hg] at h
    exact Option.noConfusion h
  | some o =>
    cases o with
    | none =>
      simp only [hg] at h
      exact Option.noConfusion h
    | some r =>
      simp only [hg] at h
      rw [h]

theorem fillHolesPhase1_master (T C B : Nat) (ch0 : List Nat) :
    ∀ (hs : List Nat) (fs : List Int) (db : Database) (ch : List Nat)
      (disp : List (Nat × Nat)) (db' : Database) (chRem : List Nat),
    P1Inv T C B ch0 db hs fs ch disp →
    fillHolesPhase1 db hs fs ch = some (db', chRem) →
    ∃ disp' rest, chRem = disp'.map Prod.fst ++ rest ∧
      P1Post T C B ch0 db' rest disp' := by
  intro hs
  induction hs with
  | nil =>
    intro fs db ch disp db' chRem hI hstep
    have hstep' : (some (db, ch) : Option (Database × List Nat)) =
        some (db', chRem) := hstep
    have hpair : (db, ch) = (db', chRem) := by injection hstep'
    have hdb : db = db' := congrArg Prod.fst hpair
    have hchr : ch = chRem := congrArg Prod.snd hpair
    have hlive : ∀ b, b < T → b ∈ db.items.map (fun p => p.2.block) := by
      intro b hb
      rcases hI.cover b hb with ⟨q, hq, hqb⟩ | hhole
      · exact List.mem_map.mpr ⟨q, hq, hqb⟩
      · exact absurd hhole (List.not_mem_nil _)
    have hall := nodup_cover_all_lt hI.blocks_nodup
      (by rw [List.length_map, hI.items_len]) hlive
    have hcompact : ∀ p ∈ db.items, p.2.block < T :=
      fun p hp => hall _ (List.mem_map_of_mem _ hp)
    obtain ⟨hpost, hcheq⟩ := p1_terminal T C B ch0 hI hcompact
    refine ⟨disp, List.filter (fun x => x < C) [], ?_, ?_⟩
    · rw [← hchr]
      exact hcheq
    · rw [← hdb]
      exact hpost
  | cons h hs' ih =>
    intro fs db ch disp db' chRem hI hstep
    cases fs with
    | nil =>
      rw [fillHolesPhase1_nil_fs] at hstep
      have hpair : (db, ch) = (db', chRem) := by injection hstep
      have hdb : db = db' := congrArg Prod.fst hpair
      have hchr : ch = chRem := congrArg Prod.snd hpair
      have hcompact : ∀ p ∈ db.items, p.2.block < T := by
        intro p hp
        by_contra hT
        push_neg at hT
        exact absurd (hI.fs_top p hp hT) (List.not_mem_nil _)
      obtain ⟨hpost, hcheq⟩ := p1_terminal T C B ch0 hI hcompact
      refine ⟨disp, (h :: hs').filter (fun x => x < C), ?_, ?_⟩
      · rw [← hchr]
        exact hcheq
      · rw [← hdb]
        exact hpost
    | cons f fs' =>
      rw [fillHolesPhase1_cons_cons] at hstep
      by_cases hcross : f ≠ 0 ∧ (h : Int) < f
      · rw [if_pos hcross] at hstep
        obtain ⟨hf0, hhf⟩ := hcross
        have hf_nonneg : (0 : Int) ≤ f := by omega
        rcases hI.fs_live f (List.mem_cons_self _ _) with hneg | ⟨-, p, hp, hpf⟩
        · omega
        have hfT : T ≤ p.2.block := by
          by_contra hlow
          push_neg at hlow
          have hcompact' : ∀ q ∈ db.items, q.2.block < T := by
            intro q hq
            by_contra hTq
            push_neg at hTq
            have hfst := hI.fs_top q hq hTq
            have hble := desc_head_max hI.fs_desc _ hfst
            omega
          have hmem := nodup_lt_mem hI.blocks_nodup
            (by rw [List.length_map, hI.items_len])
            (fun x hx => by
              obtain ⟨q, hq, he⟩ := List.mem_map.mp hx
              rw [← he]
              exact hcompact' q hq)
          have hhT : h < T := by omega
          obtain ⟨q, hq, he⟩ := List.mem_map.mp (hmem h hhT)
          exact hI.hs_not_live q hq (he ▸ List.mem_cons_self _ _)
        have h0T : h < T := by
          by_contra hTh
          push_neg at hTh
          have hlive : ∀ b, b < T → b ∈ db.items.map (fun p => p.2.block) := by
            intro b hb
            rcases hI.cover b hb with ⟨q2, hq2, hqb⟩ | hhole
            · exact List.mem_map.mpr ⟨q2, hq2, hqb⟩
            · exfalso
              rcases List.mem_cons.mp hhole with he | hm
              · omega
              · have := (List.pairwise_cons.mp hI.hs_sorted).1 b hm
                omega
          have hall := nodup_cover_all_lt hI.blocks_nodup
            (by rw [List.length_map, hI.items_len]) hlive
          have := hall _ (List.mem_map_of_mem _ hp)
          omega
        have hnotdisp : p.2.block ∉ disp.map Prod.fst := by
          intro hmem
          obtain ⟨pr, hpr, he⟩ := List.mem_map.mp hmem
          have := (hI.disp_blk pr hpr).1
          omega
        have hdok := (hI.entry_main p hp hnotdisp).2.2
        have hftn : f.toNat = p.2.block := by omega
        cases hrd : readFromBlock db f.toNat with
        | none =>
          exfalso
          have hmv : moveBlock db f h = none := by
            unfold moveBlock
            rw [if_neg (by omega)]
            simp only [hrd]
          rw [hmv] at hstep
          simp at hstep
        | some item =>
          have hid : item.id = p.1 := by
            apply diskIdOKB_spec hdok
            have hv : readFromBlock db p.2.block = some item := by
              rw [← hftn]
              exact hrd
            exact readFromBlock_some hv
          have hlk : db.items.lookup p.1 = some p.2 :=
            lookup_of_mem_nodup hI.ids_nodup hp
          have hmv : moveBlock db f h =
              some ({ db with
                items := assocSet db.items p.1 { p.2 with block := h }
                fileData := listSetPad db.fileData h (some item)
                fileLen := max db.fileLen (headerLength + (h + 1) * db.blockSize) },
                item) := by
            unfold moveBlock
            rw [if_neg (by omega)]
            simp only [hrd, hid, hlk]
          rw [hmv] at hstep
          have hkeysnd : ((assocSet db.items p.1 { p.2 with block := h }).map
              Prod.fst).Nodup := by
            rw [assocSet_keys (by rw [hlk]; rfl)]
            exact hI.ids_nodup
          have hmemnew : (p.1, ({ p.2 with block := h } : ItemData)) ∈
              assocSet db.items p.1 { p.2 with block := h } :=
            (assocSet_mem_iff hI.ids_nodup hlk _).mpr (Or.inl rfl)
          have hlk2 : (assocSet db.items p.1 { p.2 with block := h }).lookup
              item.id = some { p.2 with block := h } := by
            rw [hid]
            exact @lookup_of_mem_nodup _ (p.1, { p.2 with block := h }) hkeysnd hmemnew
          simp only [hlk2] at hstep
          cases hcached : p.2.cached with
          | true =>
            rw [if_neg (fun hand => hand.1 hcached)] at hstep
            exact ih fs' _ ch (disp ++ [(h, p.2.block)]) db' chRem
              (p1_move_cached T C B ch0 hI hp hpf hfT h0T hhf hid hcached) hstep
          | false =>
            have hmain2 := hI.entry_main p hp hnotdisp
            have hCp : C ≤ p.2.block := by
              rcases Nat.lt_or_ge p.2.block C with hlt | hge
              · have := hmain2.1.mpr hlt
                rw [hcached] at this
                simp at this
              · exact hge
            have hdisp : disp = [] := by
              cases disp with
              | nil => rfl
              | cons pr rest =>
                exfalso
                have h1 := hI.disp_lt_fs pr (List.mem_cons_self _ _) f
                  (List.mem_cons_self _ _)
                have h2 := (hI.disp_slot pr (List.mem_cons_self _ _)).2
                omega
            subst hdisp
            have hch : ch = (h :: hs').filter (fun x => x < C) := by
              simpa using hI.ch_eq
            by_cases hhC : h < C
            · have hch2 : ch = h :: hs'.filter (fun x => x < C) := by
                rw [hch]
                simp [hhC]
              rw [if_pos ⟨by simp [hcached], by rw [hch2]; simp⟩] at hstep
              simp only [hch2] at hstep
              rw [hid] at hstep
              have hcollapse : assocSet (assocSet db.items p.1 { p.2 with block := h })
                  p.1 { { p.2 with block := h } with cached := true, cacheIndex := ((h : Nat) : Int) } =
                  assocSet db.items p.1
                    { p.2 with block := h, cached := true, cacheIndex := ((h : Nat) : Int) } :=
                assocSet_assocSet (by rw [hlk]; rfl)
              rw [hcollapse] at hstep
              exact ih fs' _ _ _ db' chRem
                (p1_move_uncached_consume T C B ch0 hI hp hpf hfT h0T hhf hid hcached hhC) hstep
            · have hch2 : ch = [] := by
                rw [hch, List.filter_eq_nil_iff]
                intro x hx
                simp only [decide_eq_true_eq]
                rcases List.mem_cons.mp hx with he | hm
                · omega
                · have := (List.pairwise_cons.mp hI.hs_sorted).1 x hm
                  omega
              rw [if_neg (fun hand => hand.2 hch2)] at hstep
              exact ih fs' _ ch [] db' chRem
                (p1_move_uncached_noconsume T C B ch0 hI hp hpf hfT h0T hhf hid hcached
                  (by omega)) hstep
      · have hno : ∀ f' ∈ fs', ∀ x ∈ hs', ¬(f' ≠ 0 ∧ (x : Int) < f') := by
          intro f' hf' x hx hand
          obtain ⟨h1, h2⟩ := hand
          have hf'f : f' < f := (List.pairwise_cons.mp hI.fs_desc).1 f' hf'
          have hhx : h < x := (List.pairwise_cons.mp hI.hs_sorted).1 x hx
          by_cases hf0 : f = 0
          · omega
          · have hfh : ¬((h : Int) < f) := fun hhf => hcross ⟨hf0, hhf⟩
            push_neg at hfh
            omega
        rw [if_neg hcross, fillHolesPhase1_noop hs' fs' db ch hno] at hstep
        have hpair : (db, ch) = (db', chRem) := by injection hstep
        have hdb : db = db' := congrArg Prod.fst hpair
        have hchr : ch = chRem := congrArg Prod.snd hpair
        have hcompact : ∀ p ∈ db.items, p.2.block < T := by
          intro q hq
          by_contra hT
          push_neg at hT
          have hfst := hI.fs_top q hq hT
          have hble := desc_head_max hI.fs_desc _ hfst
          have hT0 : 0 < T := by
            rw [← hI.items_len]
            exact List.length_pos.mpr (List.ne_nil_of_mem hq)
          have hfh : ¬((h : Int) < f) := fun hhf => hcross ⟨by omega, hhf⟩
          push_neg at hfh
          have hlive : ∀ b, b < T → b ∈ db.items.map (fun p => p.2.block) := by
            intro b hb
            rcases hI.cover b hb with ⟨q2, hq2, hqb⟩ | hhole
            · exact List.mem_map.mpr ⟨q2, hq2, hqb⟩
            · exfalso
              rcases List.mem_cons.mp hhole with he | hm
              · omega
              · have := (List.pairwise_cons.mp hI.hs_sorted).1 b hm
                omega
          have hall := nodup_cover_all_lt hI.blocks_nodup
            (by rw [List.length_map, hI.items_len]) hlive
          have := hall _ (List.mem_map_of_mem _ hq)
          omega
        obtain ⟨hpost, hcheq⟩ := p1_terminal T C B ch0 hI hcompact
        refine ⟨disp, (h :: hs').filter (fun x => x < C), ?_, ?_⟩
        · rw [← hchr]
          exact hcheq
        · rw [← hdb]
          exact hpost

theorem nodup_disjoint_cover {l1 l2 : List Nat} {B : Nat}
    (h1 : l1.Nodup) (h2 : l2.Nodup) (hdisj : ∀ x ∈ l1, x ∉ l2)
    (hb1 : ∀ x ∈ l1, x < B) (hb2 : ∀ x ∈ l2, x < B)
    (hlen : l1.length + l2.length = B) :
    ∀ b, b < B → b ∈ l1 ∨ b ∈ l2 := by
  intro b hb
  have hnd : (l1 ++ l2).Nodup := by
    rw [List.nodup_append]
    exact ⟨h1, h2, fun a ha hb => hdisj a ha hb⟩
  have hmem := nodup_lt_mem hnd (by rw [List.length_append, hlen])
    (by
      intro x hx
      rcases List.mem_append.mp hx with h | h
      · exact hb1 x h
      · exact hb2 x h)
  exact List.mem_append.mp (hmem b hb)

theorem int_desc_card_le {res : List Int} {target : List Nat} {j : Nat}
    (hdesc : res.Pairwise (· > ·))
    (hgt : ∀ a ∈ res, (j : Int) < a)
    (hmem : ∀ a ∈ res, a.toNat ∈ target)
    (htn : target.Nodup) (hj : j ∈ target) :
    res.length + 1 ≤ target.length := by
  have hnng : ∀ a ∈ res, 0 ≤ a := fun a ha => by have := hgt a ha; omega
  have hmapnd : (res.map Int.toNat).Nodup := by
    have hpw : (res.map Int.toNat).Pairwise (· > ·) := by
      rw [List.pairwise_map]
      refine hdesc.imp_of_mem ?_
      intro a b ha hb hab
      have h1 := hnng a ha
      have h2 := hnng b hb
      omega
    exact hpw.imp (fun hab => by omega)
  have hnd : (j :: res.map Int.toNat).Nodup := by
    rw [List.nodup_cons]
    refine ⟨?_, hmapnd⟩
    intro hmem'
    obtain ⟨a, ha, he⟩ := List.mem_map.mp hmem'
    have := hgt a ha
    omega
  have hsub : (j :: res.map Int.toNat).toFinset ⊆ target.toFinset := by
    intro x hx
    rw [List.mem_toFinset] at hx
    rw [List.mem_toFinset]
    rcases List.mem_cons.mp hx with he | hm
    · rw [he]; exact hj
    · obtain ⟨a, ha, he⟩ := List.mem_map.mp hm
      rw [← he]
      exact hmem a ha
  have hcard := Finset.card_le_card hsub
  rw [List.toFinset_card_of_nodup hnd] at hcard
  have hle := List.toFinset_card_le target
  have : (j :: res.map Int.toNat).length ≤ target.toFinset.card := hcard
  have htc : target.toFinset.card = target.length :=
    List.toFinset_card_of_nodup htn
  simp only [List.length_cons, List.length_map] at this
  omega

theorem p1_init {db : Database} (hM : MarkedInv db) :
    P1Inv db.items.length db.cache.length db.blocks db.cacheHoles db
      db.blockHoles (getLastNBlocks db db.blockHoles.length) db.cacheHoles
      [] := by
  obtain ⟨hnd, hbnd0, hlen, hcle, hsorted, hblt, hcheq, hnotin, hfd, hentry⟩ := hM
  have hbnd : (db.items.map (fun p => p.2.block)).Nodup := hbnd0
  have hbhnd : db.blockHoles.Nodup := hsorted.imp (fun hab => by omega)
  have hlblt : ∀ x ∈ db.items.map (fun p => p.2.block), x < db.blocks := by
    intro x hx
    obtain ⟨p, hp, he⟩ := List.mem_map.mp hx
    rw [← he]
    exact (hentry p hp).1
  have hcover := nodup_disjoint_cover hbnd hbhnd
    (by
      intro x hx hmem
      obtain ⟨p, hp, he⟩ := List.mem_map.mp hx
      exact hnotin p hp (he ▸ hmem))
    hlblt hblt
    (by rw [List.length_map]; exact hlen)
  have hfree_live : ∀ b, b < db.blocks → b ∉ db.blockHoles →
      ∃ p ∈ db.items, p.2.block = b := by
    intro b hb hnh
    rcases hcover b hb with hl | hh
    · obtain ⟨p, hp, he⟩ := List.mem_map.mp hl
      exact ⟨p, hp, he⟩
    · exact absurd hh hnh
  have hspec := getLastNAux_spec db.blockHoles db.blockHoles.length
    ((db.blocks : Int) - 1) (db.blockHoles.length + 1) ((db.blocks : Int) - 1) []
    (by simp) (le_refl _) (by simp) (by simp)
    (by intro j hj hfree hlt hjs; exact absurd hjs (by omega))
  obtain ⟨hfdesc, hfmem, hfcpl⟩ := hspec
  refine {
    blocks_eq := rfl
    cache_len := rfl
    ch0_eq := rfl
    ch0_nodup := by
      rw [hcheq]
      exact ((List.Pairwise.sublist (List.filter_sublist _) hsorted).imp
        (fun hab => by omega))
    cle := hcle
    tle := by omega
    fdlen := hfd
    ids_nodup := hnd
    blocks_nodup := hbnd
    items_len := rfl
    blocks_lt := fun p hp => (hentry p hp).1
    hs_sorted := hsorted
    hs_lt := hblt
    hs_ch0 := ?_
    hs_not_live := hnotin
    cover := ?_
    fs_desc := hfdesc
    fs_live := ?_
    fs_top := ?_
    ch_eq := by rw [hcheq]; simp
    ch0_rem := fun x hx _ _ => hx
    disp_blk := fun pr hpr => absurd hpr (List.not_mem_nil _)
    disp_slot := fun pr hpr => absurd hpr (List.not_mem_nil _)
    disp_slot_free := fun pr hpr => absurd hpr (List.not_mem_nil _)
    disp_lt_fs := fun pr hpr => absurd hpr (List.not_mem_nil _)
    disp_lt_hs := fun pr hpr => absurd hpr (List.not_mem_nil _)
    disp_blocks_asc := by simp
    disp_slots_desc := by simp
    disp_live := fun pr hpr => absurd hpr (List.not_mem_nil _)
    live_free_hi := ?_
    slot_cover := ?_
    entry_disp := fun p hp sl hpair => absurd hpair (List.not_mem_nil _)
    entry_main := ?_ }
  · intro x hx hxc
    rw [hcheq, List.mem_filter]
    exact ⟨hx, by simpa using hxc⟩
  · intro b hb
    rcases hcover b (by omega) with hl | hh
    · obtain ⟨p, hp, he⟩ := List.mem_map.mp hl
      exact Or.inl ⟨p, hp, he⟩
    · exact Or.inr hh
  · intro g hg
    unfold getLastNBlocks at hg
    rcases (hfmem g hg).2 with he | ⟨hge, hfree⟩
    · exact Or.inl he
    · right
      refine ⟨hge, ?_⟩
      have hle := (hfmem g hg).1
      have hlt : g.toNat < db.blocks := by omega
      have hnh : g.toNat ∉ db.blockHoles := by
        intro hmem
        exact absurd hmem (by simpa using hfree)
      obtain ⟨p, hp, he⟩ := hfree_live g.toNat hlt hnh
      exact ⟨p, hp, by rw [he]; omega⟩
  · intro q hq hT
    by_contra hnot
    unfold getLastNBlocks at hnot
    have hfree : db.blockHoles.contains ((q.2.block : Int)).toNat = false := by
      simpa using hnotin q hq
    have hble : ((q.2.block : Nat) : Int) ≤ (db.blocks : Int) - 1 := by
      have := (hentry q hq).1
      omega
    obtain ⟨hlb, hgt⟩ := hfcpl ((q.2.block : Nat) : Int) (by omega) hfree hble hnot
    -- every result element maps into the live blocks ≥ T, excluding q's block
    have hcnt := filter_high_length hbnd hbhnd
      (by
        intro x hx hmem
        obtain ⟨p, hp, he⟩ := List.mem_map.mp hx
        exact hnotin p hp (he ▸ hmem))
      hlblt hblt (by rw [List.length_map]; exact hlen) (by rw [List.length_map])
    have hcard := @int_desc_card_le (getLastNAux db.blockHoles
        db.blockHoles.length (db.blockHoles.length + 1) ((db.blocks : Int) - 1) [])
      ((db.items.map (fun p => p.2.block)).filter
        (fun x => db.items.length ≤ x))
      _ hfdesc hgt
      (by
        intro a ha
        have h1 := (hfmem a ha).1
        have h2 := hgt a ha
        rcases (hfmem a ha).2 with he | ⟨hge, hfree'⟩
        · omega
        · have hlt : a.toNat < db.blocks := by omega
          have hnh : a.toNat ∉ db.blockHoles := by
            intro hmem
            exact absurd hmem (by simpa using hfree')
          obtain ⟨p, hp, he⟩ := hfree_live a.toNat hlt hnh
          rw [List.mem_filter]
          refine ⟨he ▸ List.mem_map_of_mem _ hp, ?_⟩
          simp only [decide_eq_true_eq]
          omega)
      ((hbnd.filter _))
      (by
        rw [List.mem_filter]
        refine ⟨List.mem_map_of_mem _ hq, ?_⟩
        simp only [decide_eq_true_eq]
        exact hT)
    have hhole_le : ((db.blockHoles.filter (fun x => x < db.items.length)).length) ≤
        db.blockHoles.length := List.length_filter_le _ _
    omega
  · intro q hq hT
    rw [hcheq]
    intro hmem
    rw [List.mem_filter] at hmem
    exact hnotin q hq hmem.1
  · intro x hT hC
    rcases hcover x (by omega) with hl | hh
    · obtain ⟨p, hp, he⟩ := List.mem_map.mp hl
      exact Or.inr (Or.inr ⟨p, hp, he⟩)
    · left
      rw [hcheq, List.mem_filter]
      exact ⟨hh, by simpa using hC⟩
  · rintro p hp -
    obtain ⟨h1, h2, h3, h4⟩ := hentry p hp
    exact ⟨h2, h3, h4⟩

theorem repairLoop_cons (ncs : Nat) (db : Database) (c : Nat) (cs : List Nat)
    (idx : Int) (t : List Int) :
    repairLoop ncs db (c :: cs) (idx :: t) =
      if c < ncs then
        if idx < 0 then none
        else
          match db.cache.get? idx.toNat with
          | none => none
          | some item =>
            match db.items.lookup item.id with
            | none => none
            | some d =>
              repairLoop ncs
                { db with
                  items := assocSet db.items item.id { d with cacheIndex := (c : Int) }
                  cache := db.cache.set c item }
                cs t
      else repairLoop ncs db cs (idx :: t) := rfl

theorem repairLoop_skip (ncs : Nat) :
    ∀ (rest : List Nat) (tail : List Int) (db : Database),
    (∀ x ∈ rest, ncs ≤ x) →
    repairLoop ncs db rest tail = some db := by
  intro rest
  induction rest with
  | nil => intro tail db _; rfl
  | cons c cs ih =>
    intro tail db hge
    cases tail with
    | nil => rfl
    | cons idx t' =>
      rw [repairLoop_cons]
      rw [if_neg (by have := hge c (List.mem_cons_self _ _); omega)]
      exact ih (idx :: t') db (fun x hx => hge x (List.mem_cons_of_mem _ hx))

theorem repairLoop_run (T C : Nat) :
    ∀ (ds : List (Nat × Nat)) (db : Database) (rest : List Nat) (tail : List Int),
    RInv T C db ds →
    (∀ x ∈ rest, min T C ≤ x) →
    ∃ db3, repairLoop (min T C) db (ds.map Prod.fst ++ rest)
        (ds.map (fun pr => ((pr.2 : Nat) : Int)) ++ tail) = some db3 ∧
      RInv T C db3 [] := by
  intro ds
  induction ds with
  | nil =>
    intro db rest tail hR hrest
    refine ⟨db, ?_, hR⟩
    simp only [List.map_nil, List.nil_append]
    exact repairLoop_skip _ rest tail db hrest
  | cons pr0 ds' ih =>
    intro db rest tail hR hrest
    obtain ⟨c, sl⟩ := pr0
    have hhead : ((c, sl)) ∈ (c, sl) :: ds' := List.mem_cons_self _ _
    obtain ⟨p, hp, hpb, hpc, hpci, hpget, hpdok⟩ := hR.entry_ds _ hhead
    have hcT : c < T := (hR.ds_blk _ hhead).1
    have hcC : c < C := (hR.ds_blk _ hhead).2
    have hslT : T ≤ sl := (hR.ds_slot _ hhead).1
    have hslC : sl < C := (hR.ds_slot _ hhead).2
    obtain ⟨item, hget, hiid⟩ : ∃ item, db.cache.get? sl = some item ∧
        item.id = p.1 := by
      cases hg : db.cache.get? sl with
      | none => rw [hg] at hpget; cases hpget
      | some it =>
        rw [hg] at hpget
        exact ⟨it, rfl, by simpa using hpget⟩
    have hlk : db.items.lookup p.1 = some p.2 := lookup_of_mem_nodup hR.ids_nodup hp
    rw [List.map_cons, List.map_cons, List.cons_append, List.cons_append,
      repairLoop_cons]
    rw [if_pos (by omega), if_neg (by omega)]
    rw [show ((sl : Nat) : Int).toNat = sl from by omega]
    simp only [hget, hiid, hlk]
    obtain ⟨m1, m2, hbsplit, hbset, hkeys, hlenS⟩ :=
      @assocSet_blocks_split _ _ _ { p.2 with cacheIndex := (c : Int) }
        hR.ids_nodup hlk
    have hmem_iff := @assocSet_mem_iff _ _ _ { p.2 with cacheIndex := (c : Int) }
      hR.ids_nodup hlk
    have hqne : ∀ q ∈ db.items, q ≠ p → q.1 ≠ p.1 :=
      fun q hq hne he => hne (key_eq_of_nodup hR.ids_nodup hq hp he)
    have hqmem : ∀ q ∈ db.items, q ≠ p →
        q ∈ assocSet db.items p.1 { p.2 with cacheIndex := (c : Int) } :=
      fun q hq hne => (hmem_iff q).mpr (Or.inr ⟨hq, hqne q hq hne⟩)
    have hcnotin : c ∉ ds'.map Prod.fst := by
      have := hR.ds_blocks_nodup
      rw [List.map_cons, List.nodup_cons] at this
      exact this.1
    have hRnew : RInv T C
        { db with
          items := assocSet db.items p.1 { p.2 with cacheIndex := (c : Int) }
          cache := db.cache.set c item } ds' := by
      refine {
        blocks_eq := hR.blocks_eq
        cache_len := ?_
        bh_nil := hR.bh_nil
        ids_nodup := ?_
        blocks_nodup := ?_
        items_len := ?_
        compact := ?_
        fdlen := hR.fdlen
        ds_blk := fun pr hpr => hR.ds_blk pr (List.mem_cons_of_mem _ hpr)
        ds_slot := fun pr hpr => hR.ds_slot pr (List.mem_cons_of_mem _ hpr)
        ds_blocks_nodup := ?_
        entry_ds := ?_
        entry_done := ?_ }
      · show (db.cache.set c item).length = C
        rw [List.length_set]
        exact hR.cache_len
      · show ((assocSet db.items p.1 { p.2 with cacheIndex := (c : Int) }).map Prod.fst).Nodup
        rw [hkeys]
        exact hR.ids_nodup
      · show ((assocSet db.items p.1 { p.2 with cacheIndex := (c : Int) }).map (fun q => q.2.block)).Nodup
        rw [hbset, show (({ p.2 with cacheIndex := (c : Int) } : ItemData)).block = p.2.block from rfl, ← hbsplit]
        exact hR.blocks_nodup
      · show (assocSet db.items p.1 { p.2 with cacheIndex := (c : Int) }).length = T
        rw [hlenS]
        exact hR.items_len
      · intro q hq
        rcases (hmem_iff q).mp hq with he | ⟨hold, -⟩
        · rw [he]
          exact hR.compact p hp
        · exact hR.compact q hold
      · have := hR.ds_blocks_nodup
        rw [List.map_cons, List.nodup_cons] at this
        exact this.2
      · intro pr hpr
        obtain ⟨q, hq, hqb, hqc, hqci, hqget, hqdok⟩ :=
          hR.entry_ds pr (List.mem_cons_of_mem _ hpr)
        have hbne : pr.1 ≠ c := by
          intro he
          exact hcnotin (he ▸ List.mem_map_of_mem _ hpr)
        have hqp : q ≠ p := by
          intro he
          rw [he, hpb] at hqb
          exact hbne hqb.symm
        refine ⟨q, hqmem q hq hqp, hqb, hqc, hqci, ?_, hqdok⟩
        show ((db.cache.set c item).get? pr.2).map Item.id = some q.1
        have hslne : c ≠ pr.2 := by
          have := (hR.ds_slot pr (List.mem_cons_of_mem _ hpr)).1
          omega
        rw [List.get?_set_ne _ _ hslne]
        exact hqget
      · intro q hq hnd
        rcases (hmem_iff q).mp hq with he | ⟨hold, hne⟩
        · refine ⟨⟨fun _ => ?_, fun _ => ?_⟩, fun _ => ⟨?_, ?_⟩, ?_⟩
          · rw [he]
            show p.2.block < C
            omega
          · rw [he]
            exact hpc
          · rw [he]
            show (c : Int) = (p.2.block : Int)
            rw [hpb]
          · rw [he]
            show ((db.cache.set c item).get? p.2.block).map Item.id = some p.1
            rw [hpb]
            have hgetc : (db.cache.set c item).get? c = some item :=
              List.get?_set_eq_of_lt _ (by rw [hR.cache_len]; omega)
            rw [hgetc]
            simp [hiid]
          · rw [he]
            exact hpdok
        · have hqp : q ≠ p := fun he2 => hne (by rw [he2])
          have hbne : q.2.block ≠ c := by
            intro he2
            apply hqp
            apply block_eq_of_nodup hR.blocks_nodup hold hp
            rw [he2, hpb]
          obtain ⟨hiff, hal, hdok⟩ := hR.entry_done q hold (by
            intro hmem
            rcases List.mem_cons.mp (by rw [List.map_cons] at hmem; exact hmem) with he2 | hm
            · exact hbne he2
            · exact hnd hm)
          refine ⟨hiff, fun hc2 => ?_, hdok⟩
          obtain ⟨a1, a2⟩ := hal hc2
          refine ⟨a1, ?_⟩
          show ((db.cache.set c item).get? q.2.block).map Item.id = some q.1
          rw [List.get?_set_ne _ _ (fun he2 => hbne he2.symm)]
          exact a2
    exact ih _ rest tail hRnew hrest

theorem interval_split_length {T C : Nat} {l1 l2 : List Nat}
    (h1 : l1.Nodup) (h2 : l2.Nodup) (hdisj : ∀ x ∈ l1, x ∉ l2)
    (hm1 : ∀ x ∈ l1, T ≤ x ∧ x < C) (hm2 : ∀ x ∈ l2, T ≤ x ∧ x < C)
    (hcov : ∀ x, T ≤ x → x < C → x ∈ l1 ∨ x ∈ l2) :
    l1.length + l2.length = C - T := by
  have hnd : (l1 ++ l2).Nodup := by
    rw [List.nodup_append]
    exact ⟨h1, h2, fun a ha hb => hdisj a ha hb⟩
  have hset : (l1 ++ l2).toFinset = Finset.Ico T C := by
    ext x
    rw [List.mem_toFinset, List.mem_append, Finset.mem_Ico]
    constructor
    · intro h
      rcases h with h | h
      · exact hm1 x h
      · exact hm2 x h
    · rintro ⟨ha, hb⟩
      exact hcov x ha hb
  have hcard := congrArg Finset.card hset
  rw [List.toFinset_card_of_nodup hnd, Nat.card_Ico] at hcard
  rw [← List.length_append]
  exact hcard

theorem cacheIndices_split {T C n : Nat} {ch0 : List Nat} {slots : List Nat}
    (hslots_desc : slots.Pairwise (· > ·))
    (hslots_mem : ∀ x ∈ slots, T ≤ x ∧ x < C)
    (hslots_free : ∀ x ∈ slots, x ∉ ch0)
    (hcov : ∀ x, T ≤ x → x < C → x ∉ ch0 → x ∈ slots)
    (hn : slots.length ≤ n) :
    ∃ tail, getLastNAux ch0 n (n + 1) ((C : Int) - 1) [] =
      slots.map (fun x => ((x : Nat) : Int)) ++ tail ∧
      ∀ a ∈ tail, a < (T : Int) := by
  obtain ⟨hdesc, hmem, hcpl⟩ := getLastNAux_spec ch0 n ((C : Int) - 1) (n + 1)
    ((C : Int) - 1) [] (by simp) (le_refl _) (by simp) (by simp)
    (by intro j hj hfree hlt hjs; exact absurd hjs (by omega))
  have hslots_nd : slots.Nodup := hslots_desc.imp (fun hab => by omega)
  have hin : ∀ s ∈ slots, ((s : Nat) : Int) ∈
      getLastNAux ch0 n (n + 1) ((C : Int) - 1) [] := by
    intro s hs
    by_contra hnot
    have hfree : ch0.contains ((s : Nat) : Int).toNat = false := by
      simpa using hslots_free s hs
    have hle : ((s : Nat) : Int) ≤ (C : Int) - 1 := by
      have := (hslots_mem s hs).2
      omega
    obtain ⟨hlb, hgt⟩ := hcpl ((s : Nat) : Int) (by omega) hfree hle hnot
    have hcard := @int_desc_card_le _ slots _ hdesc hgt
      (by
        intro a ha
        have h1 := (hmem a ha).1
        have h2 := hgt a ha
        have hsT := (hslots_mem s hs).1
        rcases (hmem a ha).2 with he | ⟨hge, hfree'⟩
        · omega
        · apply hcov a.toNat (by omega) (by omega)
          intro hmemc
          exact absurd hmemc (by simpa using hfree'))
      hslots_nd hs
    omega
  obtain ⟨l2, hsplit, hl2⟩ := desc_filter_prefix T hdesc
  have heq : (getLastNAux ch0 n (n + 1) ((C : Int) - 1) []).filter
      (fun a => (T : Int) ≤ a) = slots.map (fun x => ((x : Nat) : Int)) := by
    have hnd1 : ((getLastNAux ch0 n (n + 1) ((C : Int) - 1) []).filter
        (fun a => (T : Int) ≤ a)).Nodup :=
      (hdesc.imp (fun hab => by omega)).filter _
    have hnd2 : (slots.map (fun x => ((x : Nat) : Int))).Nodup := by
      have : (slots.map (fun x => ((x : Nat) : Int))).Pairwise (· > ·) := by
        rw [List.pairwise_map]
        exact hslots_desc.imp_of_mem (fun _ _ hab => by omega)
      exact this.imp (fun hab => by omega)
    have hsub1 : (getLastNAux ch0 n (n + 1) ((C : Int) - 1) []).filter
        (fun a => (T : Int) ≤ a) ⊆ slots.map (fun x => ((x : Nat) : Int)) := by
      intro a ha
      rw [List.mem_filter] at ha
      obtain ⟨ha1, ha2⟩ := ha
      have haT : (T : Int) ≤ a := by simpa using ha2
      have h1 := (hmem a ha1).1
      rcases (hmem a ha1).2 with he | ⟨hge, hfree'⟩
      · rw [List.mem_map]
        exfalso
        omega
      · have hm : a.toNat ∈ slots := by
          apply hcov a.toNat (by omega) (by omega)
          intro hmemc
          exact absurd hmemc (by simpa using hfree')
        rw [List.mem_map]
        exact ⟨a.toNat, hm, by omega⟩
    have hsub2 : slots.map (fun x => ((x : Nat) : Int)) ⊆
        (getLastNAux ch0 n (n + 1) ((C : Int) - 1) []).filter
          (fun a => (T : Int) ≤ a) := by
      intro a ha
      obtain ⟨s, hs, he⟩ := List.mem_map.mp ha
      rw [List.mem_filter]
      refine ⟨he ▸ hin s hs, ?_⟩
      have := (hslots_mem s hs).1
      simp only [decide_eq_true_eq]
      omega
    have hperm := List.Subperm.antisymm
      (List.subperm_of_subset hnd1 hsub1)
      (List.subperm_of_subset hnd2 hsub2)
    haveI : IsAntisymm Int (· > ·) := ⟨fun a b h1 h2 => absurd h1 (by omega)⟩
    exact List.eq_of_perm_of_sorted hperm
      (List.Pairwise.sublist (List.filter_sublist _) hdesc)
      (by
        rw [List.Sorted, List.pairwise_map]
        exact hslots_desc.imp_of_mem (fun _ _ hab => by omega))
  exact ⟨l2, by rw [hsplit, heq], hl2⟩

theorem p1post_rinv {T C B : Nat} {ch0 : List Nat} {db1 : Database}
    {rest : List Nat} {disp : List (Nat × Nat)} {L : Nat}
    (hpost : P1Post T C B ch0 db1 rest disp) :
    RInv T C (truncateFile { db1 with blockHoles := [], blocks := T } L T)
      disp := by
  have hdok2 : ∀ q ∈ db1.items, q.2.block < T →
      diskIdOKB (truncateFile { db1 with blockHoles := [], blocks := T } L T) q =
        diskIdOKB db1 q := by
    intro q hq hlt
    unfold truncateFile diskIdOKB
    simp only
    rw [List.get?_take hlt]
  refine {
    blocks_eq := rfl
    cache_len := hpost.cache_len
    bh_nil := rfl
    ids_nodup := hpost.ids_nodup
    blocks_nodup := hpost.blocks_nodup
    items_len := hpost.items_len
    compact := hpost.compact
    fdlen := ?_
    ds_blk := hpost.disp_blk
    ds_slot := hpost.disp_slot
    ds_blocks_nodup := hpost.disp_blocks_asc.imp (fun hab => by omega)
    entry_ds := ?_
    entry_done := ?_ }
  · show (db1.fileData.take T).length ≤ T
    rw [List.length_take]
    omega
  · intro pr hpr
    obtain ⟨q, hq, hqb⟩ := hpost.disp_live pr hpr
    have hpair : (q.2.block, pr.2) ∈ disp := by
      rw [hqb]
      exact hpr
    obtain ⟨c1, c2, c3, c4⟩ := hpost.entry_disp q hq pr.2 hpair
    refine ⟨q, hq, hqb, c1, c2, c3, ?_⟩
    rw [hdok2 q hq (hpost.compact q hq)]
    exact c4
  · intro q hq hnd
    obtain ⟨hiff, hal, hdok⟩ := hpost.entry_main q hq hnd
    refine ⟨hiff, hal, ?_⟩
    rw [hdok2 q hq (hpost.compact q hq)]
    exact hdok

theorem rinv_final {T C : Nat} {db : Database} (hR : RInv T C db []) :
    StateInv { db with cache := db.cache.take (min T C), cacheHoles := [] } := by
  refine ⟨hR.ids_nodup, hR.blocks_nodup, ?_, ?_, hR.bh_nil, rfl, ?_, ?_⟩
  · show db.items.length = db.blocks
    rw [hR.blocks_eq, hR.items_len]
  · show (db.cache.take (min T C)).length ≤ db.blocks
    rw [List.length_take, hR.cache_len, hR.blocks_eq]
    omega
  · show db.fileData.length ≤ db.blocks
    rw [hR.blocks_eq]
    exact hR.fdlen
  · intro p hp
    obtain ⟨hiff, hal, hdok⟩ := hR.entry_done p hp (List.not_mem_nil _)
    have hcompact := hR.compact p hp
    refine ⟨?_, ?_, ?_, hdok⟩
    · show p.2.block < db.blocks
      rw [hR.blocks_eq]
      exact hcompact
    · show p.2.cached = true ↔ p.2.block < (db.cache.take (min T C)).length
      rw [List.length_take, hR.cache_len]
      constructor
      · intro hc
        have := hiff.mp hc
        omega
      · intro hlt
        exact hiff.mpr (by omega)
    · intro hc
      obtain ⟨a1, a2⟩ := hal hc
      refine ⟨a1, ?_⟩
      show ((db.cache.take (min T C)).get? p.2.block).map Item.id = some p.1
      have hbc := hiff.mp hc
      rw [List.get?_take (by omega)]
      exact a2

theorem fillHoles_eq2 (db0 db1 : Database) (chRem : List Nat) (T : Nat)
    (h : fillHolesPhase1 db0 db0.blockHoles
      (getLastNBlocks db0 db0.blockHoles.length) db0.cacheHoles =
        some (db1, chRem))
    (hT : db0.blocks - db0.blockHoles.length = T) :
    fillHoles db0 =
      match (if 0 < chRem.length then
          repairLoop (min T (db1.cache.length - chRem.length))
            (truncateFile { db1 with blockHoles := [], blocks := T }
              (headerLength + T * db1.blockSize) T)
            chRem
            (getLastNCacheIndices
              (truncateFile { db1 with blockHoles := [], blocks := T }
                (headerLength + T * db1.blockSize) T) chRem.length)
        else some (truncateFile { db1 with blockHoles := [], blocks := T }
          (headerLength + T * db1.blockSize) T)) with
      | none => none
      | some db3 => some { db3 with
          cache := db3.cache.take (min T (db1.cache.length - chRem.length))
          cacheHoles := [] } := by
  subst hT
  unfold fillHoles
  simp only [h]
  rfl

theorem fillHoles_stateInv {db0 s' : Database}
    (hM : MarkedInv db0) (hfill : fillHoles db0 = some s') : StateInv s' := by
  cases hph1 : fillHolesPhase1 db0 db0.blockHoles
      (getLastNBlocks db0 db0.blockHoles.length) db0.cacheHoles with
  | none =>
    unfold fillHoles at hfill
    simp only [hph1] at hfill
    exact Option.noConfusion hfill
  | some pr =>
    obtain ⟨db1, chRem⟩ := pr
    have hlen := hM.2.2.1
    have hTeq : db0.blocks - db0.blockHoles.length = db0.items.length := by omega
    rw [fillHoles_eq2 db0 db1 chRem db0.items.length hph1 hTeq] at hfill
    obtain ⟨disp, rest, hchr, hpost⟩ := fillHolesPhase1_master db0.items.length
      db0.cache.length db0.blocks db0.cacheHoles db0.blockHoles
      (getLastNBlocks db0 db0.blockHoles.length) db0 db0.cacheHoles [] db1 chRem
      (p1_init hM) hph1
    rw [hpost.cache_len] at hfill
    rcases Nat.lt_or_ge db0.items.length db0.cache.length with hTC | hCT
    · -- the cache is longer than the target: the repair loop runs
      have hslots_nd : (disp.map Prod.snd).Nodup :=
        hpost.disp_slots_desc.imp (fun hab => by omega)
      have hrest_nd : rest.Nodup := hpost.rest_sorted.imp (fun hab => by omega)
      have hslots_mem : ∀ x ∈ disp.map Prod.snd,
          db0.items.length ≤ x ∧ x < db0.cache.length := by
        intro x hx
        obtain ⟨pr2, hpr2, he⟩ := List.mem_map.mp hx
        rw [← he]
        exact hpost.disp_slot pr2 hpr2
      have hslots_free : ∀ x ∈ disp.map Prod.snd, x ∉ db0.cacheHoles := by
        intro x hx
        obtain ⟨pr2, hpr2, he⟩ := List.mem_map.mp hx
        rw [← he]
        exact hpost.disp_slot_free pr2 hpr2
      have hil := interval_split_length hslots_nd hrest_nd
        (fun x hx hmem => hslots_free x hx (hpost.rest_sub x hmem))
        hslots_mem hpost.rest_hi
        (by
          intro x hT hC
          rcases hpost.slot_cover x hT hC with hch0 | hsl
          · exact Or.inr (hpost.rest_complete x hch0 hT hC)
          · exact Or.inl hsl)
      have hlen2 : chRem.length = db0.cache.length - db0.items.length := by
        rw [hchr, List.length_append, List.length_map]
        rw [List.length_map] at hil
        omega
      have hpos : 0 < chRem.length := by omega
      rw [if_pos hpos] at hfill
      have hmin : min db0.items.length (db0.cache.length - chRem.length) =
          min db0.items.length db0.cache.length := by omega
      rw [hmin] at hfill
      have hidx : getLastNCacheIndices
          (truncateFile { db1 with blockHoles := [], blocks := db0.items.length }
            (headerLength + db0.items.length * db1.blockSize) db0.items.length)
          chRem.length =
        getLastNAux db0.cacheHoles chRem.length (chRem.length + 1)
          ((db0.cache.length : Int) - 1) [] := by
        show getLastNAux db1.cacheHoles chRem.length (chRem.length + 1)
          ((db1.cache.length : Int) - 1) [] = _
        rw [hpost.ch0_eq, hpost.cache_len]
      obtain ⟨tail, heq, htail⟩ := cacheIndices_split (n := chRem.length)
        hpost.disp_slots_desc hslots_mem hslots_free
        (by
          intro x hT hC hnc
          rcases hpost.slot_cover x hT hC with hch0 | hsl
          · exact absurd hch0 hnc
          · exact hsl)
        (by rw [List.length_map, hchr, List.length_append, List.length_map]; omega)
      rw [hidx, heq] at hfill
      rw [show (disp.map Prod.snd).map (fun x => ((x : Nat) : Int)) =
        disp.map (fun pr2 => ((pr2.2 : Nat) : Int)) from by rw [List.map_map]; rfl]
        at hfill
      rw [hchr] at hfill
      obtain ⟨db3, hrun, hR3⟩ := repairLoop_run db0.items.length db0.cache.length
        disp
        (truncateFile { db1 with blockHoles := [], blocks := db0.items.length }
          (headerLength + db0.items.length * db1.blockSize) db0.items.length)
        rest tail (p1post_rinv hpost)
        (by
          intro x hx
          have := (hpost.rest_hi x hx).1
          omega)
      rw [hrun] at hfill
      have hs'eq : some ({ db3 with
          cache := db3.cache.take (min db0.items.length db0.cache.length)
          cacheHoles := [] } : Database) = some s' := hfill
      have hs2 : ({ db3 with
          cache := db3.cache.take (min db0.items.length db0.cache.length)
          cacheHoles := [] } : Database) = s' := by injection hs'eq
      rw [← hs2]
      exact rinv_final hR3
    · -- the cache is within the target: nothing to repair
      have hdisp : disp = [] := by
        cases disp with
        | nil => rfl
        | cons pr2 ds' =>
          exfalso
          have h1 := hpost.disp_slot pr2 (List.mem_cons_self _ _)
          omega
      have hrest : rest = [] := by
        cases rest with
        | nil => rfl
        | cons x xs =>
          exfalso
          have h1 := hpost.rest_hi x (List.mem_cons_self _ _)
          omega
      have hchRem : chRem = [] := by
        rw [hchr, hdisp, hrest]
        rfl
      rw [hchRem] at hfill
      rw [if_neg (by simp)] at hfill
      have hmin2 : min db0.items.length
          (db0.cache.length - ([] : List Nat).length) =
          min db0.items.length db0.cache.length := by simp
      rw [hmin2] at hfill
      have hR2 := p1post_rinv (L := headerLength + db0.items.length * db1.blockSize) hpost
      rw [hdisp] at hR2
      have hs'eq : some ({ (truncateFile
          { db1 with blockHoles := [], blocks := db0.items.length }
          (headerLength + db0.items.length * db1.blockSize)
          db0.items.length) with
          cache := (truncateFile
            { db1 with blockHoles := [], blocks := db0.items.length }
            (headerLength + db0.items.length * db1.blockSize)
            db0.items.length).cache.take
              (min db0.items.length db0.cache.length)
          cacheHoles := [] } : Database) = some s' := hfill
      have hs2 : ({ (truncateFile
          { db1 with blockHoles := [], blocks := db0.items.length }
          (headerLength + db0.items.length * db1.blockSize)
          db0.items.length) with
          cache := (truncateFile
            { db1 with blockHoles := [], blocks := db0.items.length }
            (headerLength + db0.items.length * db1.blockSize)
            db0.items.length).cache.take
              (min db0.items.length db0.cache.length)
          cacheHoles := [] } : Database) = s' := by injection hs'eq
      rw [← hs2]
      exact rinv_final hR2

theorem setField_id {it : Item} {k : String} {v : Val} {it' : Item}
    (h : it.setField k v = some it') :
    it'.id = it.id ∨ (k = "_id" ∧ ∃ x, v = .prim (.pstr x) ∧ it'.id = x) := by
  unfold Item.setField at h
  by_cases hk : k = "_id"
  · rw [if_pos hk] at h
    match v with
    | .prim (.pstr x) =>
      right
      refine ⟨hk, x, rfl, ?_⟩
      have : some ({ it with id := x } : Item) = some it' := h
      have h2 : ({ it with id := x } : Item) = it' := by injection this
      rw [← h2]
    | .prim (.pint _) => exact Option.noConfusion h
    | .prim (.pbool _) => exact Option.noConfusion h
    | .prim .pnull => exact Option.noConfusion h
    | .varr _ => exact Option.noConfusion h
  · rw [if_neg hk] at h
    left
    by_cases hp : ((it.fields.lookup k).isSome)
    · rw [if_pos hp] at h
      have h2 : ({ it with fields := it.fields.map fun kv =>
          if kv.1 = k then (k, v) else kv } : Item) = it' := by injection h
      rw [← h2]
    · rw [if_neg hp] at h
      have h2 : ({ it with fields := it.fields ++ [(k, v)] } : Item) = it' := by
        injection h
      rw [← h2]

theorem setFold_id : ∀ (kvs : List (String × Val)) (it it' : Item),
    kvs.foldlM (fun acc kv => acc.setField kv.1 kv.2) it = some it' →
    it'.id = it.id ∨ it'.id ∈ kvs.filterMap (fun kv =>
      if kv.1 = "_id" then
        match kv.2 with
        | .prim (.pstr x) => some x
        | _ => none
      else none) := by
  intro kvs
  induction kvs with
  | nil =>
    intro it it' h
    have h2 : it = it' := by injection h
    exact Or.inl (by rw [h2])
  | cons kv rest ih =>
    intro it it' h
    rw [show (kv :: rest).foldlM (fun acc kv => acc.setField kv.1 kv.2) it =
      (it.setField kv.1 kv.2).bind fun it1 =>
        rest.foldlM (fun acc kv => acc.setField kv.1 kv.2) it1 from rfl] at h
    match hsf : it.setField kv.1 kv.2 with
    | none => rw [hsf] at h; cases h
    | some it1 =>
      rw [hsf] at h
      simp only [Option.some_bind] at h
      rcases ih it1 it' h with he | hm
      · rcases setField_id hsf with he2 | ⟨hk, x, hv, hx⟩
        · exact Or.inl (by rw [he, he2])
        · right
          rw [List.mem_filterMap]
          exact ⟨kv, List.mem_cons_self _ _, by
            rw [if_pos hk, hv]
            rw [he, hx]⟩
      · right
        rw [List.mem_filterMap] at hm ⊢
        obtain ⟨x, hx, he⟩ := hm
        exact ⟨x, List.mem_cons_of_mem _ hx, he⟩

theorem unsetFold_id : ∀ (ks : List String) (it : Item),
    (ks.foldl (fun acc k => acc.unsetField k) it).id = it.id ∨
    (ks.foldl (fun acc k => acc.unsetField k) it).id = "" := by
  intro ks
  induction ks with
  | nil => intro it; exact Or.inl rfl
  | cons k rest ih =>
    intro it
    rw [List.foldl_cons]
    by_cases hk : k = "_id"
    · have hunset : it.unsetField k = { it with id := "" } := by
        unfold Item.unsetField
        rw [if_pos hk]
      rw [hunset]
      rcases ih { it with id := "" } with he | he
      · exact Or.inr he
      · exact Or.inr he
    · have hunset : it.unsetField k =
          { it with fields := it.fields.filter fun kv => kv.1 ≠ k } := by
        unfold Item.unsetField
        rw [if_neg hk]
      rw [hunset]
      rcases ih { it with fields := it.fields.filter fun kv => kv.1 ≠ k } with he | he
      · exact Or.inl he
      · exact Or.inr he

theorem pushOp_id (fu : Bool) : ∀ (l : List (String × PushArg)) (it it' : Item),
    pushOp fu it l = some it' → it'.id = it.id := by
  intro l
  induction l with
  | nil =>
    intro it it' h
    have h2 : it = it' := by injection h
    rw [h2]
  | cons ka rest ih =>
    intro it it' h
    rw [show pushOp fu it (ka :: rest) =
      match it.get ka.1 with
      | some (.varr l) =>
        match pushKey fu l ka.2 with
        | some l' =>
          match it.setField ka.1 (.varr l') with
          | some it1 => pushOp fu it1 rest
          | none => none
        | none => none
      | _ => none from by
        obtain ⟨k, a⟩ := ka
        rfl] at h
    match hg : it.get ka.1 with
    | some (.varr lv) =>
      simp only [hg] at h
      match hpk : pushKey fu lv ka.2 with
      | none => simp only [hpk] at h; exact Option.noConfusion h
      | some l' =>
        simp only [hpk] at h
        match hsf : it.setField ka.1 (.varr l') with
        | none => simp only [hsf] at h; exact Option.noConfusion h
        | some it1 =>
          simp only [hsf] at h
          have hid1 : it1.id = it.id := by
            rcases setField_id hsf with he | ⟨-, x, hv, -⟩
            · exact he
            · cases hv
          rw [ih it1 it' h, hid1]
    | some (.prim p) => simp only [hg] at h; exact Option.noConfusion h
    | none => simp only [hg] at h; exact Option.noConfusion h

theorem incFold_id : ∀ (kvs : List (String × Int)) (it it' : Item),
    kvs.foldlM (fun acc kv =>
      match acc.get kv.1 with
      | some (.prim (.pint m)) => acc.setField kv.1 (.prim (.pint (m + kv.2)))
      | _ => none) it = some it' → it'.id = it.id := by
  intro kvs
  induction kvs with
  | nil =>
    intro it it' h
    have h2 : it = it' := by injection h
    rw [h2]
  | cons kv rest ih =>
    intro it it' h
    rw [List.foldlM_cons] at h
    match hg : it.get kv.1 with
    | some (.prim (.pint m)) =>
      simp only [hg] at h
      match hsf : it.setField kv.1 (.prim (.pint (m + kv.2))) with
      | none => simp only [hsf] at h; exact Option.noConfusion h
      | some it1 =>
        simp only [hsf, Option.some_bind] at h
        have hid1 : it1.id = it.id := by
          rcases setField_id hsf with he | ⟨-, x, hv, -⟩
          · exact he
          · cases hv
        rw [ih it1 it' h, hid1]
    | some (.prim (.pstr _)) => simp only [hg] at h; exact Option.noConfusion h
    | some (.prim (.pbool _)) => simp only [hg] at h; exact Option.noConfusion h
    | some (.prim .pnull) => simp only [hg] at h; exact Option.noConfusion h
    | some (.varr _) => simp only [hg] at h; exact Option.noConfusion h
    | none => simp only [hg] at h; exact Option.noConfusion h

theorem applyUpdate_id : ∀ (upd : Update) (it it' : Item),
    applyUpdate it upd = some it' →
    it'.id = it.id ∨ it'.id ∈ updAssignedIds upd ∨ it'.id = "" := by
  intro upd
  induction upd with
  | nil =>
    intro it it' h
    have h2 : it = it' := by injection h
    exact Or.inl (by rw [h2])
  | cons op rest ih =>
    intro it it' h
    rw [show applyUpdate it (op :: rest) =
      (applyUpdOp it op).bind fun it1 => applyUpdate it1 rest from rfl] at h
    match hop : applyUpdOp it op with
    | none => rw [hop] at h; cases h
    | some it1 =>
      rw [hop] at h
      simp only [Option.some_bind] at h
      have hrest := ih it1 it' h
      have hop1 : it1.id = it.id ∨
          it1.id ∈ updAssignedIds [op] ∨ it1.id = "" := by
        cases op with
        | set kvs =>
          rcases setFold_id kvs it it1 hop with he | hm
          · exact Or.inl he
          · right
            left
            show it1.id ∈ (kvs.filterMap fun kv =>
              if kv.1 = "_id" then
                match kv.2 with
                | .prim (.pstr x) => some x
                | _ => none
              else none) ++ []
            rw [List.append_nil]
            exact hm
        | unset ks =>
          have h2 : ks.foldl (fun acc k => acc.unsetField k) it = it1 := by
            injection hop
          rcases unsetFold_id ks it with he | he
          · exact Or.inl (by rw [← h2]; exact he)
          · exact Or.inr (Or.inr (by rw [← h2]; exact he))
        | inc kvs => exact Or.inl (incFold_id kvs it it1 hop)
        | push kvs => exact Or.inl (pushOp_id false kvs it it1 hop)
        | addToSet kvs => exact Or.inl (pushOp_id true kvs it it1 hop)
        | assign k v =>
          rcases setField_id hop with he | ⟨hk, x, hv, hx⟩
          · exact Or.inl he
          · right
            left
            show it1.id ∈ (if k = "_id" then
                match v with
                | .prim (.pstr x) => some x
                | _ => none
              else none).toList ++ []
            rw [List.append_nil, if_pos hk, hv, hx]
            simp
      have happ : ∀ x, x ∈ updAssignedIds [op] ∨ x ∈ updAssignedIds rest →
          x ∈ updAssignedIds (op :: rest) := by
        intro x hx
        show x ∈ updAssignedIds (op :: rest)
        have hsplit : updAssignedIds (op :: rest) =
            updAssignedIds [op] ++ updAssignedIds rest := by
          cases op <;> simp [updAssignedIds]
        rw [hsplit, List.mem_append]
        exact hx
      rcases hrest with he | hm | hb
      · rcases hop1 with he1 | hm1 | hb1
        · exact Or.inl (by rw [he, he1])
        · exact Or.inr (Or.inl (happ _ (Or.inl (he ▸ hm1))))
        · exact Or.inr (Or.inr (by rw [he, hb1]))
      · exact Or.inr (Or.inl (happ _ (Or.inr hm)))
      · exact Or.inr (Or.inr hb)

theorem resize_keys {db db' : Database} {bs : Nat}
    (hn : (db.items.map Prod.fst).Nodup) (h : resize db bs = some db') :
    ∀ key ∈ db'.items.map Prod.fst, key ∈ db.items.map Prod.fst := by
  intro key hk
  have hs := lookup_isSome_iff.mpr hk
  match hl : db'.items.lookup key with
  | none => rw [hl] at hs; cases hs
  | some d' =>
    obtain ⟨-, g3⟩ := resize_track hn h
    obtain ⟨d, hd, -⟩ := g3 key d' hl
    exact lookup_isSome_iff.mp (by rw [hd]; rfl)

theorem assocSet_keys_mem {l : List (String × ItemData)} {k : String}
    {d : ItemData} :
    ∀ key ∈ (assocSet l k d).map Prod.fst, key ∈ l.map Prod.fst ∨ key = k := by
  intro key hk
  by_cases hs : (l.lookup k).isSome
  · rw [assocSet_keys hs] at hk
    exact Or.inl hk
  · have hnone : l.lookup k = none := by
      cases hl : l.lookup k
      · rfl
      · rw [hl] at hs; exact absurd rfl hs
    rw [assocSet_absent_eq d hnone, List.map_append, List.mem_append] at hk
    rcases hk with h1 | h2
    · exact Or.inl h1
    · right
      simpa using h2

theorem assocSet_keys_nodup {l : List (String × ItemData)} {k : String}
    {d : ItemData} (hn : (l.map Prod.fst).Nodup) :
    ((assocSet l k d).map Prod.fst).Nodup := by
  by_cases hs : (l.lookup k).isSome
  · rw [assocSet_keys hs]
    exact hn
  · have hnone : l.lookup k = none := by
      cases hl : l.lookup k
      · rfl
      · rw [hl] at hs; exact absurd rfl hs
    rw [assocSet_absent_eq d hnone, List.map_append]
    rw [List.nodup_append]
    refine ⟨hn, by simp, ?_⟩
    intro a ha hb
    have hb' : a = k := by simpa using hb
    rw [hb'] at ha
    exact lookup_eq_none_iff.mp hnone ha

theorem insert_resized_keys {dbB : Database} {item : Item} {bC block : Nat}
    {s' : Database}
    (hn : (dbB.items.map Prod.fst).Nodup)
    (h : (match (if dbB.blockSize < item.encLen then
          (if 1 < dbB.blocks then resize dbB (nextPow2 item.encLen)
           else some { dbB with blockSize := nextPow2 item.encLen })
        else some dbB) with
      | none => none
      | some db1 =>
        match db1.items.lookup item.id with
        | none => none
        | some d' =>
          some (writeToBlock
            (if d'.cached then
              { db1 with cache := db1.cache.set d'.cacheIndex.toNat item }
            else if bC ≤ db1.cache.length ∧
                db1.blockSize * (db1.cache.length + 1) ≤ db1.maxCacheSize then
              { db1 with
                items := assocSet db1.items item.id
                  { d' with cached := true, cacheIndex := (db1.cache.length : Int) }
                cache := db1.cache ++ [item] }
            else db1) block item
            (if d'.cached then
              { db1 with cache := db1.cache.set d'.cacheIndex.toNat item }
            else if bC ≤ db1.cache.length ∧
                db1.blockSize * (db1.cache.length + 1) ≤ db1.maxCacheSize then
              { db1 with
                items := assocSet db1.items item.id
                  { d' with cached := true, cacheIndex := (db1.cache.length : Int) }
                cache := db1.cache ++ [item] }
            else db1).blockSize)) = some s') :
    ∀ key ∈ s'.items.map Prod.fst, key ∈ dbB.items.map Prod.fst := by
  match hres : (if dbB.blockSize < item.encLen then
      (if 1 < dbB.blocks then resize dbB (nextPow2 item.encLen)
       else some { dbB with blockSize := nextPow2 item.encLen })
    else some dbB) with
  | none =>
    simp only [hres] at h
    exact absurd h (by simp)
  | some db1 =>
    simp only [hres] at h
    have hkeys1 : ∀ key ∈ db1.items.map Prod.fst, key ∈ dbB.items.map Prod.fst := by
      by_cases hg1 : dbB.blockSize < item.encLen
      · rw [if_pos hg1] at hres
        by_cases hg2 : 1 < dbB.blocks
        · rw [if_pos hg2] at hres
          exact resize_keys hn hres
        · rw [if_neg hg2] at hres
          have : ({ dbB with blockSize := nextPow2 item.encLen } : Database) = db1 := by
            injection hres
          rw [← this]
          exact fun key hk => hk
      · rw [if_neg hg1] at hres
        have : dbB = db1 := by injection hres
        rw [← this]
        exact fun key hk => hk
    match hd' : db1.items.lookup item.id with
    | none =>
      simp only [hd'] at h
      exact absurd h (by simp)
    | some d' =>
      simp only [hd'] at h
      by_cases hc : d'.cached = true
      · rw [if_pos hc] at h
        have hse : (writeToBlock { db1 with
            cache := db1.cache.set d'.cacheIndex.toNat item } block item
            ({ db1 with cache := db1.cache.set d'.cacheIndex.toNat item } : Database).blockSize) = s' := by
          injection h
        intro key hk
        apply hkeys1
        rw [← hse] at hk
        exact hk
      · rw [if_neg hc] at h
        by_cases hpb : bC ≤ db1.cache.length ∧
            db1.blockSize * (db1.cache.length + 1) ≤ db1.maxCacheSize
        · rw [if_pos hpb] at h
          intro key hk
          apply hkeys1
          have hse := h
          rw [Option.some.injEq] at hse
          rw [← hse] at hk
          have hk2 : key ∈ (assocSet db1.items item.id
              { d' with cached := true, cacheIndex := (db1.cache.length : Int) }).map
              Prod.fst := hk
          rw [assocSet_keys (by rw [hd']; rfl)] at hk2
          exact hk2
        · rw [if_neg hpb] at h
          intro key hk
          apply hkeys1
          have hse := h
          rw [Option.some.injEq] at hse
          rw [← hse] at hk
          exact hk

theorem insert_keys {s : Database} {freshId : String} {item0 : Item}
    {s' : Database} (hn : (s.items.map Prod.fst).Nodup)
    (h : insert s freshId item0 = some s') :
    ∀ key ∈ s'.items.map Prod.fst,
      key ∈ s.items.map Prod.fst ∨ (item0.id ≠ "" ∧ key = item0.id) ∨
        key = freshId := by
  unfold insert at h
  by_cases hid : item0.id = ""
  · have hcond : ¬(item0.id ≠ "") := by simp [hid]
    simp only [if_neg hcond] at h
    intro key hk
    have hstep := @insert_resized_keys
      { s with blocks := s.blocks + 1, items := assocSet s.items freshId { block := s.blocks, cached := false, cacheIndex := -1 } }
      { item0 with id := freshId } s.blocks s.blocks _
      (assocSet_keys_nodup hn) h key hk
    rcases assocSet_keys_mem key hstep with h1 | h2
    · exact Or.inl h1
    · exact Or.inr (Or.inr h2)
  · have hcond : item0.id ≠ "" := hid
    simp only [if_pos hcond] at h
    match hex : s.items.lookup item0.id with
    | some d00 =>
      simp only [hex] at h
      intro key hk
      have hstep := @insert_resized_keys
        { s with items := assocSet s.items item0.id d00 }
        item0 s.blocks d00.block _
        (assocSet_keys_nodup hn) h key hk
      rcases assocSet_keys_mem key hstep with h1 | h2
      · exact Or.inl h1
      · exact Or.inr (Or.inl ⟨hcond, h2⟩)
    | none =>
      simp only [hex] at h
      intro key hk
      have hstep := @insert_resized_keys
        { s with blocks := s.blocks + 1, items := assocSet s.items item0.id { block := s.blocks, cached := false, cacheIndex := -1 } }
        item0 s.blocks s.blocks _
        (assocSet_keys_nodup hn) h key hk
      rcases assocSet_keys_mem key hstep with h1 | h2
      · exact Or.inl h1
      · exact Or.inr (Or.inl ⟨hcond, h2⟩)

theorem readFromBlock_id {db : Database} (hS : StateInv db) :
    ∀ b item, readFromBlock db b = some item →
      item.id ∈ db.items.map Prod.fst := by
  intro b item h
  have hget := readFromBlock_some h
  have hblt : b < db.blocks := by
    have hlt : b < db.fileData.length := by
      by_contra hge
      push_neg at hge
      rw [List.get?_len_le hge] at hget
      cases hget
    have := hS.2.2.2.2.2.2.1
    omega
  obtain ⟨p, hp, hpb⟩ := blocks_surjective hS b hblt
  have hdok := (hS.2.2.2.2.2.2.2 p hp).2.2.2
  have hid : item.id = p.1 := diskIdOKB_spec hdok item (by rw [hpb]; exact hget)
  rw [hid]
  exact List.mem_map_of_mem _ hp

theorem iterateCached_closure_ids {σ : Type} {db : Database}
    {handler : σ → Item → Option (σ × Bool)} (P : σ → Prop)
    (hok : ∀ p ∈ db.items, entryOK db p)
    (hstep : ∀ st item st' c, P st → item.id ∈ db.items.map Prod.fst →
      handler st item = some (st', c) → P st') :
    ∀ (l : List (String × ItemData)), (∀ p ∈ l, p ∈ db.items) →
    ∀ (st : σ) (res : σ × Bool),
    iterateCached db handler st l = some res → P st → P res.1 := by
  intro l
  induction l with
  | nil =>
    intro _ st res h hP
    have h2 : (st, false) = res := by injection h
    rw [← h2]
    exact hP
  | cons p rest ih =>
    intro hl st res h hP
    obtain ⟨k, d⟩ := p
    have hmem : (k, d) ∈ db.items := hl _ (List.mem_cons_self _ _)
    have hrest : ∀ q ∈ rest, q ∈ db.items :=
      fun q hq => hl q (List.mem_cons_of_mem _ hq)
    rw [show iterateCached db handler st ((k, d) :: rest) =
      (if d.cached then
        match cacheGet db d.cacheIndex with
        | none => none
        | some item =>
          match handler st item with
          | none => none
          | some (st', cont) =>
            if cont then iterateCached db handler st' rest
            else some (st', true)
      else iterateCached db handler st rest) from rfl] at h
    by_cases hc : d.cached = true
    · rw [if_pos hc] at h
      match hcg : cacheGet db d.cacheIndex with
      | none => rw [hcg] at h; cases h
      | some item =>
        simp only [hcg] at h
        have hid : item.id ∈ db.items.map Prod.fst := by
          have hokp := hok _ hmem
          rw [cacheGet_of_entry hokp hc] at hcg
          obtain ⟨-, -, hca, -⟩ := hokp
          obtain ⟨-, hmapid⟩ := hca hc
          rw [hcg] at hmapid
          have : item.id = k := by simpa using hmapid
          rw [this]
          exact List.mem_map_of_mem _ hmem
        match hh : handler st item with
        | none => simp only [hh] at h; exact Option.noConfusion h
        | some (st', cont) =>
          simp only [hh] at h
          have hP' : P st' := hstep st item st' cont hP hid hh
          by_cases hcont : cont = true
          · rw [hcont, if_pos rfl] at h
            exact ih hrest st' res h hP'
          · have hcf : cont = false := by
              cases hcv : cont
              · rfl
              · exact absurd hcv hcont
            rw [hcf] at h
            simp only [Bool.false_eq_true, if_false] at h
            have h2 : (st', true) = res := by injection h
            rw [← h2]
            exact hP'
    · rw [if_neg hc] at h
      exact ih hrest st res h hP

theorem oocAux_closure_ids {σ : Type} {db : Database}
    {handler : σ → Item → Option (σ × Bool)} (P : σ → Prop)
    (hrd : ∀ b item, readFromBlock db b = some item →
      item.id ∈ db.items.map Prod.fst)
    (hstep : ∀ st item st' c, P st → item.id ∈ db.items.map Prod.fst →
      handler st item = some (st', c) → P st') :
    ∀ (rem index : Nat) (st : σ) (res : σ × Bool),
    oocAux db handler rem index st = some res → P st → P res.1 := by
  intro rem
  induction rem with
  | zero =>
    intro index st res h hP
    rw [show oocAux db handler 0 index st = some (st, true) from rfl] at h
    cases h
    exact hP
  | succ rem ih =>
    intro index st res h hP
    simp only [oocAux] at h
    match hr : readFromBlock db index with
    | none => rw [hr] at h; cases h
    | some item =>
      simp only [hr] at h
      match hh : handler st item with
      | none => simp only [hh] at h; exact Option.noConfusion h
      | some (st', cont) =>
        simp only [hh] at h
        have hP' : P st' := hstep st item st' cont hP (hrd index item hr) hh
        by_cases hcont : cont = true
        · rw [hcont, if_pos rfl] at h
          exact ih (index + 1) st' res h hP'
        · have hcf : cont = false := by
            cases hcv : cont
            · rfl
            · exact absurd hcv hcont
          rw [hcf] at h
          simp only [Bool.false_eq_true, if_false] at h
          cases h
          exact hP'

theorem iterate_closure_ids {σ : Type} {db : Database}
    {handler : σ → Item → Option (σ × Bool)} (P : σ → Prop) (hS : StateInv db)
    (hstep : ∀ st item st' c, P st → item.id ∈ db.items.map Prod.fst →
      handler st item = some (st', c) → P st')
    {st : σ} {res : σ × Bool}
    (h : iterate db handler st = some res) (hP : P st) : P res.1 := by
  have hok : ∀ p ∈ db.items, entryOK db p := hS.2.2.2.2.2.2.2
  unfold iterate at h
  match hic : iterateCached db handler st db.items with
  | none => rw [hic] at h; cases h
  | some pr =>
    obtain ⟨st1, stopped⟩ := pr
    simp only [hic] at h
    have hP1 : P st1 := iterateCached_closure_ids P hok hstep db.items
      (fun p hp => hp) st (st1, stopped) hic hP
    by_cases hlt : db.cache.length < db.blocks
    · rw [if_pos hlt] at h
      exact oocAux_closure_ids P (readFromBlock_id hS) hstep _ _ st1 res h hP1
    · rw [if_neg hlt] at h
      cases h
      exact hP1

theorem addToResults_tail_subset (q : Query) (results : List Item)
    (lim : Option Nat) (srt : Option (Item → Item → Int)) (it' : Item) :
    ∀ r ∈ (if queryIdIsPlainString q then (results ++ [it'], false)
      else match lim with
        | some limit =>
          if (results ++ [it']).length = limit ∧ srt.isNone then
            (results ++ [it'], false)
          else if (results ++ [it']).length > limit then
            ((match srt with
              | some cmp => jsSortItems cmp (results ++ [it'])
              | none => results ++ [it']).dropLast, true)
          else (results ++ [it'], true)
        | none => (results ++ [it'], true)).1,
      r ∈ results ++ [it'] := by
  intro r hr
  by_cases h1 : queryIdIsPlainString q = true
  · rw [if_pos h1] at hr
    exact hr
  · rw [if_neg h1] at hr
    match hlim : lim with
    | none =>
      simp only [hlim] at hr
      exact hr
    | some limit =>
      simp only [hlim] at hr
      by_cases h2 : (results ++ [it']).length = limit ∧ srt.isNone
      · rw [if_pos h2] at hr
        exact hr
      · rw [if_neg h2] at hr
        by_cases h3 : (results ++ [it']).length > limit
        · rw [if_pos h3] at hr
          have hsub : r ∈ (match srt with
              | some cmp => jsSortItems cmp (results ++ [it'])
              | none => results ++ [it']) :=
            List.IsPrefix.subset (List.dropLast_prefix _) hr
          match hs : srt with
          | some cmp =>
            simp only [hs] at hsub
            unfold jsSortItems at hsub
            exact (List.Perm.mem_iff (List.mergeSort_perm _ _)).mp hsub
          | none =>
            simp only [hs] at hsub
            exact hsub
        · rw [if_neg h3] at hr
          exact hr

theorem addToResults_subset (item : Item) (q : Query) (results : List Item)
    (opts : FindOptions) :
    ∀ r ∈ (addToResults item q results opts).1,
      r ∈ results ++ [match opts.projections with
        | some proj => applyProjections item proj
        | none => item] := by
  intro r hr
  match hpj : opts.projections with
  | some proj =>
    have hr2 : r ∈ (if queryIdIsPlainString q then
        (results ++ [applyProjections item proj], false)
      else match opts.limit with
        | some limit =>
          if (results ++ [applyProjections item proj]).length = limit ∧
              opts.sort.isNone then
            (results ++ [applyProjections item proj], false)
          else if (results ++ [applyProjections item proj]).length > limit then
            ((match opts.sort with
              | some cmp => jsSortItems cmp (results ++ [applyProjections item proj])
              | none => results ++ [applyProjections item proj]).dropLast, true)
          else (results ++ [applyProjections item proj], true)
        | none => (results ++ [applyProjections item proj], true)).1 := by
      unfold addToResults at hr
      simp only [hpj] at hr
      exact hr
    exact addToResults_tail_subset q results opts.limit opts.sort _ r hr2
  | none =>
    have hr2 : r ∈ (if queryIdIsPlainString q then (results ++ [item], false)
      else match opts.limit with
        | some limit =>
          if (results ++ [item]).length = limit ∧ opts.sort.isNone then
            (results ++ [item], false)
          else if (results ++ [item]).length > limit then
            ((match opts.sort with
              | some cmp => jsSortItems cmp (results ++ [item])
              | none => results ++ [item]).dropLast, true)
          else (results ++ [item], true)
        | none => (results ++ [item], true)).1 := by
      unfold addToResults at hr
      simp only [hpj] at hr
      exact hr
    exact addToResults_tail_subset q results opts.limit opts.sort _ r hr2

theorem find_ids {db : Database} {q : Query} {opts : FindOptions}
    {results : List Item} (hS : StateInv db)
    (h : find db q opts = some results) :
    ∀ r ∈ results, r.id ∈ db.items.map Prod.fst ∨ r.id = "" := by
  have hgen : ∀ pr : List Item × Bool,
      iterate db (fun results item =>
        if matchesQuery item q then some (addToResults item q results opts)
        else some (results, true)) [] = some pr →
      ∀ r ∈ pr.1, r.id ∈ db.items.map Prod.fst ∨ r.id = "" := by
    intro pr hit
    refine iterate_closure_ids
      (fun rs => ∀ r ∈ rs, r.id ∈ db.items.map Prod.fst ∨ r.id = "") hS
      ?_ hit (fun r hr => absurd hr (List.not_mem_nil _))
    intro st item st' c hP hid hh
    by_cases hm : matchesQuery item q = true
    · rw [if_pos hm] at hh
      have hpr : addToResults item q st opts = (st', c) := by injection hh
      intro r hr
      have hr2 : r ∈ (addToResults item q st opts).1 := by rw [hpr]; exact hr
      have hsub := addToResults_subset item q st opts r hr2
      rcases List.mem_append.mp hsub with hl | hrr
      · exact hP r hl
      · match hpj : opts.projections with
        | none =>
          simp only [hpj] at hrr
          have : r = item := by simpa using hrr
          rw [this]
          exact Or.inl hid
        | some proj =>
          simp only [hpj] at hrr
          have hre : r = applyProjections item proj := by simpa using hrr
          rw [hre]
          unfold applyProjections
          simp only []
          split
          · exact Or.inl hid
          · exact Or.inr rfl
    · rw [if_neg hm] at hh
      have hpr : ((st, true) : List Item × Bool) = (st', c) := by injection hh
      intro r hr
      apply hP
      have hse : st = st' := congrArg Prod.fst hpr
      rw [hse]
      exact hr
  unfold find at h
  match hqk : (queryIdVal q).bind jsPropKey with
  | some idKey =>
    simp only [hqk] at h
    match hlk : db.items.lookup idKey with
    | some d =>
      simp only [hlk] at h
      obtain ⟨r0, hr0, hres⟩ := Option.map_eq_some'.mp h
      intro r hr
      rw [← hres, List.mem_singleton] at hr
      subst hr
      left
      by_cases hc : d.cached = true
      · rw [if_pos hc] at hr0
        have hmem := lookup_mem hlk
        have hok := hS.2.2.2.2.2.2.2 _ hmem
        rw [cacheGet_of_entry hok hc] at hr0
        obtain ⟨-, -, hca, -⟩ := hok
        obtain ⟨-, hid⟩ := hca hc
        rw [hr0] at hid
        have hre : r.id = idKey := by simpa using hid
        rw [hre]
        exact List.mem_map_of_mem _ hmem
      · rw [if_neg hc] at hr0
        exact readFromBlock_id hS _ _ hr0
    | none =>
      simp only [hlk] at h
      obtain ⟨pr, hit, hres⟩ := Option.map_eq_some'.mp h
      intro r hr
      exact hgen pr hit r (by rw [hres]; exact hr)
  | none =>
    simp only [hqk] at h
    obtain ⟨pr, hit, hres⟩ := Option.map_eq_some'.mp h
    intro r hr
    exact hgen pr hit r (by rw [hres]; exact hr)

theorem update_fold_inv (upd : Update) (orig : List String)
    (freshIds : List String) (hnd : freshIds.Nodup)
    (hfr : ∀ id ∈ freshIds, id ∉ orig ∧ id ∉ updAssignedIds upd ∧ id ≠ "") :
    ∀ (results : List Item) (k : Nat) (db : Database)
      (st' : Database × List String),
    StateInv db →
    (∀ key ∈ db.items.map Prod.fst, key ∈ orig ∨ key ∈ updAssignedIds upd ∨
      key ∈ freshIds.take k) →
    (∀ r ∈ results, r.id ∈ orig ∨ r.id = "") →
    k + results.length ≤ freshIds.length →
    results.foldlM (fun (st : Database × List String) item =>
        match applyUpdate item upd with
        | none => none
        | some item' =>
          match insert st.1 (st.2.headD "") item' with
          | none => none
          | some db' => some (db', st.2.tail)) (db, freshIds.drop k) =
      some st' →
    StateInv st'.1 := by
  intro results
  induction results with
  | nil =>
    intro k db st' hS hkeys hres hlen h
    have h2 : ((db, freshIds.drop k) : Database × List String) = st' := by
      injection h
    rw [← h2]
    exact hS
  | cons r rs ih =>
    intro k db st' hS hkeys hres hlen h
    rw [List.foldlM_cons] at h
    match hau : applyUpdate r upd with
    | none => simp only [hau] at h; exact Option.noConfusion h
    | some item' =>
      simp only [hau] at h
      have hklt : k < freshIds.length := by
        have hlc : (r :: rs).length = rs.length + 1 := rfl
        omega
      have hdrop : freshIds.drop k = freshIds[k] :: freshIds.drop (k + 1) :=
        List.drop_eq_getElem_cons hklt
      simp only [hdrop, List.headD_cons, List.tail_cons] at h
      have hmemK : freshIds[k] ∈ freshIds := List.getElem_mem hklt
      have hknotake : freshIds[k] ∉ freshIds.take k := by
        intro hmem
        have hsplit := List.take_append_drop k freshIds
        have hnd2 : (freshIds.take k ++ freshIds.drop k).Nodup := by
          rw [hsplit]
          exact hnd
        rw [List.nodup_append] at hnd2
        exact hnd2.2.2 hmem (hdrop ▸ List.mem_cons_self _ _)
      match hins : insert db freshIds[k] item' with
      | none => simp only [hins] at h; exact Option.noConfusion h
      | some db2 =>
        simp only [hins] at h
        have hS2 : StateInv db2 := by
          apply insert_stateInv hS ?_ hins
          intro hide
          obtain ⟨hf1, hf2, hf3⟩ := hfr _ hmemK
          refine ⟨?_, hf3⟩
          intro hkmem
          rcases hkeys _ hkmem with h1 | h2 | h3
          · exact hf1 h1
          · exact hf2 h2
          · exact hknotake h3
        have hkeys2 : ∀ key ∈ db2.items.map Prod.fst,
            key ∈ orig ∨ key ∈ updAssignedIds upd ∨
              key ∈ freshIds.take (k + 1) := by
          intro key hkm
          have htakemono : ∀ x ∈ freshIds.take k, x ∈ freshIds.take (k + 1) := by
            intro x hx
            have : freshIds.take k = (freshIds.take (k + 1)).take k := by
              rw [List.take_take]
              congr 1
              omega
            rw [this] at hx
            exact List.take_subset _ _ hx
          have hkin : freshIds[k] ∈ freshIds.take (k + 1) := by
            rw [List.take_succ]
            refine List.mem_append.mpr (Or.inr ?_)
            rw [List.getElem?_eq_getElem hklt]
            exact List.mem_cons_self _ _
          rcases insert_keys hS.1 hins key hkm with h1 | ⟨hne, h2⟩ | h3
          · rcases hkeys key h1 with a | b | c
            · exact Or.inl a
            · exact Or.inr (Or.inl b)
            · exact Or.inr (Or.inr (htakemono _ c))
          · rcases applyUpdate_id upd r item' hau with he | hm | hb
            · rcases hres r (List.mem_cons_self _ _) with hro | hrb
              · exact Or.inl (by rw [h2, he]; exact hro)
              · exact absurd (by rw [he, hrb] : item'.id = "") hne
            · exact Or.inr (Or.inl (h2 ▸ hm))
            · exact absurd hb hne
          · exact Or.inr (Or.inr (h3 ▸ hkin))
        exact ih (k + 1) db2 st' hS2 hkeys2
          (fun r2 hr2 => hres r2 (List.mem_cons_of_mem _ hr2))
          (by have hlc : (r :: rs).length = rs.length + 1 := rfl; omega) h

theorem update_stateInv {s : Database} {q : Query} {upd : Update}
    {opts : FindOptions} {freshIds : List String} {n : Nat} {s' : Database}
    (hS : StateInv s) (hnd : freshIds.Nodup)
    (hfr : ∀ id ∈ freshIds, id ∉ s.items.map Prod.fst ∧
      id ∉ updAssignedIds upd ∧ id ≠ "")
    (hlen : ∀ rs, find s q opts = some rs → rs.length ≤ freshIds.length)
    (h : update s q upd opts freshIds = some (n, s')) : StateInv s' := by
  unfold update at h
  match hfind : find s q opts with
  | none => simp only [hfind] at h; exact Option.noConfusion h
  | some results =>
    simp only [hfind] at h
    obtain ⟨st', hfold, hpr⟩ := Option.map_eq_some'.mp h
    have hids := find_ids hS hfind
    have hinv := update_fold_inv upd (s.items.map Prod.fst) freshIds hnd hfr
      results 0 s st' hS (fun key hk => Or.inl hk) hids
      (by have := hlen results hfind; omega)
      (by rw [List.drop_zero]; exact hfold)
    have hse : st'.1 = s' := congrArg Prod.snd hpr
    rw [← hse]
    exact hinv

theorem remove_stateInv {s : Database} {q : Query} {opts : RemoveOptions}
    {n : Nat} {s' : Database} (hS : StateInv s)
    (h : remove s q opts = some (n, s')) : StateInv s' := by
  rcases remove_marked hS h with hS' | ⟨db1, hM, hfill⟩
  · exact hS'
  · exact fillHoles_stateInv hM hfill

theorem reachable_state_inv {s : Database} (h : Reachable s) : StateInv s := by
  induction h with
  | init => decide
  | tune m _ ih => exact ih
  | insertStep freshId item _ hfresh hins ih => exact insert_stateInv ih hfresh hins
  | removeStep q opts n _ hrem ih => exact remove_stateInv ih hrem
  | updateStep q upd opts freshIds n _ hnd hfr hlen hupd ih =>
    exact update_stateInv ih hnd hfr hlen hupd
  | resizeStep bs _ hres ih => exact resize_stateInv ih hres

theorem stateInv_cacheInv {s : Database} (hS : StateInv s) : CacheInv s := by
  intro p hp
  obtain ⟨hblt, hiff, hal, -⟩ := hS.2.2.2.2.2.2.2 p hp
  constructor
  · intro hc
    obtain ⟨hci, hget⟩ := hal hc
    refine ⟨by rw [hci]; omega, ?_, ?_⟩
    · rw [hci, Int.toNat_natCast]
      exact hiff.mp hc
    · rw [hci, Int.toNat_natCast]
      exact hget
  · exact hiff

/-- **C1.**  In every reachable database state — after any completed
sequence of `insert`, `remove`, `update` and `resize` — every index entry
with `cached == true` has `cacheIndex ∈ [0, cache.length)` pointing at a
cache slot holding the record with that id, and the cached records are
exactly those in blocks `0 .. cache.length - 1` (the cache is a contiguous
prefix of the block sequence). -/
theorem reachable_cache_invariant {s : Database} (h : Reachable s) :
    CacheInv s :=
  stateInv_cacheInv (reachable_state_inv h)

set_option maxRecDepth 16000 in
/-- Witness for C1: the five-record demo run whose `remove` triggers
`fillHoles` on a partially-cached database with holes on both sides of the
new cache length; invariant 3 holds in the resulting state. -/
theorem reachable_cache_invariant_witness :
    ∃ s', demoTrace = some s' ∧ CacheInv s' := by
  have h0 : Reachable (Database.empty false) := Reachable.init
  have h1 : Reachable { Database.empty false with maxCacheSize := 128 } :=
    Reachable.tune 128 h0
  have h2 := Reachable.insertStep "" demoA h1 (fun h => absurd h (by decide)) rfl
  have h3 := Reachable.insertStep "" demoB h2 (fun h => absurd h (by decide)) rfl
  have h4 := Reachable.insertStep "" demoC h3 (fun h => absurd h (by decide)) rfl
  have h5 := Reachable.insertStep "" demoD h4 (fun h => absurd h (by decide)) rfl
  have h6 := Reachable.insertStep "" demoE h5 (fun h => absurd h (by decide)) rfl
  have h7 := Reachable.removeStep demoQuery { limit := some 9 } 2 h6 rfl
  exact ⟨_, rfl, reachable_cache_invariant h7⟩
